import Mathlib

/-!
# Verification of the tabular record-store engine (`DB.js`)

Shallow embedding of the record-store class `DB` from
`src/Desktop/10x/libs/common10x/DB.js` and proofs of the specified
properties.

Modelling conventions:

* A cell / field value is a `Value`: a string, an integer number, a
  boolean, or `vnull` (JavaScript `null`, the "absent/empty marker" of the
  spec).  Numbers are modelled as integers (the code paths under
  verification never produce fractional values), except for the schema
  validator where JavaScript numbers are modelled as rationals so that
  non-integer offsets are expressible.
* A JavaScript object holding record data is a `DBItem`: an association
  list of fields (insertion order preserved, later assignment replaces in
  place) plus the out-of-band `row` attribute.  `none` plays the role of
  the JavaScript `undefined` for a missing property.
* The backing medium (one worksheet) is modelled by its data region: the
  list of rows starting at `dataRowFirst`, each row a list of cell
  values.  Writing `null` to the medium stores the empty string, as the
  hosting spreadsheet medium does; cells read from the medium are never
  `null`.
* Loose (`==`/`!=`) and strict (`===`/`!==`) JavaScript equality are
  modelled by `Value.looseEq` and decidable equality respectively, over
  the value domain above.
-/

namespace DBJS

/-- A JavaScript value as it occurs in the record store: a string, an
integer number, a boolean, or `null` (the absent/empty marker). -/
inductive Value : Type where
  | str (s : String)
  | num (n : Int)
  | bool (b : Bool)
  | vnull
  deriving DecidableEq, Repr

namespace Value

/-- JavaScript `String(v)` conversion for our value domain
(`String(null) = "null"`). -/
def toStr : Value → String
  | str s => s
  | num n => toString n
  | bool b => if b then "true" else "false"
  | vnull => "null"

/-- JavaScript `Number(s)` conversion on the strings the store handles:
the empty (or all-blank) string converts to `0`, a decimal integer
literal converts to its value, everything else is `NaN` (`none`). -/
def strToNum (s : String) : Option Int :=
  if s.trim = "" then some 0 else s.trim.toInt?

/-- `ToNumber` of a boolean. -/
def boolToInt (b : Bool) : Int := if b then 1 else 0

/-- JavaScript loose equality `==` restricted to our value domain:
`null` is loosely equal only to `null` (and `undefined`, handled at the
`Option Value` level); a string and a number compare by converting the
string to a number; booleans convert to numbers. -/
def looseEq : Value → Value → Bool
  | vnull, vnull => true
  | vnull, _ => false
  | _, vnull => false
  | str a, str b => a == b
  | num a, num b => a == b
  | bool a, bool b => a == b
  | str s, num n => strToNum s == some n
  | num n, str s => strToNum s == some n
  | bool b, num n => boolToInt b == n
  | num n, bool b => boolToInt b == n
  | str s, bool b => strToNum s == some (boolToInt b)
  | bool b, str s => strToNum s == some (boolToInt b)

@[simp] theorem looseEq_refl (v : Value) : looseEq v v = true := by
  cases v <;> simp [looseEq]

end Value

/-- Loose equality lifted to possibly-missing values: a missing property
reads as `undefined`, and `undefined == null` holds in JavaScript. -/
def looseEqU : Option Value → Option Value → Bool
  | none, none => true
  | none, some Value.vnull => true
  | some Value.vnull, none => true
  | none, some _ => false
  | some _, none => false
  | some a, some b => Value.looseEq a b

@[simp] theorem looseEqU_refl (v : Option Value) : looseEqU v v = true := by
  cases v with
  | none => rfl
  | some v => simp [looseEqU]

/-- `DB.letter` loop body: the `do … while (columnNumber > 0)` loop of the
source, which repeatedly takes `columnNumber % 26`, prepends
`String.fromCharCode(64 + remain)` and divides by 26. -/
def letterLoop (n : Nat) (acc : String) : String :=
  let remain := n % 26
  let n' := n / 26
  let acc' := toString (Char.ofNat (64 + remain)) ++ acc
  if n' > 0 then letterLoop n' acc' else acc'
termination_by n
decreasing_by
  simp only [n'] at *
  exact Nat.div_lt_self (by omega) (by omega)

/-- `DB.letter(columnNumber)`: throws for column numbers below 1, returns
`String.fromCharCode(64 + n)` for `n < 27`, otherwise runs the loop. -/
def letter (columnNumber : Nat) : Except String String :=
  if columnNumber < 1 then .error s!"Wrong column number ({columnNumber})"
  else if columnNumber < 27 then .ok (toString (Char.ofNat (64 + columnNumber)))
  else .ok (letterLoop columnNumber "")

/-- Association-list assignment `obj[k] = v` on a JavaScript object:
if the key already exists its value is replaced in place (insertion order
kept), otherwise the pair is appended. -/
def assocSet {α : Type} : List (String × α) → String → α → List (String × α)
  | [], k, v => [(k, v)]
  | (k', v') :: t, k, v => if k' = k then (k, v) :: t else (k', v') :: assocSet t k v

/-- A record (`DBItem` in the source): named field values in property
insertion order, plus the `row` attribute (`none` when the record has not
been materialized from a grid row). -/
structure DBItem where
  fields : List (String × Value)
  row : Option Nat
  deriving DecidableEq, Repr

namespace DBItem

/-- Property read `item[k]` (`none` models JavaScript `undefined`). -/
def get (it : DBItem) (k : String) : Option Value := it.fields.lookup k

/-- Property write `item[k] = v`. -/
def set (it : DBItem) (k : String) (v : Value) : DBItem :=
  { it with fields := assocSet it.fields k v }

/-- A candidate record: no row, the given fields. -/
def mk' (fs : List (String × Value)) : DBItem := { fields := fs, row := none }

end DBItem

/-- A store instance: the resolved field schema (name → zero-based column
offset, in insertion order), the first data row number, and the backing
medium's data region (the rows from `dataRowFirst` to the bottom of the
sheet, restricted to the data columns).  `dataColumnFirst` is fixed at 1,
its default, so column offsets coincide with indices into each row. -/
structure Store where
  keys : List (String × Nat)
  dataRowFirst : Nat
  rows : List (List Value)
  deriving DecidableEq, Repr

/-- `DB.lastDataColumn` relative to `dataColumnFirst = 1`: the width of
the data region, `max (offset + 1)` over the schema. -/
def width (keys : List (String × Nat)) : Nat :=
  (keys.map (fun p => p.2 + 1)).foldr max 0

/-- One materialized record of `get dbItems()`: every schema field is
copied verbatim from the row's cells (no conversion), and `row` is the
physical row number `i + dataRowFirst`. -/
def rowToItem (keys : List (String × Nat)) (rowNum : Nat) (r : List Value) : DBItem :=
  { fields := keys.map (fun p => (p.1, r.getD p.2 (Value.str ""))), row := some rowNum }

/-- The cached full-region materialization `get dbItems()`. -/
def dbItems (st : Store) : List DBItem :=
  st.rows.enum.map (fun p => rowToItem st.keys (st.dataRowFirst + p.1) p.2)

/-- `row.every(v => v === "")`: the Row-Emptiness Flag of one row. -/
def rowIsEmpty (r : List Value) : Bool := r.all (· == Value.str "")

/-- `this._rowsEmptyStatuses`. -/
def rowsEmptyStatuses (st : Store) : List Bool := st.rows.map rowIsEmpty

/-- `DB._parseRowValuesToItem`: converts a raw row into a record, mapping
a cell that is strictly `""` to `null` and copying every other cell
verbatim; sets `row`. -/
def parseRowValuesToItem (keys : List (String × Nat)) (values : List Value) (row : Nat) :
    DBItem :=
  { fields := keys.map (fun p =>
      (p.1, if values.getD p.2 (Value.str "") = Value.str "" then Value.vnull
            else values.getD p.2 (Value.str ""))),
    row := some row }

/-- `DB.getDataItemByRow(row)` with default options: bypasses the cache
and reads the single physical row `row` (region index
`row - dataRowFirst`) from the medium, then parses it. -/
def getDataItemByRow (st : Store) (row : Nat) : DBItem :=
  parseRowValuesToItem st.keys (st.rows.getD (row - st.dataRowFirst) []) row

/-- One row of `DB._parseDataToArray`: an array of `width` cells filled
with `defaultValue`, then `dataArray[keys[key]] = item[key]` for every
schema key present in the item, in schema order. -/
def serializeItem (keys : List (String × Nat)) (w : Nat) (defaultValue : Value)
    (it : DBItem) : List Value :=
  keys.foldl (fun arr p =>
      match it.get p.1 with
      | some v => arr.set p.2 v
      | none => arr)
    (List.replicate w defaultValue)

/-- `DB._parseDataToArray` over a list of records. -/
def parseDataToArray (keys : List (String × Nat)) (defaultValue : Value)
    (items : List DBItem) : List (List Value) :=
  items.map (serializeItem keys (width keys) defaultValue)

/-- The medium's write conversion: storing `null` in a cell leaves the
empty string (the persisted representation of the absent marker). -/
def toCell (v : Value) : Value := if v = Value.vnull then Value.str "" else v

/-- Overwrite rows of the region starting at index `start` with the given
value rows (the effect of `Range.setValues`); rows beyond the region are
dropped, a case the verified flows never reach. -/
def writeRows : List (List Value) → Nat → List (List Value) → List (List Value)
  | rs, _, [] => rs
  | [], _, _ => []
  | _r :: rs, 0, v :: vs => v.map toCell :: writeRows rs 0 vs
  | r :: rs, k + 1, vs => r :: writeRows rs k vs

/-- `DB._setValues(row, dataColumnFirst, values)`: no-op on an empty
block, otherwise a block overwrite at region index `row - dataRowFirst`. -/
def setValues (st : Store) (row : Nat) (values : List (List Value)) : Store :=
  match values with
  | [] => st
  | r0 :: _ =>
    if r0 = [] then st
    else { st with rows := writeRows st.rows (row - st.dataRowFirst) values }

/-- `DB._filterKeysFrom(ignoreKeys)` (with a list supplied): the schema
without the named keys. -/
def filterKeysFrom (keys : List (String × Nat)) (ignoreKeys : List String) :
    List (String × Nat) :=
  keys.filter (fun p => !ignoreKeys.contains p.1)

/-- `DB.updateDataItemByRow(row, dataItem, {controlKeys, ignoreKeys})`:
reads the current record at `row` (through `getDataItemByRow`, hence
deserialized), refuses with `false` on any strict control-field mismatch
without touching the medium, otherwise copies the caller's fields outside
`controlKeys ++ ignoreKeys` onto the current record, re-serializes the
full row, writes it back and returns `true`.  An absent `controlKeys` /
`ignoreKeys` option is modelled by `[]` (the source skips the guard
exactly when the list is missing or empty). -/
def updateDataItemByRow (st : Store) (row : Nat) (dataItem : DBItem)
    (controlKeys : List String) (ignoreKeys : List String) : Bool × Store :=
  let currentDataItem := getDataItemByRow st row
  if controlKeys.any (fun k => !(currentDataItem.get k == dataItem.get k)) then
    (false, st)
  else
    let keys := filterKeysFrom st.keys (controlKeys ++ ignoreKeys)
    let updatedItem := keys.foldl (fun c p =>
        match dataItem.get p.1 with
        | some v => c.set p.1 v
        | none => c) currentDataItem
    let values := parseDataToArray st.keys Value.vnull [updatedItem]
    (true, setValues st (updatedItem.row.getD 0) values)

/-- The list branch of `DB._validateAndSetKeys`: walk the key names,
assigning offsets by position, and fail as soon as a name repeats.  (The
source's `keys[i] !== undefined || keys[i] !== null` guard is a
tautology, so every entry is processed.) -/
def validateKeysArrayGo : List (String × Nat) → Nat → List String →
    Except String (List (String × Nat))
  | acc, _, [] => .ok acc
  | acc, i, k :: t =>
    if (acc.lookup k).isSome then .error "keys array must contain only unique values"
    else validateKeysArrayGo (acc ++ [(k, i)]) (i + 1) t

/-- `DB._validateAndSetKeys(keys)` when `keys` is an array of names. -/
def validateKeysArray (keys : List String) : Except String (List (String × Nat)) :=
  if keys = [] then .error "Have no keys"
  else validateKeysArrayGo [] 0 keys

/-- `DB._validateAndSetKeys(keys)` when `keys` is a name → offset mapping.
Offsets are JavaScript numbers, modelled as rationals; the source checks
only `typeof keys[key] == "number"` (intrinsic to the type here) and
`keys[key] >= 0`. -/
def validateKeysMap (keys : List (String × ℚ)) : Except String (List (String × ℚ)) :=
  if keys = [] then .error "Have no keys"
  else if keys.all (fun p => 0 ≤ p.2) then .ok keys
  else .error "key value can not be less then 0"

/-- JavaScript truthiness of a cell value (`if (value)` in
`_getKeysFromSheet`): `""`, `0`, `false` and `null` are falsy. -/
def truthy : Value → Bool
  | Value.str s => s ≠ ""
  | Value.num n => n ≠ 0
  | Value.bool b => b
  | Value.vnull => false

/-- `DB._isItemHasData` applied to a keys object: its values are numbers,
which are never loosely equal to `null`, so the object "has data" exactly
when it has an entry under a name other than `"row"`. -/
def isItemHasData (fs : List (String × Nat)) : Bool := fs.any (fun p => p.1 ≠ "row")

/-- `DB._getKeysFromSheet`: reduce over the header-row cells; every truthy
cell contributes a key named by its string coercion at its column index
(`acc[value] = index`, so a repeated name keeps its first position with
the later index); fails with "no keys found" when the result has no
usable entry. -/
def getKeysFromSheet (header : List Value) : Except String (List (String × Nat)) :=
  let keys := header.enum.foldl
    (fun acc p => if truthy p.2 then assocSet acc p.2.toStr p.1 else acc) []
  if isItemHasData keys then .ok keys
  else .error "DB: No keys found on sheet"

/-- The schema-relevant state of a store whose keys are auto-discovered
(no explicit `keys` argument was given to the constructor): the header
row currently on the medium and the `_keys` cache behind the `keys`
getter. -/
structure AutoKeysDB where
  header : List Value
  keysCache : Option (List (String × Nat))
  deriving DecidableEq, Repr

/-- The `keys` getter via `_isInit`: return the cache when present,
otherwise derive the schema from the header row and cache it. -/
def getKeys (db : AutoKeysDB) : Except String (List (String × Nat) × AutoKeysDB) :=
  match db.keysCache with
  | some ks => .ok (ks, db)
  | none => (getKeysFromSheet db.header).map
      (fun ks => (ks, { db with keysCache := some ks }))

/-- `DB.resetKeys()` on an auto-keyed store: `_reset("keys")` clears the
cached schema (the other reset properties are derived from `keys` and do
not appear in this projection of the state). -/
def resetKeysAuto (db : AutoKeysDB) : AutoKeysDB := { db with keysCache := none }

/-- An edit of the header row on the medium, performed outside the store
instance. -/
def editHeader (db : AutoKeysDB) (h : List Value) : AutoKeysDB := { db with header := h }

/-- `DB.resetCache()` restricted to the schema state: it resets only
`values`, `dbItems` and the emptiness flags, leaving the keys cache
untouched, so on this projection it is the identity. -/
def resetCacheKeysView (db : AutoKeysDB) : AutoKeysDB := db

/-- `DB.resetKeys()` on a store constructed with explicit keys:
`_validateAndSetKeys` replaced it by a function that always throws. -/
def resetKeysExplicit : Except String Unit := .error "keys are imutable"

/-- The chunk-building loop of `DB._deleteDataItemsByChunks`: the current
chunk is `{firstRow := f, lastRow := l}` and the remaining row numbers
(walked from index `length - 2` down to `0` of the ascending array, i.e.
in descending order) are consumed one by one; a gap other than exactly 1
finishes the current chunk and starts a new one, otherwise the chunk's
`firstRow` is lowered. -/
def deleteChunksLoop : Nat → Nat → List Nat → List (Nat × Nat)
  | f, l, [] => [(f, l)]
  | f, l, r :: rest =>
    if f - r ≠ 1 then (f, l) :: deleteChunksLoop r r rest
    else deleteChunksLoop r l rest

/-- `DB.deleteDataItems(dbItems)` observed through the medium calls it
issues: the records' row numbers are sorted ascending (the source's
comparator `a.row > b.row ? 1 : -1` sorts ascending for distinct rows),
the chunks are built from the highest row downwards, and one
`deleteRows(firstRow, lastRow - firstRow + 1)` call is issued per chunk
in the order the chunks were built.  Returns the list of
`(start_row, count)` arguments in call order; an empty input issues no
call. -/
def deleteDataItems (rows : List Nat) : List (Nat × Nat) :=
  let sorted := rows.insertionSort (· ≤ ·)
  match sorted.reverse with
  | [] => []
  | r :: rest =>
    (deleteChunksLoop r r rest).map (fun c => (c.1, c.2 - c.1 + 1))

/-- Modelled from the spec: the loop of the maximal-run partition of an
ascending row list — `specRuns` below names the claim's "maximal runs of
consecutive integers in the sorted row set". -/
def specRunsLoop : Nat → Nat → List Nat → List (Nat × Nat)
  | f, l, [] => [(f, l)]
  | f, l, r :: rest =>
    if r = l + 1 then specRunsLoop f r rest
    else (f, l) :: specRunsLoop r r rest

/-- Modelled from the spec: the maximal runs `{first_row, last_row}` of an
ascending list of row numbers. -/
def specRuns : List Nat → List (Nat × Nat)
  | [] => []
  | r :: rest => specRunsLoop r r rest

/-- `DB._checkKeys(keys)`: every named key must exist in the schema; an
empty list (or a non-string, non-array argument) is "Invalid keys".  A
single-string argument is modelled as a one-element list. -/
def checkKeys (schema : List (String × Nat)) (ks : List String) : Except String Unit :=
  if ks = [] then .error "DB: Invalid keys"
  else if ks.all (fun k => (schema.lookup k).isSome) then .ok ()
  else .error "DB: No key in sheet"

/-- String coercion of `item[k]` as it happens when the value is used as
an object property key or interpolated into a template literal
(`String(undefined) = "undefined"`). -/
def fieldStr (it : DBItem) (k : String) : String :=
  match it.get k with
  | some v => v.toStr
  | none => "undefined"

/-- The hash function produced by `DB._getKeysHashFunction(useKeys)`: the
single-key form returns `item[key]` (coerced to a string at its use as a
property key), the multi-key form joins the coerced values with `"|"`. -/
def hashFun (useKeys : List String) (it : DBItem) : String :=
  String.intercalate "|" (useKeys.map (fieldStr it))

/-- The hash key assignment shared by both grouping paths: the raw hash,
transformed by `keyCB` when one was supplied. -/
def hashWith (useKeys : List String) (keyCB : Option (String → String))
    (it : DBItem) : String :=
  match keyCB with
  | some g => g (hashFun useKeys it)
  | none => hashFun useKeys it

/-- The accumulation loop of `DB.getDataItemsObject`: `items[hashKey] =
item` for each materialized record in row order — a repeated hash key
replaces the earlier record (last record wins), no error is raised. -/
def buildObj (hf : DBItem → String) (items : List DBItem) : List (String × DBItem) :=
  items.foldl (fun obj it => assocSet obj (hf it) it) []

/-- The records `DB.getDataItemsObject` iterates: the materialized
records minus the all-empty rows, filtered by `filterCB` when present. -/
def currentItemsList (st : Store) (filterCB : Option (DBItem → Bool)) : List DBItem :=
  ((dbItems st).zip (rowsEmptyStatuses st)).filterMap (fun p =>
    if p.2 then none
    else match filterCB with
      | some f => if f p.1 then some p.1 else none
      | none => some p.1)

/-- `DB.getDataItemsObject(useKeys, {filterCB, keyCB})` (no `itemCB`, no
`ignoreKeys`, as `mergeDataItems` calls it): validates `useKeys`, then
groups the current records by hash key, later records silently
overwriting earlier ones on a hash collision. -/
def getDataItemsObject (st : Store) (useKeys : List String)
    (filterCB : Option (DBItem → Bool)) (keyCB : Option (String → String)) :
    Except String (List (String × DBItem)) := do
  let _ ← checkKeys st.keys useKeys
  .ok (buildObj (hashWith useKeys keyCB) (currentItemsList st filterCB))

/-- The loop of `DB._parseDataItemsArrayToObject`: fails fast when a hash
key is already present. -/
def parseArrayGo (hf : DBItem → String) :
    List (String × DBItem) → List DBItem → Except String (List (String × DBItem))
  | obj, [] => .ok obj
  | obj, it :: t =>
    let h := hf it
    if (obj.lookup h).isSome then
      .error "Parse DataItemsArray to DataItemsObject error: hash already exists in dataItemsObject"
    else parseArrayGo hf (assocSet obj h it) t

/-- `DB._parseDataItemsArrayToObject(dataItems, useKeys, keyCB)`. -/
def parseDataItemsArrayToObject (schema : List (String × Nat)) (useKeys : List String)
    (keyCB : Option (String → String)) (dataItems : List DBItem) :
    Except String (List (String × DBItem)) := do
  let _ ← checkKeys schema useKeys
  parseArrayGo (hashWith useKeys keyCB) [] dataItems

/-- The default `isUpdateCB` of `mergeDataItems`: some comparison key
present in the new record differs (JavaScript `!=`) from the current
record's value. -/
def defaultIsUpdate (cmpKeys : List (String × Nat)) (c n : DBItem) : Bool :=
  cmpKeys.any (fun p => (n.get p.1).isSome && !looseEqU (c.get p.1) (n.get p.1))

/-- The default `updateCB` of `mergeDataItems`: copy every comparison key
present in the new record onto the current record. -/
def defaultUpdate (cmpKeys : List (String × Nat)) (c n : DBItem) : DBItem :=
  cmpKeys.foldl (fun acc p =>
    match n.get p.1 with
    | some v => acc.set p.1 v
    | none => acc) c

/-- The first loop of `mergeDataItems`: for every incoming hash, update
when present in the current set and `isUpdateCB` fires, insert when
absent.  Returns `(itemsToUpdate, itemsToInsert, updated, inserted)`. -/
def mergeLoop1 (curObj : List (String × DBItem)) (isUp : DBItem → DBItem → Bool)
    (upd : DBItem → DBItem → DBItem) (incObj : List (String × DBItem)) :
    List (String × DBItem) × List (String × DBItem) × Nat × Nat :=
  incObj.foldl (fun acc p =>
      let (toUpdate, toInsert, updated, inserted) := acc
      match curObj.lookup p.1 with
      | some currentItem =>
        if isUp currentItem p.2 then
          (assocSet toUpdate p.1 (upd currentItem p.2), toInsert, updated + 1, inserted)
        else acc
      | none => (toUpdate, assocSet toInsert p.1 p.2, updated, inserted + 1))
    ([], [], 0, 0)

/-- The delete loop of `mergeDataItems` (runs only when an `isDeleteCB`
was supplied): a current hash absent from the update set and from the
incoming set is offered to the callback. -/
def mergeDeleteLoop (curObj incObj toUpdate : List (String × DBItem))
    (isDel : DBItem → Bool) : List (String × DBItem) × Nat :=
  curObj.foldl (fun acc p =>
      if (toUpdate.lookup p.1).isNone && (incObj.lookup p.1).isNone && isDel p.2 then
        (assocSet acc.1 p.1 p.2, acc.2 + 1)
      else acc)
    ([], 0)

/-- The two merge loops, given the already-grouped collections: the three
reconciliation sets and their counts (the defaults for `isUpdateCB` and
`updateCB` are filled in from `comparsionKeys` as in the source). -/
def mergeSetsCore (comparsionKeys : List (String × Nat))
    (curObj incObj : List (String × DBItem))
    (isUpdateCB : Option (DBItem → DBItem → Bool))
    (updateCB : Option (DBItem → DBItem → DBItem))
    (isDeleteCB : Option (DBItem → Bool)) :
    (List (String × DBItem) × List (String × DBItem) × List (String × DBItem)) ×
      Nat × Nat × Nat :=
  let isUp := isUpdateCB.getD (defaultIsUpdate comparsionKeys)
  let upd := updateCB.getD (defaultUpdate comparsionKeys)
  let (toUpdate, toInsert, updated, inserted) := mergeLoop1 curObj isUp upd incObj
  let (toDelete, deleted) :=
    match isDeleteCB with
    | some d => mergeDeleteLoop curObj incObj toUpdate d
    | none => ([], 0)
  ((toUpdate, toInsert, toDelete), updated, inserted, deleted)

/-- Everything `DB.mergeDataItems` computes before touching the medium:
the grouped current records, the grouped incoming records, and the three
reconciliation sets with their counts. -/
def mergeSets (st : Store) (dataItems : List DBItem) (useKeys : List String)
    (isUpdateCB : Option (DBItem → DBItem → Bool))
    (updateCB : Option (DBItem → DBItem → DBItem))
    (isDeleteCB : Option (DBItem → Bool)) (filterCB : Option (DBItem → Bool))
    (keyCB : Option (String → String)) (ignoreKeys : List String) :
    Except String (List (String × DBItem) × List (String × DBItem) ×
      (List (String × DBItem) × List (String × DBItem) × List (String × DBItem)) ×
      Nat × Nat × Nat) := do
  let curObj ← getDataItemsObject st useKeys filterCB keyCB
  let comparsionKeys := filterKeysFrom st.keys (useKeys ++ ignoreKeys)
  let incObj ← parseDataItemsArrayToObject st.keys useKeys keyCB dataItems
  let (sets, updated, inserted, deleted) :=
    mergeSetsCore comparsionKeys curObj incObj isUpdateCB updateCB isDeleteCB
  .ok (curObj, incObj, sets, updated, inserted, deleted)

/-- The chunk-building loop of `DB._updateDataItemsByChunks` on the
row-ascending item array: a chunk is `(firstRow, items of the chunk)`. -/
def updateChunksGo : Nat → Nat → List DBItem → List DBItem → List (Nat × List DBItem)
  | f, _l, acc, [] => [(f, acc)]
  | f, l, acc, it :: rest =>
    let r := it.row.getD 0
    if r - l ≠ 1 then (f, acc) :: updateChunksGo r r [it] rest
    else updateChunksGo f r (acc ++ [it]) rest

/-- `DB._updateDataItemsByChunks(itemsArray)`: build the contiguous
chunks, then issue one block write per chunk at the chunk's first row. -/
def updateDataItemsByChunks (st : Store) (itemsArray : List DBItem) : Store :=
  match itemsArray with
  | [] => st
  | it :: rest =>
    let chunks := updateChunksGo (it.row.getD 0) (it.row.getD 0) [it] rest
    chunks.foldl (fun s c => setValues s c.1 (parseDataToArray s.keys Value.vnull c.2)) st

/-- `Sheet.getLastRow()` restricted to the data region: the number of
region rows up to and including the last one that has any content (a
non-`""` cell).  The physical last content row is
`dataRowFirst - 1 + lastContentIdx` when this is positive; when it is
zero the sheet's last content row is the header row, above
`dataRowFirst`. -/
def lastContentIdx (rows : List (List Value)) : Nat :=
  (rows.reverse.dropWhile rowIsEmpty).length

/-- `DB.insertDataItems(dataItems, defaultValue = null, growUp = false)`
as `mergeDataItems` invokes it: serialize, then either append after the
last content row (inserting fresh blank rows first) or, when the region
has no content at all, insert after `dataRowFirst` and write at
`dataRowFirst`. -/
def insertDataItemsApply (st : Store) (items : List DBItem) : Store :=
  let values := parseDataToArray st.keys Value.vnull items
  if values = [] then st
  else
    let blanks : List (List Value) :=
      List.replicate values.length (List.replicate (width st.keys) (Value.str ""))
    let lc := lastContentIdx st.rows
    if lc = 0 then
      let rows1 := st.rows.take 1 ++ blanks ++ st.rows.drop 1
      setValues { st with rows := rows1 } st.dataRowFirst values
    else
      let rows1 := st.rows.take lc ++ blanks ++ st.rows.drop lc
      setValues { st with rows := rows1 } (st.dataRowFirst + lc) values

/-- One `deleteRows(start, count)` call applied to the region. -/
def deleteRowsStore (st : Store) (start cnt : Nat) : Store :=
  { st with rows := st.rows.take (start - st.dataRowFirst) ++
      st.rows.drop (start - st.dataRowFirst + cnt) }

/-- `DB.deleteDataItems` applied to the region state: issue the calls
computed by `deleteDataItems` in order. -/
def deleteDataItemsApply (st : Store) (rows : List Nat) : Store :=
  (deleteDataItems rows).foldl (fun s c => deleteRowsStore s c.1 c.2) st

/-- `DB.mergeDataItems(dataItems, useKeys, options)` in full: compute the
reconciliation sets, then apply the update set (row-sorted, by chunks),
the insert set and the delete set, in that order, skipping each phase
when its count is zero; return the counts and the resulting store. -/
def mergeDataItems (st : Store) (dataItems : List DBItem) (useKeys : List String)
    (isUpdateCB : Option (DBItem → DBItem → Bool))
    (updateCB : Option (DBItem → DBItem → DBItem))
    (isDeleteCB : Option (DBItem → Bool)) (filterCB : Option (DBItem → Bool))
    (keyCB : Option (String → String)) (ignoreKeys : List String) :
    Except String ((Nat × Nat × Nat) × Store) := do
  let (_curObj, _incObj, sets, updated, inserted, deleted) ←
    mergeSets st dataItems useKeys isUpdateCB updateCB isDeleteCB filterCB keyCB ignoreKeys
  let (toUpdate, toInsert, toDelete) := sets
  let st1 :=
    if updated ≠ 0 then
      updateDataItemsByChunks st
        ((toUpdate.map Prod.snd).insertionSort (fun a b => a.row.getD 0 ≤ b.row.getD 0))
    else st
  let st2 := if inserted ≠ 0 then insertDataItemsApply st1 (toInsert.map Prod.snd) else st1
  let st3 :=
    if deleted ≠ 0 then
      deleteDataItemsApply st2 ((toDelete.map Prod.snd).map (fun it => it.row.getD 0))
    else st2
  .ok ((updated, inserted, deleted), st3)

/-- Modelled from the spec: the standard spreadsheet base-26 column label
(`A..Z` for `1..26`, `AA..AZ` for `27..52`, `BA` for `53`, …), i.e. the
bijective base-26 numeral over the alphabet `A..Z`.  The repository code
under `src/` only contains `DB.letter`; this definition renders the
claim's "standard spreadsheet label" for comparison. -/
def specLetter : Nat → String
  | 0 => ""
  | n + 1 => specLetter (n / 26) ++ toString (Char.ofNat (65 + n % 26))
decreasing_by
  exact Nat.lt_succ_of_le (Nat.div_le_self n 26)

/-! ## Association-list lemmas -/

theorem lookup_cons' {α : Type} (k a : String) (b : α) (t : List (String × α)) :
    List.lookup k ((a, b) :: t) = if k = a then some b else t.lookup k := by
  rw [List.lookup_cons]
  by_cases h : k = a
  · simp [h]
  · rw [if_neg h]
    have hb : (k == a) = false := by simp [h]
    rw [hb]

theorem assocSet_cons {α : Type} (a k : String) (b v : α) (t : List (String × α)) :
    assocSet ((a, b) :: t) k v =
      if a = k then (k, v) :: t else (a, b) :: assocSet t k v := rfl

theorem assocSet_lookup_self {α : Type} (l : List (String × α)) (k : String) (v : α) :
    (assocSet l k v).lookup k = some v := by
  induction l with
  | nil => simp [assocSet, lookup_cons']
  | cons p t ih =>
    cases p with
    | mk a b =>
      by_cases h : a = k
      · simp [assocSet_cons, h, lookup_cons']
      · rw [assocSet_cons, if_neg h, lookup_cons', if_neg (fun h' => h h'.symm), ih]

theorem assocSet_lookup_ne {α : Type} (l : List (String × α)) (k k' : String) (v : α)
    (h : k' ≠ k) : (assocSet l k v).lookup k' = l.lookup k' := by
  induction l with
  | nil => simp [assocSet, lookup_cons', h]
  | cons p t ih =>
    cases p with
    | mk a b =>
      by_cases ha : a = k
      · subst ha
        simp [assocSet_cons, lookup_cons', h]
      · simp [assocSet_cons, ha, lookup_cons', ih]

theorem assocSet_mem {α : Type} (l : List (String × α)) (k : String) (v : α) (p : String × α)
    (h : p ∈ assocSet l k v) : p ∈ l ∨ p = (k, v) := by
  induction l with
  | nil =>
    simp [assocSet] at h
    right
    simp [h]
  | cons q t ih =>
    cases q with
    | mk a b =>
      by_cases hq : a = k
      · rw [assocSet_cons, if_pos hq] at h
        rcases List.mem_cons.mp h with h | h
        · right; exact h
        · left; exact List.mem_cons_of_mem _ h
      · rw [assocSet_cons, if_neg hq] at h
        rcases List.mem_cons.mp h with h | h
        · left; simp [h]
        · rcases ih h with h' | h'
          · left; exact List.mem_cons_of_mem _ h'
          · right; exact h'

theorem assocSet_of_lookup_none {α : Type} (l : List (String × α)) (k : String) (v : α)
    (h : l.lookup k = none) : assocSet l k v = l ++ [(k, v)] := by
  induction l with
  | nil => simp [assocSet]
  | cons p t ih =>
    cases p with
    | mk a b =>
      rw [lookup_cons'] at h
      by_cases ha : k = a
      · simp [ha] at h
      · rw [if_neg ha] at h
        rw [assocSet_cons, if_neg (fun h' => ha h'.symm), ih h]
        simp

theorem lookup_append {α : Type} (l₁ l₂ : List (String × α)) (k : String) :
    (l₁ ++ l₂).lookup k = ((l₁.lookup k).orElse (fun _ => l₂.lookup k)) := by
  induction l₁ with
  | nil => simp
  | cons p t ih =>
    cases p with
    | mk a b =>
      by_cases h : k = a
      · simp [lookup_cons', h]
      · simp [lookup_cons', h, ih]

theorem lookup_map_keys {α β : Type} (keys : List (String × α)) (f : String × α → β)
    (k : String) :
    List.lookup k (keys.map (fun p => (p.1, f p))) =
      (keys.find? (fun p => p.1 == k)).map f := by
  induction keys with
  | nil => simp
  | cons p t ih =>
    cases p with
    | mk a o =>
      by_cases h : k = a
      · subst h
        simp [lookup_cons', List.find?]
      · rw [List.map_cons, lookup_cons', if_neg h, ih, List.find?]
        have : ((a, o).1 == k) = false := by
          simp only [beq_eq_false_iff_ne, ne_eq]
          exact fun h' => h h'.symm
        rw [this]

theorem find?_key_eq_of_mem {α : Type} (keys : List (String × α)) (k : String) (v : α)
    (hnd : (keys.map Prod.fst).Nodup) (hm : (k, v) ∈ keys) :
    keys.find? (fun p => p.1 == k) = some (k, v) := by
  induction keys with
  | nil => simp at hm
  | cons p t ih =>
    cases p with
    | mk a b =>
      rw [List.map_cons, List.nodup_cons] at hnd
      rcases List.mem_cons.mp hm with h | h
      · rw [List.find?]
        have : ((a, b).1 == k) = true := by
          have := congrArg Prod.fst h.symm
          simp at this
          simp [this]
        rw [this]
        exact congrArg some h.symm
      · rw [List.find?]
        have ha : a ≠ k := by
          intro he
          exact hnd.1 (he ▸ (List.mem_map.mpr ⟨(k, v), h, rfl⟩))
        have : ((a, b).1 == k) = false := by simp [ha]
        rw [this]
        exact ih hnd.2 h

theorem find?_key_eq_none {α : Type} (keys : List (String × α)) (k : String)
    (hm : k ∉ keys.map Prod.fst) :
    keys.find? (fun p => p.1 == k) = none := by
  induction keys with
  | nil => simp
  | cons p t ih =>
    rw [List.map_cons] at hm
    rw [List.find?]
    have : (p.1 == k) = false := by
      simp only [beq_eq_false_iff_ne, ne_eq]
      intro he
      exact hm (List.mem_cons.mpr (Or.inl he.symm))
    rw [this]
    exact ih (fun h => hm (List.mem_cons.mpr (Or.inr h)))

/-! ## C10: column-number to letter conversion -/

/-- **C10** (code bug): the claim says `DB.letter` returns the standard
spreadsheet base-26 label for every column number `n ≥ 1` (in particular
`"AZ"` for 52), but at the failing input 52 the code produces `"B@"` —
`'@'` is `fromCharCode(64 + 0)`, the classic missing bijective-base-26
adjustment at multiples of 26 — which is not a valid column label, so
the cached full-region read would address an invalid range for a
52-column schema.  `specLetter` renders the claim's standard label. -/
theorem claim10_letter_column52_bug :
    letter 52 = .ok "B@" ∧ specLetter 52 = "AZ" ∧ ("B@" : String) ≠ "AZ" := by
  refine ⟨by simp [letter, letterLoop], by simp [specLetter], by decide⟩

/-! ## C9: schema validation -/

theorem validateKeysArrayGo_mem_error (l : List String) :
    ∀ (acc : List (String × Nat)) (i : Nat) (k' : String),
      (acc.lookup k').isSome = true → k' ∈ l →
      ∃ e, validateKeysArrayGo acc i l = .error e := by
  induction l with
  | nil =>
    intro acc i k' _ h
    simp at h
  | cons k t ih =>
    intro acc i k' hacc hmem
    by_cases hk : (acc.lookup k).isSome
    · exact ⟨"keys array must contain only unique values", by simp [validateKeysArrayGo, hk]⟩
    · rw [validateKeysArrayGo, if_neg (by simpa using hk)]
      rcases List.mem_cons.mp hmem with h | h
      · subst h
        exact absurd hacc (by simpa using hk)
      · refine ih (acc ++ [(k, i)]) (i + 1) k' ?_ h
        rw [lookup_append]
        rcases ho : acc.lookup k' with _ | v
        · rw [ho] at hacc
          simp at hacc
        · simp [ho]

theorem validateKeysArrayGo_dup_error (l : List String) :
    ∀ (acc : List (String × Nat)) (i : Nat), ¬ l.Nodup →
      ∃ e, validateKeysArrayGo acc i l = .error e := by
  induction l with
  | nil =>
    intro _ _ h
    simp at h
  | cons k t ih =>
    intro acc i h
    by_cases hk : (acc.lookup k).isSome
    · exact ⟨"keys array must contain only unique values", by simp [validateKeysArrayGo, hk]⟩
    · rw [validateKeysArrayGo, if_neg (by simpa using hk)]
      rw [List.nodup_cons] at h
      by_cases hkt : k ∈ t
      · refine validateKeysArrayGo_mem_error t (acc ++ [(k, i)]) (i + 1) k ?_ hkt
        rw [lookup_append]
        rcases ho : acc.lookup k with _ | v
        · simp [lookup_cons']
        · rw [ho] at hk
          simp at hk
      · have ht : ¬ t.Nodup := fun hn => h ⟨hkt, hn⟩
        exact ih (acc ++ [(k, i)]) (i + 1) ht

theorem validateKeysArray_dup_error (l : List String) (h : ¬ l.Nodup) :
    ∃ e, validateKeysArray l = .error e := by
  rcases he : l with _ | ⟨k, t⟩
  · subst he
    simp at h
  · rw [validateKeysArray, if_neg (by simp)]
    exact validateKeysArrayGo_dup_error (k :: t) [] 0 (he ▸ h)

theorem validateKeysMap_ok_iff (m : List (String × ℚ)) :
    validateKeysMap m = .ok m ↔ m ≠ [] ∧ ∀ p ∈ m, 0 ≤ p.2 := by
  rw [validateKeysMap]
  by_cases h1 : m = []
  · simp [h1]
  · rw [if_neg h1]
    by_cases h2 : m.all (fun p => decide (0 ≤ p.2))
    · rw [if_pos h2]
      simp only [List.all_eq_true, decide_eq_true_eq] at h2
      simp only [Except.ok.injEq, true_iff, ne_eq, h1, not_false_iff, true_and]
      exact h2
    · rw [if_neg h2]
      simp only [List.all_eq_true, decide_eq_true_eq] at h2
      push_neg at h2
      obtain ⟨p, hp, hlt⟩ := h2
      constructor
      · intro hbad
        exact absurd hbad (by simp)
      · rintro ⟨-, hall⟩
        exact absurd (hall p hp) (by exact not_le.mpr hlt)

/-- **C9** (corrected): schema validation from explicit keys.  The list
branch does fail on a duplicate name, but the mapping branch only checks
that each offset is a non-negative *number* — it succeeds if and only if
the mapping is non-empty and every offset is `≥ 0`; integrality is not
checked (see the counterexample). -/
theorem claim9_validation (l : List String) (m : List (String × ℚ)) (hdup : ¬ l.Nodup) :
    (∃ e, validateKeysArray l = .error e) ∧
    (validateKeysMap m = .ok m ↔ m ≠ [] ∧ ∀ p ∈ m, 0 ≤ p.2) :=
  ⟨validateKeysArray_dup_error l hdup, validateKeysMap_ok_iff m⟩

/-- Witness for `claim9_validation` at a concrete duplicate list and a
concrete mapping. -/
theorem claim9_validation_witness :
    (¬ (["a", "a"] : List String).Nodup) ∧
    ((∃ e, validateKeysArray ["a", "a"] = .error e) ∧
      (validateKeysMap [("b", (1 : ℚ))] = .ok [("b", (1 : ℚ))] ↔
        ([("b", (1 : ℚ))] : List (String × ℚ)) ≠ [] ∧
          ∀ p ∈ [("b", (1 : ℚ))], 0 ≤ p.2)) :=
  ⟨by decide, claim9_validation ["a", "a"] [("b", (1 : ℚ))] (by decide)⟩

/-- **C9** (counterexample): the explicit mapping `{a: 1.5}` has a
non-integer offset, yet `_validateAndSetKeys` accepts it — refuting
"fails unless every offset is a non-negative integer". -/
theorem claim9_counterexample :
    validateKeysMap [("a", (3 : ℚ)/2)] = .ok [("a", (3 : ℚ)/2)] ∧
    ∀ n : ℤ, ((3 : ℚ)/2) ≠ (n : ℚ) := by
  constructor
  · rw [validateKeysMap, if_neg (by simp), if_pos (by norm_num)]
  · intro n h
    have h3 : (3 : ℚ) = 2 * n := by
      field_simp at h
      linarith
    have h4 : (3 : ℤ) = 2 * n := by exact_mod_cast h3
    omega

/-! ## C6: schema immutability -/

theorem getKeys_cached (db : AutoKeysDB) (ks : List (String × Nat)) (db1 : AutoKeysDB)
    (h : getKeys db = .ok (ks, db1)) : db1.keysCache = some ks := by
  rcases db with ⟨hdr, _ | ks0⟩
  · rw [getKeys] at h
    rcases hg : getKeysFromSheet hdr with e | ks1
    · rw [hg] at h
      simp [Except.map] at h
    · rw [hg] at h
      simp only [Except.map, Except.ok.injEq, Prod.mk.injEq] at h
      rw [← h.2]
      simp [h.1]
  · rw [getKeys] at h
    simp only [Except.ok.injEq, Prod.mk.injEq] at h
    rw [← h.2, h.1]

/-- **C6** (amended): once the schema has been resolved, header-row edits
on the medium and data-cache resets (`resetCache`) never change the
instance's field → offset mapping, and for a store constructed with
explicit keys `resetKeys` always throws; however an auto-discovered
schema is only *cached*, and `resetKeys` clears that cache so that the
next access re-derives the schema from the (possibly edited) header row —
see the counterexample. -/
theorem claim6_schema_stability (db : AutoKeysDB) (ks : List (String × Nat))
    (db1 : AutoKeysDB) (h : getKeys db = .ok (ks, db1)) :
    (∀ hdr, getKeys (editHeader db1 hdr) = .ok (ks, editHeader db1 hdr)) ∧
    (getKeys (resetCacheKeysView db1) = .ok (ks, db1)) ∧
    (∃ e, resetKeysExplicit = .error e) := by
  have hc := getKeys_cached db ks db1 h
  refine ⟨?_, ?_, ⟨_, rfl⟩⟩
  · intro hdr
    rw [getKeys]
    rcases db1 with ⟨h1, c1⟩
    simp only [AutoKeysDB.mk.injEq] at hc ⊢
    simp [editHeader, hc]
  · rcases db1 with ⟨h1, c1⟩
    simp only at hc
    simp [resetCacheKeysView, getKeys, hc]

/-- Witness for `claim6_schema_stability` at a concrete auto-keyed
store. -/
theorem claim6_schema_stability_witness :
    getKeys ⟨[Value.str "a"], none⟩ =
      .ok ([("a", 0)], ⟨[Value.str "a"], some [("a", 0)]⟩) ∧
    ((∀ hdr, getKeys (editHeader ⟨[Value.str "a"], some [("a", 0)]⟩ hdr) =
        .ok ([("a", 0)], editHeader ⟨[Value.str "a"], some [("a", 0)]⟩ hdr)) ∧
      (getKeys (resetCacheKeysView ⟨[Value.str "a"], some [("a", 0)]⟩) =
        .ok ([("a", 0)], ⟨[Value.str "a"], some [("a", 0)]⟩)) ∧
      (∃ e, resetKeysExplicit = .error e)) :=
  ⟨rfl, claim6_schema_stability ⟨[Value.str "a"], none⟩ [("a", 0)]
    ⟨[Value.str "a"], some [("a", 0)]⟩ rfl⟩

/-- **C6** (counterexample): on an auto-keyed store, after the schema
`{a ↦ 0}` has been resolved and cached, editing the header row to `"b"`
and calling `resetKeys()` makes the next `keys` access re-derive
`{b ↦ 0}` — an operation sequence on the instance *can* invalidate and
change the resolved schema, refuting "nothing may invalidate the
resolved schema for the store's lifetime". -/
theorem claim6_counterexample :
    getKeys ⟨[Value.str "a"], none⟩ =
      .ok ([("a", 0)], ⟨[Value.str "a"], some [("a", 0)]⟩) ∧
    getKeys (resetKeysAuto (editHeader ⟨[Value.str "a"], some [("a", 0)]⟩
        [Value.str "b"])) =
      .ok ([("b", 0)], ⟨[Value.str "b"], some [("b", 0)]⟩) ∧
    ([("b", 0)] : List (String × Nat)) ≠ [("a", 0)] :=
  ⟨rfl, rfl, by decide⟩

/-! ## Cell-level helper lemmas -/

theorem getD_map_toCell (l : List Value) (i : Nat) (d : Value) :
    (l.map toCell).getD i (toCell d) = toCell (l.getD i d) := by
  rw [List.getD_eq_getElem?_getD, List.getD_eq_getElem?_getD, List.getElem?_map]
  rcases l[i]? with _ | v <;> rfl

theorem getD_set_self' (l : List Value) (i : Nat) (a d : Value) (h : i < l.length) :
    (l.set i a).getD i d = a := by
  rw [List.getD_eq_getElem?_getD, List.getElem?_set_self h]
  rfl

theorem getD_set_ne' (l : List Value) (i j : Nat) (a d : Value) (h : i ≠ j) :
    (l.set i a).getD j d = l.getD j d := by
  rw [List.getD_eq_getElem?_getD, List.getElem?_set_ne h, ← List.getD_eq_getElem?_getD]

theorem find?_offset_eq_of_mem (keys : List (String × Nat)) (k : String) (o : Nat)
    (hnd : (keys.map Prod.snd).Nodup) (hm : (k, o) ∈ keys) :
    keys.find? (fun p => p.2 == o) = some (k, o) := by
  induction keys with
  | nil => simp at hm
  | cons p t ih =>
    cases p with
    | mk a b =>
      rw [List.map_cons, List.nodup_cons] at hnd
      rcases List.mem_cons.mp hm with h | h
      · rw [List.find?]
        have : ((a, b).2 == o) = true := by
          have := congrArg Prod.snd h.symm
          simp at this
          simp [this]
        rw [this]
        exact congrArg some h.symm
      · rw [List.find?]
        have hb : b ≠ o := by
          intro he
          exact hnd.1 (he ▸ (List.mem_map.mpr ⟨(k, o), h, rfl⟩))
        have : ((a, b).2 == o) = false := by simp [hb]
        rw [this]
        exact ih hnd.2 h

theorem find?_offset_eq_none (keys : List (String × Nat)) (o : Nat)
    (hm : o ∉ keys.map Prod.snd) :
    keys.find? (fun p => p.2 == o) = none := by
  induction keys with
  | nil => simp
  | cons p t ih =>
    rw [List.map_cons] at hm
    rw [List.find?]
    have : (p.2 == o) = false := by
      simp only [beq_eq_false_iff_ne, ne_eq]
      intro he
      exact hm (List.mem_cons.mpr (Or.inl he.symm))
    rw [this]
    exact ih (fun h => hm (List.mem_cons.mpr (Or.inr h)))

theorem serializeFold_length (it : DBItem) (keys : List (String × Nat))
    (arr : List Value) :
    (keys.foldl (fun arr p =>
        match it.get p.1 with
        | some v => arr.set p.2 v
        | none => arr) arr).length = arr.length := by
  induction keys generalizing arr with
  | nil => rfl
  | cons p t ih =>
    rw [List.foldl_cons]
    rcases hv : it.get p.1 with _ | v
    · simp only [hv]
      exact ih arr
    · simp only [hv]
      rw [ih (arr.set p.2 v), List.length_set]

theorem serializeFold_getD (it : DBItem) (keys : List (String × Nat))
    (arr : List Value) (o : Nat) (junk : Value) (ho : o < arr.length)
    (hnd : (keys.map Prod.snd).Nodup) :
    (keys.foldl (fun arr p =>
        match it.get p.1 with
        | some v => arr.set p.2 v
        | none => arr) arr).getD o junk =
      (match keys.find? (fun p => p.2 == o) with
        | some p =>
          match it.get p.1 with
          | some v => v
          | none => arr.getD o junk
        | none => arr.getD o junk) := by
  induction keys generalizing arr with
  | nil => rfl
  | cons p t ih =>
    rw [List.map_cons, List.nodup_cons] at hnd
    rw [List.foldl_cons, List.find?]
    by_cases hpo : p.2 = o
    · have hb : (p.2 == o) = true := by simp [hpo]
      rw [hb]
      have hnone : t.find? (fun q => q.2 == o) = none :=
        find?_offset_eq_none t o (hpo ▸ hnd.1)
      rcases hv : it.get p.1 with _ | v
      · simp only [hv]
        rw [ih arr ho hnd.2, hnone]
      · simp only [hv]
        rw [ih (arr.set p.2 v) (by rw [List.length_set]; exact ho) hnd.2, hnone]
        rw [hpo, getD_set_self' arr o v junk ho]
    · have hb : (p.2 == o) = false := by simp [hpo]
      rw [hb]
      rcases hv : it.get p.1 with _ | v
      · simp only [hv]
        exact ih arr ho hnd.2
      · simp only [hv]
        rw [ih (arr.set p.2 v) (by rw [List.length_set]; exact ho) hnd.2]
        rw [getD_set_ne' arr p.2 o v junk hpo]

theorem width_pos_of_mem (keys : List (String × Nat)) (k : String) (o : Nat)
    (hm : (k, o) ∈ keys) : o < width keys := by
  induction keys with
  | nil => simp at hm
  | cons p t ih =>
    rw [width, List.map_cons, List.foldr_cons]
    rcases List.mem_cons.mp hm with h | h
    · have : p.2 = o := by rw [← h]
      omega
    · have := ih h
      rw [width] at this
      omega

/-- The resulting cell at a schema offset after `_parseDataToArray` of one
record: the record's value when the field is present, the default value
otherwise. -/
theorem serializeItem_getD (keys : List (String × Nat)) (d : Value) (it : DBItem)
    (k : String) (o : Nat) (junk : Value)
    (hnds : (keys.map Prod.snd).Nodup)
    (hm : (k, o) ∈ keys) :
    (serializeItem keys (width keys) d it).getD o junk =
      (match it.get k with
        | some v => v
        | none => d) := by
  rw [serializeItem, serializeFold_getD it keys (List.replicate (width keys) d) o junk
    (by rw [List.length_replicate]; exact width_pos_of_mem keys k o hm) hnds]
  rw [find?_offset_eq_of_mem keys k o hnds hm]
  rcases hv : it.get k with _ | v
  · simp only [hv]
    rw [List.getD_eq_getElem?_getD, List.getElem?_replicate]
    rw [if_pos (width_pos_of_mem keys k o hm)]
    rfl
  · simp only [hv]

theorem serializeItem_length' (keys : List (String × Nat)) (w : Nat) (d : Value)
    (it : DBItem) : (serializeItem keys w d it).length = w := by
  rw [serializeItem, serializeFold_length, List.length_replicate]

/-! ## C7: empty-cell deserialization -/

theorem parseRowValuesToItem_get (keys : List (String × Nat)) (values : List Value)
    (row : Nat) (k : String) (o : Nat) (hnd : (keys.map Prod.fst).Nodup)
    (hm : (k, o) ∈ keys) :
    (parseRowValuesToItem keys values row).get k =
      some (if values.getD o (Value.str "") = Value.str "" then Value.vnull
            else values.getD o (Value.str "")) := by
  rw [parseRowValuesToItem, DBItem.get]
  show List.lookup k (keys.map (fun p =>
    (p.1, if values.getD p.2 (Value.str "") = Value.str "" then Value.vnull
          else values.getD p.2 (Value.str "")))) = _
  rw [lookup_map_keys keys
    (fun p => if values.getD p.2 (Value.str "") = Value.str "" then Value.vnull
              else values.getD p.2 (Value.str "")) k]
  rw [find?_key_eq_of_mem keys k o hnd hm]
  rfl

theorem rowToItem_get (keys : List (String × Nat)) (rowNum : Nat) (r : List Value)
    (k : String) (o : Nat) (hnd : (keys.map Prod.fst).Nodup) (hm : (k, o) ∈ keys) :
    (rowToItem keys rowNum r).get k = some (r.getD o (Value.str "")) := by
  rw [rowToItem, DBItem.get]
  show List.lookup k (keys.map (fun p => (p.1, r.getD p.2 (Value.str "")))) = _
  rw [lookup_map_keys keys (fun p => r.getD p.2 (Value.str "")) k]
  rw [find?_key_eq_of_mem keys k o hnd hm]
  rfl

theorem dbItems_getElem? (st : Store) (i : Nat) :
    (dbItems st)[i]? =
      (st.rows[i]?).map (fun r => rowToItem st.keys (st.dataRowFirst + i) r) := by
  rw [dbItems, List.getElem?_map, List.getElem?_enum]
  rcases st.rows[i]? with _ | r <;> rfl

/-- **C7** (amended): the direct single-row read (`getDataItemByRow`,
through `_parseRowValuesToItem`) does deserialize a `""` cell to the
absent marker, and serializing a record whose field is absent writes `""`
to the medium cell; but the cached full-region materialization
(`dbItems`, which backs get-all and get-grouped) copies each cell
verbatim — a `""` cell stays the string `""` in the record, it is *not*
converted to the absent marker there (see the counterexample). -/
theorem claim7_materialization (st : Store) (k : String) (o : Nat) (i row : Nat)
    (it : DBItem) (hndf : (st.keys.map Prod.fst).Nodup)
    (hnds : (st.keys.map Prod.snd).Nodup)
    (hrowk : "row" ∉ st.keys.map Prod.fst) (hm : (k, o) ∈ st.keys)
    (hi : (dbItems st)[i]? = some it) :
    ((getDataItemByRow st row).get k =
      some (if (st.rows.getD (row - st.dataRowFirst) []).getD o (Value.str "") =
              Value.str "" then Value.vnull
            else (st.rows.getD (row - st.dataRowFirst) []).getD o (Value.str ""))) ∧
    (it.get k = some ((st.rows.getD i []).getD o (Value.str ""))) ∧
    (∀ cand : DBItem, cand.get k = none →
      ((serializeItem st.keys (width st.keys) Value.vnull cand).map toCell).getD o
        (Value.str "") = Value.str "") := by
  refine ⟨?_, ?_, ?_⟩
  · rw [getDataItemByRow]
    exact parseRowValuesToItem_get st.keys _ row k o hndf hm
  · rw [dbItems_getElem?] at hi
    rcases hr : st.rows[i]? with _ | r
    · rw [hr] at hi
      simp at hi
    · rw [hr] at hi
      simp only [Option.map_some', Option.some.injEq] at hi
      rw [← hi, rowToItem_get st.keys _ r k o hndf hm]
      have hrr : st.rows.getD i [] = r := by
        rw [List.getD_eq_getElem?_getD, hr]
        rfl
      rw [hrr]
  · intro cand hc
    have : (Value.str "") = toCell Value.vnull := rfl
    rw [this, getD_map_toCell]
    rw [serializeItem_getD st.keys Value.vnull cand k o Value.vnull hnds hm, hc]

/-- Witness for `claim7_materialization` at a concrete one-column
store. -/
theorem claim7_materialization_witness :
    ((getDataItemByRow ⟨[("a", 0)], 2, [[Value.str "x"]]⟩ 2).get "a" =
      some (if ((⟨[("a", 0)], 2, [[Value.str "x"]]⟩ : Store).rows.getD (2 - 2) []).getD 0
              (Value.str "") = Value.str "" then Value.vnull
            else ((⟨[("a", 0)], 2, [[Value.str "x"]]⟩ : Store).rows.getD (2 - 2) []).getD 0
              (Value.str ""))) ∧
    ((⟨[("a", Value.str "x")], some 2⟩ : DBItem).get "a" =
      some (((⟨[("a", 0)], 2, [[Value.str "x"]]⟩ : Store).rows.getD 0 []).getD 0
        (Value.str ""))) ∧
    (∀ cand : DBItem, cand.get "a" = none →
      ((serializeItem [("a", 0)] (width [("a", 0)]) Value.vnull cand).map toCell).getD 0
        (Value.str "") = Value.str "") :=
  claim7_materialization ⟨[("a", 0)], 2, [[Value.str "x"]]⟩ "a" 0 0 2
    ⟨[("a", Value.str "x")], some 2⟩ (by decide) (by decide) (by decide) (by decide) rfl

/-- **C7** (counterexample): a `""` cell read through the cached
full-region materialization stays `""` in the record — it does not
become the absent marker, refuting the claim for the cached path. -/
theorem claim7_counterexample :
    dbItems ⟨[("a", 0)], 2, [[Value.str ""]]⟩ =
      [⟨[("a", Value.str "")], some 2⟩] ∧
    (⟨[("a", Value.str "")], some 2⟩ : DBItem).get "a" = some (Value.str "") ∧
    Value.str "" ≠ Value.vnull :=
  ⟨rfl, rfl, by decide⟩

/-! ## C8: default comparison and update callbacks -/

theorem DBItem.get_set_self (c : DBItem) (k : String) (v : Value) :
    (c.set k v).get k = some v := by
  rw [DBItem.set, DBItem.get]
  exact assocSet_lookup_self c.fields k v

theorem DBItem.get_set_ne (c : DBItem) (k k' : String) (v : Value) (h : k' ≠ k) :
    (c.set k v).get k' = c.get k' := by
  rw [DBItem.set, DBItem.get]
  exact assocSet_lookup_ne c.fields k k' v h

theorem DBItem.row_set (c : DBItem) (k : String) (v : Value) :
    (c.set k v).row = c.row := rfl

theorem defaultUpdate_row (cmpKeys : List (String × Nat)) (c n : DBItem) :
    (defaultUpdate cmpKeys c n).row = c.row := by
  rw [defaultUpdate]
  induction cmpKeys generalizing c with
  | nil => rfl
  | cons p t ih =>
    rw [List.foldl_cons]
    rcases hv : n.get p.1 with _ | v
    · simp only [hv]
      exact ih c
    · simp only [hv]
      rw [ih (c.set p.1 v), DBItem.row_set]

theorem defaultUpdate_get (cmpKeys : List (String × Nat)) (c n : DBItem) (k : String)
    (hnd : (cmpKeys.map Prod.fst).Nodup) :
    (defaultUpdate cmpKeys c n).get k =
      if k ∈ cmpKeys.map Prod.fst ∧ (n.get k).isSome = true then n.get k
      else c.get k := by
  rw [defaultUpdate]
  induction cmpKeys generalizing c with
  | nil => simp
  | cons p t ih =>
    rw [List.map_cons, List.nodup_cons] at hnd
    rw [List.foldl_cons]
    by_cases hk : k = p.1
    · rcases hv : n.get p.1 with _ | v
      · simp only [hv]
        rw [ih c hnd.2]
        have hnv : n.get k = none := by rw [hk, hv]
        rw [if_neg (by simp [hnv]), if_neg (by simp [hnv])]
      · simp only [hv]
        rw [ih (c.set p.1 v) hnd.2, List.map_cons]
        have h1 : ¬ (k ∈ t.map Prod.fst ∧ (n.get k).isSome = true) := by
          rintro ⟨hmem, -⟩
          exact hnd.1 (hk ▸ hmem)
        have h2 : k ∈ p.1 :: t.map Prod.fst ∧ (n.get k).isSome = true :=
          ⟨List.mem_cons.mpr (Or.inl hk), by rw [hk, hv]; rfl⟩
        rw [if_neg h1, if_pos h2, hk, DBItem.get_set_self, hv]
    · have hmem : (k ∈ p.1 :: t.map Prod.fst ∧ (n.get k).isSome = true) ↔
          (k ∈ t.map Prod.fst ∧ (n.get k).isSome = true) := by
        constructor
        · rintro ⟨hm, hs⟩
          exact ⟨(List.mem_cons.mp hm).resolve_left hk, hs⟩
        · rintro ⟨hm, hs⟩
          exact ⟨List.mem_cons.mpr (Or.inr hm), hs⟩
      rcases hv : n.get p.1 with _ | v
      · simp only [hv]
        rw [ih c hnd.2, List.map_cons]
        by_cases hc : k ∈ t.map Prod.fst ∧ (n.get k).isSome = true
        · rw [if_pos hc, if_pos (hmem.mpr hc)]
        · rw [if_neg hc, if_neg (fun h => hc (hmem.mp h))]
      · simp only [hv]
        rw [ih (c.set p.1 v) hnd.2, List.map_cons]
        by_cases hc : k ∈ t.map Prod.fst ∧ (n.get k).isSome = true
        · rw [if_pos hc, if_pos (hmem.mpr hc)]
        · rw [if_neg hc, if_neg (fun h => hc (hmem.mp h)),
            DBItem.get_set_ne c p.1 k v hk]

theorem defaultIsUpdate_iff (cmpKeys : List (String × Nat)) (c n : DBItem) :
    defaultIsUpdate cmpKeys c n = true ↔
      ∃ p ∈ cmpKeys, (n.get p.1).isSome = true ∧
        looseEqU (c.get p.1) (n.get p.1) = false := by
  rw [defaultIsUpdate, List.any_eq_true]
  constructor
  · rintro ⟨p, hp, hb⟩
    rw [Bool.and_eq_true, Bool.not_eq_true'] at hb
    exact ⟨p, hp, hb.1, hb.2⟩
  · rintro ⟨p, hp, h1, h2⟩
    exact ⟨p, hp, by rw [Bool.and_eq_true, Bool.not_eq_true']; exact ⟨h1, h2⟩⟩

theorem mem_filterKeysFrom (keys : List (String × Nat)) (ig : List String)
    (p : String × Nat) :
    p ∈ filterKeysFrom keys ig ↔ p ∈ keys ∧ p.1 ∉ ig := by
  rw [filterKeysFrom, List.mem_filter]
  simp

theorem filterKeysFrom_names_nodup (keys : List (String × Nat)) (ig : List String)
    (hnd : (keys.map Prod.fst).Nodup) :
    ((filterKeysFrom keys ig).map Prod.fst).Nodup :=
  List.Nodup.sublist (List.Sublist.map Prod.fst (List.filter_sublist keys)) hnd

/-- **C8** (confirmed): with no `is_update` callback, `mergeDataItems`
compares exactly the schema fields outside `use_keys ∪ ignore_keys`:
the pair is an update candidate iff some such field, present in the
incoming record, differs (JavaScript `!=`) from the current record's
value; and the default update callback copies those incoming fields onto
the current record, leaving every other field and the record's `row`
unchanged. -/
theorem claim8_default_callbacks (st : Store) (useKeys ignoreKeys : List String)
    (c n : DBItem) (hnd : (st.keys.map Prod.fst).Nodup)
    (hrowk : "row" ∉ st.keys.map Prod.fst) :
    (defaultIsUpdate (filterKeysFrom st.keys (useKeys ++ ignoreKeys)) c n = true ↔
      ∃ p ∈ st.keys, p.1 ∉ useKeys ∧ p.1 ∉ ignoreKeys ∧
        (n.get p.1).isSome = true ∧ looseEqU (c.get p.1) (n.get p.1) = false) ∧
    ((defaultUpdate (filterKeysFrom st.keys (useKeys ++ ignoreKeys)) c n).row = c.row) ∧
    (∀ k, (defaultUpdate (filterKeysFrom st.keys (useKeys ++ ignoreKeys)) c n).get k =
      if k ∈ (filterKeysFrom st.keys (useKeys ++ ignoreKeys)).map Prod.fst ∧
          (n.get k).isSome = true
      then n.get k else c.get k) := by
  refine ⟨?_, defaultUpdate_row _ c n, fun k =>
    defaultUpdate_get _ c n k (filterKeysFrom_names_nodup st.keys _ hnd)⟩
  rw [defaultIsUpdate_iff]
  constructor
  · rintro ⟨p, hp, h1, h2⟩
    rw [mem_filterKeysFrom, List.mem_append] at hp
    exact ⟨p, hp.1, fun h => hp.2 (Or.inl h), fun h => hp.2 (Or.inr h), h1, h2⟩
  · rintro ⟨p, hp, hu, hi, h1, h2⟩
    refine ⟨p, ?_, h1, h2⟩
    rw [mem_filterKeysFrom, List.mem_append]
    exact ⟨hp, fun h => h.elim hu hi⟩

/-- A concrete two-column schema and records, used by several witnesses. -/
def skuQtyKeys : List (String × Nat) := [("sku", 0), ("qty", 1)]

/-- A materialized record `{sku: "A", qty: 5, row: 2}`. -/
def itemA5 : DBItem := ⟨[("sku", Value.str "A"), ("qty", Value.num 5)], some 2⟩

/-- A candidate record `{sku: "A", qty: 7}`. -/
def itemA7 : DBItem := ⟨[("sku", Value.str "A"), ("qty", Value.num 7)], none⟩

/-- Witness for `claim8_default_callbacks` at a concrete schema and
record pair. -/
theorem claim8_default_callbacks_witness :
    (defaultIsUpdate (filterKeysFrom skuQtyKeys (["sku"] ++ [])) itemA5 itemA7 = true ↔
      ∃ p ∈ skuQtyKeys, p.1 ∉ ["sku"] ∧ p.1 ∉ ([] : List String) ∧
        (itemA7.get p.1).isSome = true ∧
        looseEqU (itemA5.get p.1) (itemA7.get p.1) = false) ∧
    ((defaultUpdate (filterKeysFrom skuQtyKeys (["sku"] ++ [])) itemA5 itemA7).row =
      itemA5.row) ∧
    (∀ k, (defaultUpdate (filterKeysFrom skuQtyKeys (["sku"] ++ [])) itemA5 itemA7).get k =
      if k ∈ (filterKeysFrom skuQtyKeys (["sku"] ++ [])).map Prod.fst ∧
          (itemA7.get k).isSome = true
      then itemA7.get k else itemA5.get k) :=
  claim8_default_callbacks ⟨skuQtyKeys, 2, []⟩ ["sku"] [] itemA5 itemA7 (by decide)
    (by decide)

/-! ## C1: hash-collision handling during grouping -/

theorem getLast?_cons' {α : Type} (a : α) (l : List α) :
    (a :: l).getLast? = (match l with | [] => some a | b :: t => (b :: t).getLast?) := by
  cases l with
  | nil => rfl
  | cons b t => rw [List.getLast?_cons_cons]

/-- The grouping loop of `getDataItemsObject` binds every hash to the
*last* record producing it: a collision silently replaces the earlier
record. -/
theorem foldl_assocSet_lookup (hf : DBItem → String) (items : List DBItem)
    (obj : List (String × DBItem)) (h : String) :
    (items.foldl (fun o it => assocSet o (hf it) it) obj).lookup h =
      (match (items.filter (fun it => hf it == h)).getLast? with
        | some it => some it
        | none => obj.lookup h) := by
  induction items generalizing obj with
  | nil => rfl
  | cons it t ih =>
    rw [List.foldl_cons, ih (assocSet obj (hf it) it), List.filter_cons]
    by_cases hit : hf it = h
    · rw [if_pos (by simp [hit])]
      rcases he : t.filter (fun x => hf x == h) with _ | ⟨b, bt⟩
      · simp only [List.getLast?_nil, List.getLast?_singleton]
        rw [← hit, assocSet_lookup_self obj (hf it) it]
      · rcases hlast : (b :: bt).getLast? with _ | x
        · exact absurd (List.getLast?_eq_none_iff.mp hlast) (by simp)
        · rw [List.getLast?_cons_cons, hlast]
    · rw [if_neg (by simp [hit])]
      rcases he : t.filter (fun x => hf x == h) with _ | ⟨b, bt⟩
      · simp only [List.getLast?_nil]
        exact assocSet_lookup_ne obj (hf it) h it (fun hh => hit hh.symm)
      · rcases hlast : (b :: bt).getLast? with _ | x
        · exact absurd (List.getLast?_eq_none_iff.mp hlast) (by simp)
        · rfl

theorem buildObj_lookup (hf : DBItem → String) (items : List DBItem) (h : String) :
    (buildObj hf items).lookup h =
      (items.filter (fun it => hf it == h)).getLast? := by
  rw [buildObj, foldl_assocSet_lookup]
  rcases he : (items.filter (fun it => hf it == h)).getLast? with _ | it
  · rfl
  · rfl

/-- `_parseDataItemsArrayToObject`'s loop fails whenever some item's hash
already occurs in the accumulator. -/
theorem parseArrayGo_mem_error (hf : DBItem → String) (items : List DBItem) :
    ∀ (obj : List (String × DBItem)),
      (∃ it ∈ items, (obj.lookup (hf it)).isSome = true) →
      ∃ e, parseArrayGo hf obj items = .error e := by
  induction items with
  | nil =>
    rintro obj ⟨it, hit, -⟩
    simp at hit
  | cons it t ih =>
    rintro obj ⟨x, hx, hcol⟩
    by_cases hk : (obj.lookup (hf it)).isSome
    · exact ⟨_, by rw [parseArrayGo, if_pos hk]⟩
    · rw [parseArrayGo, if_neg hk]
      rcases List.mem_cons.mp hx with h | h
      · exact absurd (h ▸ hcol) hk
      · refine ih (assocSet obj (hf it) it) ⟨x, h, ?_⟩
        by_cases hfx : hf x = hf it
        · rw [hfx, assocSet_lookup_self]
          rfl
        · rw [assocSet_lookup_ne obj (hf it) (hf x) it hfx]
          exact hcol

theorem parseArrayGo_dup_error (hf : DBItem → String) (items : List DBItem) :
    ∀ (obj : List (String × DBItem)), ¬ (items.map hf).Nodup →
      ∃ e, parseArrayGo hf obj items = .error e := by
  induction items with
  | nil =>
    intro obj hdup
    simp at hdup
  | cons it t ih =>
    intro obj hdup
    by_cases hk : (obj.lookup (hf it)).isSome
    · exact ⟨_, by rw [parseArrayGo, if_pos hk]⟩
    · rw [parseArrayGo, if_neg hk]
      rw [List.map_cons, List.nodup_cons] at hdup
      by_cases hmem : hf it ∈ t.map hf
      · obtain ⟨x, hx, hfx⟩ := List.mem_map.mp hmem
        refine parseArrayGo_mem_error hf t (assocSet obj (hf it) it) ⟨x, hx, ?_⟩
        rw [hfx, assocSet_lookup_self]
        rfl
      · exact ih (assocSet obj (hf it) it) (fun hn => hdup ⟨hmem, hn⟩)

/-- **C1** (amended): during a merge, only the grouping of the *incoming*
record array fails fast on a hash collision
(`_parseDataItemsArrayToObject` throws as soon as a hash repeats); the
grouping of the current records materialized from the grid
(`getDataItemsObject`) performs no collision check — it silently binds a
colliding hash to the last record producing it (see the
counterexample). -/
theorem claim1_collision_handling (st : Store) (useKeys : List String)
    (filterCB : Option (DBItem → Bool)) (keyCB : Option (String → String))
    (dataItems : List DBItem) (schema : List (String × Nat))
    (obj : List (String × DBItem)) (h : String)
    (hdup : ¬ (dataItems.map (hashWith useKeys keyCB)).Nodup)
    (hok : getDataItemsObject st useKeys filterCB keyCB = .ok obj) :
    (∃ e, parseDataItemsArrayToObject schema useKeys keyCB dataItems = .error e) ∧
    (obj.lookup h =
      ((currentItemsList st filterCB).filter (fun it =>
        hashWith useKeys keyCB it == h)).getLast?) := by
  constructor
  · rcases hc : checkKeys schema useKeys with e | u
    · exact ⟨e, by rw [parseDataItemsArrayToObject, hc]; rfl⟩
    · rcases u
      obtain ⟨e, he⟩ := parseArrayGo_dup_error (hashWith useKeys keyCB) dataItems [] hdup
      exact ⟨e, by rw [parseDataItemsArrayToObject, hc]; exact he⟩
  · rcases hc : checkKeys st.keys useKeys with e | u
    · rw [getDataItemsObject, hc] at hok
      have hbad : (Except.error e : Except String (List (String × DBItem))) = .ok obj :=
        hok
      cases hbad
    · rcases u
      rw [getDataItemsObject, hc] at hok
      have hobj : Except.ok (buildObj (hashWith useKeys keyCB)
          (currentItemsList st filterCB)) =
          (Except.ok obj : Except String (List (String × DBItem))) := hok
      rw [← Except.ok.inj hobj, buildObj_lookup]

/-- Witness for `claim1_collision_handling` at a concrete store and a
concrete colliding incoming array. -/
theorem claim1_collision_handling_witness :
    (∃ e, parseDataItemsArrayToObject skuQtyKeys ["sku"] none [itemA7, itemA7] =
      .error e) ∧
    (([("A", itemA5)] : List (String × DBItem)).lookup "A" =
      ((currentItemsList ⟨skuQtyKeys, 2, [[Value.str "A", Value.num 5]]⟩ none).filter
        (fun it => hashWith ["sku"] none it == "A")).getLast?) :=
  claim1_collision_handling ⟨skuQtyKeys, 2, [[Value.str "A", Value.num 5]]⟩ ["sku"]
    none none [itemA7, itemA7] skuQtyKeys [("A", itemA5)] "A" (by decide) rfl

/-- **C1** (counterexample): two grid rows produce the same hash `"A"`
from `use_keys = ["sku"]`, yet grouping the current records succeeds —
no identity-collision error — and silently keeps only the later row's
record, refuting the claim for the current-record collection. -/
theorem claim1_counterexample :
    getDataItemsObject
        ⟨skuQtyKeys, 2, [[Value.str "A", Value.num 1], [Value.str "A", Value.num 2]]⟩
        ["sku"] none none =
      .ok [("A", ⟨[("sku", Value.str "A"), ("qty", Value.num 2)], some 3⟩)] ∧
    (dbItems ⟨skuQtyKeys, 2,
        [[Value.str "A", Value.num 1], [Value.str "A", Value.num 2]]⟩).map
      (hashFun ["sku"]) = ["A", "A"] :=
  ⟨rfl, rfl⟩

/-! ## Write-primitive lemmas -/

theorem writeRows_nil_values (rows : List (List Value)) (idx : Nat) :
    writeRows rows idx [] = rows := by
  cases rows with
  | nil => rfl
  | cons r rs => cases idx <;> rfl

theorem writeRows_length (rows : List (List Value)) (idx : Nat)
    (vs : List (List Value)) : (writeRows rows idx vs).length = rows.length := by
  induction rows generalizing idx vs with
  | nil => cases vs <;> rfl
  | cons r rs ih =>
    cases vs with
    | nil => rw [writeRows_nil_values]
    | cons v vt =>
      cases idx with
      | zero =>
        show (v.map toCell :: writeRows rs 0 vt).length = (r :: rs).length
        rw [List.length_cons, List.length_cons, ih 0 vt]
      | succ k =>
        show (r :: writeRows rs k (v :: vt)).length = (r :: rs).length
        rw [List.length_cons, List.length_cons, ih k (v :: vt)]

theorem writeRows_getD (rows : List (List Value)) (idx : Nat)
    (vs : List (List Value)) (j : Nat) (d : List Value) :
    (writeRows rows idx vs).getD j d =
      if idx ≤ j ∧ j < idx + vs.length ∧ j < rows.length then
        (vs.getD (j - idx) []).map toCell
      else rows.getD j d := by
  induction rows generalizing idx vs j with
  | nil =>
    rw [if_neg ?h]
    case h =>
      rintro ⟨-, -, h3⟩
      simp at h3
    cases vs with
    | nil => rfl
    | cons v vt => rfl
  | cons r rs ih =>
    cases vs with
    | nil =>
      rw [writeRows_nil_values, if_neg ?h]
      case h =>
        rintro ⟨h1, h2, -⟩
        simp only [List.length_nil, Nat.add_zero] at h2
        omega
    | cons v vt =>
      cases idx with
      | zero =>
        show (v.map toCell :: writeRows rs 0 vt).getD j d = _
        cases j with
        | zero => simp
        | succ j' =>
          rw [List.getD_cons_succ, ih 0 vt j']
          by_cases hc : j' < vt.length ∧ j' < rs.length
          · rw [if_pos (by omega), if_pos (by simp only [List.length_cons]; omega)]
            simp only [Nat.sub_zero]
            rw [List.getD_cons_succ]
          · rw [if_neg (by omega), if_neg
              (by simp only [List.length_cons]; omega), List.getD_cons_succ]
      | succ k =>
        show (r :: writeRows rs k (v :: vt)).getD j d = _
        cases j with
        | zero =>
          rw [List.getD_cons_zero, if_neg (by omega), List.getD_cons_zero]
        | succ j' =>
          rw [List.getD_cons_succ, ih k (v :: vt) j']
          by_cases hc : k ≤ j' ∧ j' < k + (v :: vt).length ∧ j' < rs.length
          · rw [if_pos hc, if_pos (by simp only [List.length_cons] at hc ⊢; omega)]
            have hsub : j' + 1 - (k + 1) = j' - k := by omega
            rw [hsub]
          · rw [if_neg hc, if_neg
              (by simp only [List.length_cons] at hc ⊢; omega), List.getD_cons_succ]

theorem mem_map_fst_filterKeysFrom (keys : List (String × Nat)) (ig : List String)
    (k : String) (o : Nat) (hm : (k, o) ∈ keys) :
    (k ∈ (filterKeysFrom keys ig).map Prod.fst) ↔ k ∉ ig := by
  constructor
  · rintro hmem hk
    obtain ⟨p, hp, hpk⟩ := List.mem_map.mp hmem
    rw [mem_filterKeysFrom] at hp
    exact hp.2 (hpk ▸ hk)
  · intro hk
    exact List.mem_map.mpr ⟨(k, o), (mem_filterKeysFrom keys ig (k, o)).mpr ⟨hm, hk⟩, rfl⟩

theorem width_eq_zero_iff (keys : List (String × Nat)) : width keys = 0 ↔ keys = [] := by
  cases keys with
  | nil => simp [width]
  | cons p t =>
    rw [width, List.map_cons, List.foldr_cons]
    constructor
    · intro h
      omega
    · intro h
      cases h

/-! ## C5: point update with optimistic-concurrency guard -/

/-- **C5** (confirmed): with a non-empty `control_keys` list, a strict
mismatch between any control field of the record currently on the medium
at that row (read back deserialized) and the caller's record makes
`updateDataItemByRow` return `false` with the medium untouched;
otherwise it returns `true` and rewrites exactly that one row so that,
at every schema field's cell, a field present in the caller's record and
outside `ignore_keys` receives the caller's (serialized) value and every
other schema field keeps its prior cell value. -/
theorem claim5_point_update (st : Store) (row : Nat) (dataItem : DBItem)
    (controlKeys ignoreKeys : List String)
    (hndf : (st.keys.map Prod.fst).Nodup) (hnds : (st.keys.map Prod.snd).Nodup)
    (hrowk : "row" ∉ st.keys.map Prod.fst)
    (hck : controlKeys ≠ [])
    (hb : st.dataRowFirst ≤ row) (hlen : row - st.dataRowFirst < st.rows.length)
    (hcells : ∀ r ∈ st.rows, ∀ c ∈ r, c ≠ Value.vnull) :
    ((∃ k ∈ controlKeys, (getDataItemByRow st row).get k ≠ dataItem.get k) →
      updateDataItemByRow st row dataItem controlKeys ignoreKeys = (false, st)) ∧
    ((∀ k ∈ controlKeys, (getDataItemByRow st row).get k = dataItem.get k) →
      ((updateDataItemByRow st row dataItem controlKeys ignoreKeys).1 = true ∧
       (updateDataItemByRow st row dataItem controlKeys ignoreKeys).2.keys = st.keys ∧
       (updateDataItemByRow st row dataItem controlKeys ignoreKeys).2.dataRowFirst =
         st.dataRowFirst ∧
       (updateDataItemByRow st row dataItem controlKeys ignoreKeys).2.rows.length =
         st.rows.length ∧
       (∀ j, j ≠ row - st.dataRowFirst →
         (updateDataItemByRow st row dataItem controlKeys ignoreKeys).2.rows.getD j [] =
           st.rows.getD j []) ∧
       (∀ k o, (k, o) ∈ st.keys →
         ((updateDataItemByRow st row dataItem controlKeys ignoreKeys).2.rows.getD
             (row - st.dataRowFirst) []).getD o (Value.str "") =
           (if (dataItem.get k).isSome = true ∧ k ∉ ignoreKeys then
             toCell ((dataItem.get k).getD Value.vnull)
           else (st.rows.getD (row - st.dataRowFirst) []).getD o (Value.str ""))))) := by
  constructor
  · rintro ⟨k, hk, hne⟩
    have hg : controlKeys.any
        (fun k => !((getDataItemByRow st row).get k == dataItem.get k)) = true := by
      rw [List.any_eq_true]
      refine ⟨k, hk, ?_⟩
      rw [Bool.not_eq_true', beq_eq_false_iff_ne]
      exact hne
    simp only [updateDataItemByRow]
    rw [if_pos hg]
  · intro hmatch
    have hg : ¬ controlKeys.any
        (fun k => !((getDataItemByRow st row).get k == dataItem.get k)) = true := by
      rw [List.any_eq_true]
      rintro ⟨k, hk, hb⟩
      rw [Bool.not_eq_true', beq_eq_false_iff_ne] at hb
      exact hb (hmatch k hk)
    have hstore : updateDataItemByRow st row dataItem controlKeys ignoreKeys =
        (true, setValues st
          ((defaultUpdate (filterKeysFrom st.keys (controlKeys ++ ignoreKeys))
            (getDataItemByRow st row) dataItem).row.getD 0)
          (parseDataToArray st.keys Value.vnull
            [defaultUpdate (filterKeysFrom st.keys (controlKeys ++ ignoreKeys))
              (getDataItemByRow st row) dataItem])) := by
      simp only [updateDataItemByRow]
      rw [if_neg hg]
      rfl
    have hrow : (defaultUpdate (filterKeysFrom st.keys (controlKeys ++ ignoreKeys))
        (getDataItemByRow st row) dataItem).row.getD 0 = row := by
      rw [defaultUpdate_row]
      rfl
    rw [hrow] at hstore
    by_cases hkeys : st.keys = []
    · have hsv : setValues st row (parseDataToArray st.keys Value.vnull
          [defaultUpdate (filterKeysFrom st.keys (controlKeys ++ ignoreKeys))
            (getDataItemByRow st row) dataItem]) = st := by
        rw [hkeys]
        rfl
      rw [hstore, hsv]
      refine ⟨rfl, rfl, rfl, rfl, fun j _ => rfl, fun k o hm => ?_⟩
      rw [hkeys] at hm
      simp at hm
    · have hw : 0 < width st.keys := by
        rcases Nat.eq_zero_or_pos (width st.keys) with h0 | h0
        · exact absurd ((width_eq_zero_iff st.keys).mp h0) hkeys
        · exact h0
      have hpd : parseDataToArray st.keys Value.vnull
          [defaultUpdate (filterKeysFrom st.keys (controlKeys ++ ignoreKeys))
            (getDataItemByRow st row) dataItem] =
          [serializeItem st.keys (width st.keys) Value.vnull
            (defaultUpdate (filterKeysFrom st.keys (controlKeys ++ ignoreKeys))
              (getDataItemByRow st row) dataItem)] := rfl
      have hr0 : serializeItem st.keys (width st.keys) Value.vnull
          (defaultUpdate (filterKeysFrom st.keys (controlKeys ++ ignoreKeys))
            (getDataItemByRow st row) dataItem) ≠ [] := by
        intro he
        have := serializeItem_length' st.keys (width st.keys) Value.vnull
          (defaultUpdate (filterKeysFrom st.keys (controlKeys ++ ignoreKeys))
            (getDataItemByRow st row) dataItem)
        rw [he] at this
        simp at this
        omega
      have hsv : setValues st row (parseDataToArray st.keys Value.vnull
          [defaultUpdate (filterKeysFrom st.keys (controlKeys ++ ignoreKeys))
            (getDataItemByRow st row) dataItem]) =
          { st with rows := (writeRows st.rows (row - st.dataRowFirst)
            [serializeItem st.keys (width st.keys) Value.vnull
              (defaultUpdate (filterKeysFrom st.keys (controlKeys ++ ignoreKeys))
                (getDataItemByRow st row) dataItem)]) } := by
        rw [hpd, setValues]
        rw [if_neg hr0]
      rw [hstore, hsv]
      refine ⟨rfl, rfl, rfl, writeRows_length st.rows _ _, fun j hj => ?_,
        fun k o hm => ?_⟩
      · rw [writeRows_getD, if_neg ?hc]
        case hc =>
          rintro ⟨h1, h2, -⟩
          simp only [List.length_cons, List.length_nil] at h2
          omega
      · rw [writeRows_getD, if_pos ?hc]
        case hc =>
          refine ⟨Nat.le_refl _, ?_, hlen⟩
          simp only [List.length_cons, List.length_nil]
          omega
        simp only [Nat.sub_self, List.getD_cons_zero]
        have hdflt : (Value.str "") = toCell Value.vnull := rfl
        rw [hdflt, getD_map_toCell]
        rw [serializeItem_getD st.keys Value.vnull _ k o Value.vnull hnds hm]
        have hcur : (getDataItemByRow st row).get k =
            some (if (st.rows.getD (row - st.dataRowFirst) []).getD o (Value.str "") =
                Value.str "" then Value.vnull
              else (st.rows.getD (row - st.dataRowFirst) []).getD o (Value.str "")) :=
          parseRowValuesToItem_get st.keys (st.rows.getD (row - st.dataRowFirst) [])
            row k o hndf hm
        have hcell : (st.rows.getD (row - st.dataRowFirst) []).getD o (Value.str "") ≠
            Value.vnull := by
          rcases hoin : ((st.rows.getD (row - st.dataRowFirst) [])[o]?) with _ | c
          · rw [List.getD_eq_getElem?_getD, hoin]
            simp
          · rw [List.getD_eq_getElem?_getD, hoin]
            have hrmem : st.rows.getD (row - st.dataRowFirst) [] ∈ st.rows := by
              rw [List.getD_eq_getElem?_getD]
              rcases hri : st.rows[row - st.dataRowFirst]? with _ | r
              · rw [List.getElem?_eq_none_iff] at hri
                omega
              · simp only [Option.getD_some]
                exact List.getElem?_mem hri
            exact hcells _ hrmem c (List.getElem?_mem hoin)
        have hback : toCell (if (st.rows.getD (row - st.dataRowFirst) []).getD o
              (Value.str "") = Value.str "" then Value.vnull
            else (st.rows.getD (row - st.dataRowFirst) []).getD o (Value.str "")) =
            (st.rows.getD (row - st.dataRowFirst) []).getD o (Value.str "") := by
          by_cases hce : (st.rows.getD (row - st.dataRowFirst) []).getD o
              (Value.str "") = Value.str ""
          · rw [if_pos hce, hce]
            rfl
          · rw [if_neg hce, toCell, if_neg hcell]
        rw [defaultUpdate_get _ _ _ k
          (filterKeysFrom_names_nodup st.keys (controlKeys ++ ignoreKeys) hndf)]
        by_cases hpres : (dataItem.get k).isSome = true
        · by_cases hig : k ∉ ignoreKeys
          · by_cases hctl : k ∈ controlKeys
            · rw [if_neg ?hni, if_pos ⟨hpres, hig⟩]
              case hni =>
                rintro ⟨hmem, -⟩
                rw [mem_map_fst_filterKeysFrom st.keys _ k o hm] at hmem
                exact hmem (List.mem_append.mpr (Or.inl hctl))
              have heq := hmatch k hctl
              rw [hcur] at heq
              rw [hcur, ← heq]
              simp only [Option.getD_some]
            · have hmem : k ∈ (filterKeysFrom st.keys
                  (controlKeys ++ ignoreKeys)).map Prod.fst := by
                rw [mem_map_fst_filterKeysFrom st.keys _ k o hm, List.mem_append]
                rintro (h | h)
                · exact hctl h
                · exact hig h
              rw [if_pos ⟨hmem, hpres⟩, if_pos ⟨hpres, hig⟩]
              rcases ho : dataItem.get k with _ | v
              · rw [ho] at hpres
                simp at hpres
              · rfl
          · push_neg at hig
            rw [if_neg ?hni, if_neg (by rintro ⟨-, hig2⟩; exact hig2 hig)]
            case hni =>
              rintro ⟨hmem, -⟩
              rw [mem_map_fst_filterKeysFrom st.keys _ k o hm] at hmem
              exact hmem (List.mem_append.mpr (Or.inr hig))
            rw [hcur]
            simp only
            exact hback
        · rw [if_neg (by rintro ⟨-, hp⟩; exact hpres hp),
            if_neg (by rintro ⟨hp, -⟩; exact hpres hp)]
          rw [hcur]
          simp only
          exact hback

/-- The store used by the C5 witness: one data row `["A", 5]` at row 2. -/
def c5store : Store := ⟨skuQtyKeys, 2, [[Value.str "A", Value.num 5]]⟩

/-- Witness for `claim5_point_update`: control key `"sku"` matches, so the
update succeeds and rewrites row 2. -/
theorem claim5_point_update_witness :
    ((∃ k ∈ ["sku"], (getDataItemByRow c5store 2).get k ≠ itemA7.get k) →
      updateDataItemByRow c5store 2 itemA7 ["sku"] [] = (false, c5store)) ∧
    ((∀ k ∈ ["sku"], (getDataItemByRow c5store 2).get k = itemA7.get k) →
      ((updateDataItemByRow c5store 2 itemA7 ["sku"] []).1 = true ∧
       (updateDataItemByRow c5store 2 itemA7 ["sku"] []).2.keys = c5store.keys ∧
       (updateDataItemByRow c5store 2 itemA7 ["sku"] []).2.dataRowFirst =
         c5store.dataRowFirst ∧
       (updateDataItemByRow c5store 2 itemA7 ["sku"] []).2.rows.length =
         c5store.rows.length ∧
       (∀ j, j ≠ 2 - c5store.dataRowFirst →
         (updateDataItemByRow c5store 2 itemA7 ["sku"] []).2.rows.getD j [] =
           c5store.rows.getD j []) ∧
       (∀ k o, (k, o) ∈ c5store.keys →
         ((updateDataItemByRow c5store 2 itemA7 ["sku"] []).2.rows.getD
             (2 - c5store.dataRowFirst) []).getD o (Value.str "") =
           (if (itemA7.get k).isSome = true ∧ k ∉ ([] : List String) then
             toCell ((itemA7.get k).getD Value.vnull)
           else (c5store.rows.getD (2 - c5store.dataRowFirst) []).getD o
             (Value.str ""))))) :=
  claim5_point_update c5store 2 itemA7 ["sku"] [] (by decide) (by decide) (by decide)
    (by decide) (by decide) (by decide) (by decide)

/-! ## C2: contiguous-run delete batching -/

/-- Replace the last element of a list. -/
def mapLast {α : Type} (g : α → α) : List α → List α
  | [] => []
  | [a] => [g a]
  | a :: b :: t => a :: mapLast g (b :: t)

theorem mapLast_cons_ne_nil {α : Type} (g : α → α) (a : α) (l : List α) (h : l ≠ []) :
    mapLast g (a :: l) = a :: mapLast g l := by
  cases l with
  | nil => exact absurd rfl h
  | cons b t => rfl

theorem mapLast_append_singleton {α : Type} (g : α → α) (l : List α) (a : α) :
    mapLast g (l ++ [a]) = l ++ [g a] := by
  induction l with
  | nil => rfl
  | cons b t ih =>
    rw [List.cons_append, mapLast_cons_ne_nil g b (t ++ [a]) (by simp), ih,
      List.cons_append]

theorem mapLast_mapLast {α : Type} (g h : α → α) (l : List α) :
    mapLast g (mapLast h l) = mapLast (fun a => g (h a)) l := by
  induction l with
  | nil => rfl
  | cons a t ih =>
    cases t with
    | nil => rfl
    | cons b t' =>
      rw [mapLast_cons_ne_nil h a (b :: t') (by simp),
        mapLast_cons_ne_nil g a (mapLast h (b :: t')) ?hne,
        mapLast_cons_ne_nil _ a (b :: t') (by simp), ih]
      case hne =>
        cases t' <;> simp [mapLast]

theorem specRunsLoop_ne_nil (t : List Nat) (f l : Nat) : specRunsLoop f l t ≠ [] := by
  induction t generalizing f l with
  | nil => simp [specRunsLoop]
  | cons r rest ih =>
    rw [specRunsLoop]
    by_cases hr : r = l + 1
    · rw [if_pos hr]
      exact ih f r
    · rw [if_neg hr]
      simp

/-- Appending one more row to the input of the run partition either
extends the final run (when it is consecutive with the input's last row)
or adds a fresh singleton run. -/
theorem specRunsLoop_append (t : List Nat) : ∀ (f l m : Nat),
    specRunsLoop f l (t ++ [m]) =
      if m = t.getLastD l + 1 then mapLast (fun p => (p.1, m)) (specRunsLoop f l t)
      else specRunsLoop f l t ++ [(m, m)] := by
  induction t with
  | nil =>
    intro f l m
    rw [List.nil_append, List.getLastD_nil]
    by_cases hm : m = l + 1
    · rw [if_pos hm]
      conv_lhs => rw [specRunsLoop]
      rw [if_pos hm]
      rfl
    · rw [if_neg hm]
      conv_lhs => rw [specRunsLoop]
      rw [if_neg hm]
      rfl
  | cons r rest ih =>
    intro f l m
    rw [List.cons_append, specRunsLoop, specRunsLoop, List.getLastD_cons]
    by_cases hr : r = l + 1
    · rw [if_pos hr, if_pos hr, ih f r m]
    · rw [if_neg hr, if_neg hr, ih r r m]
      by_cases hm : m = rest.getLastD r + 1
      · rw [if_pos hm, if_pos hm,
          mapLast_cons_ne_nil _ (f, l) _ (specRunsLoop_ne_nil rest r r)]
      · rw [if_neg hm, if_neg hm, List.cons_append]

/-- The final run of the partition ends at the input's last row, so
re-assigning that value to it is the identity. -/
theorem specRunsLoop_mapLast_self (t : List Nat) : ∀ (f l : Nat),
    mapLast (fun p => (p.1, t.getLastD l)) (specRunsLoop f l t) =
      specRunsLoop f l t := by
  induction t with
  | nil =>
    intro f l
    rfl
  | cons r rest ih =>
    intro f l
    rw [List.getLastD_cons, specRunsLoop]
    by_cases hr : r = l + 1
    · rw [if_pos hr]
      exact ih f r
    · rw [if_neg hr,
        mapLast_cons_ne_nil _ (f, l) _ (specRunsLoop_ne_nil rest r r), ih r r]

/-- The delete-chunk loop, which walks the sorted rows from the highest
down, produces exactly the reverse of the ascending maximal-run
partition (with the pending chunk's `lastRow` substituted). -/
theorem deleteChunksLoop_eq_specRuns (s : List Nat) : ∀ (f lc : Nat),
    deleteChunksLoop f lc s.reverse =
      (mapLast (fun p => (p.1, lc)) (specRuns (s ++ [f]))).reverse := by
  induction s using List.reverseRecOn with
  | nil =>
    intro f lc
    rfl
  | append_singleton s'' l ih =>
    intro f lc
    rw [List.reverse_append, List.reverse_singleton, List.singleton_append,
      deleteChunksLoop]
    by_cases hf : f - l ≠ 1
    · rw [if_pos hf, ih l l]
      have hfl : f ≠ l + 1 := by omega
      have hr : specRuns ((s'' ++ [l]) ++ [f]) = specRuns (s'' ++ [l]) ++ [(f, f)] := by
        rcases hs : s'' ++ [l] with _ | ⟨a, t⟩
        · exact absurd hs (by simp)
        · rw [specRuns, List.cons_append, specRuns, specRunsLoop_append t a a f]
          rw [if_neg ?hlast]
          case hlast =>
            have : (s'' ++ [l]).getLast? = some l := List.getLast?_concat s''
            rw [hs] at this
            cases t with
            | nil =>
              simp at this
              rw [List.getLastD_nil]
              rw [this]
              exact hfl
            | cons b t' =>
              rw [List.getLast?_cons_cons] at this
              rw [List.getLastD_eq_getLast?, this]
              exact hfl
      rw [hr, mapLast_append_singleton, List.reverse_append]
      have hself : mapLast (fun p => (p.1, l)) (specRuns (s'' ++ [l])) =
          specRuns (s'' ++ [l]) := by
        rcases hs : s'' ++ [l] with _ | ⟨a, t⟩
        · exact absurd hs (by simp)
        · rw [specRuns]
          have hlast : t.getLastD a = l := by
            have : (s'' ++ [l]).getLast? = some l := List.getLast?_concat s''
            rw [hs] at this
            cases t with
            | nil =>
              simp at this
              rw [List.getLastD_nil, this]
            | cons b t' =>
              rw [List.getLast?_cons_cons] at this
              rw [List.getLastD_eq_getLast?, this]
              rfl
          rw [← hlast]
          exact specRunsLoop_mapLast_self t a a
      rw [hself]
      rfl
    · rw [if_neg hf, ih l lc]
      have hfl : f = l + 1 := by omega
      have hr : specRuns ((s'' ++ [l]) ++ [f]) =
          mapLast (fun p => (p.1, f)) (specRuns (s'' ++ [l])) := by
        rcases hs : s'' ++ [l] with _ | ⟨a, t⟩
        · exact absurd hs (by simp)
        · rw [specRuns, List.cons_append, specRuns, specRunsLoop_append t a a f]
          rw [if_pos ?hlast]
          case hlast =>
            have : (s'' ++ [l]).getLast? = some l := List.getLast?_concat s''
            rw [hs] at this
            cases t with
            | nil =>
              simp at this
              rw [List.getLastD_nil, this]
              exact hfl
            | cons b t' =>
              rw [List.getLast?_cons_cons] at this
              rw [List.getLastD_eq_getLast?, this]
              exact hfl
      rw [hr, mapLast_mapLast]

theorem specRunsLoop_head_fst (t : List Nat) : ∀ (f l : Nat),
    ∃ y rest, specRunsLoop f l t = (f, y) :: rest := by
  induction t with
  | nil =>
    intro f l
    exact ⟨l, [], rfl⟩
  | cons r rest ih =>
    intro f l
    rw [specRunsLoop]
    by_cases hr : r = l + 1
    · rw [if_pos hr]
      exact ih f r
    · rw [if_neg hr]
      exact ⟨l, specRunsLoop r r rest, rfl⟩

theorem specRunsLoop_chain_fst (t : List Nat) : ∀ (f l : Nat), f ≤ l →
    List.Chain (· < ·) l t →
    List.Chain' (fun a b : Nat × Nat => a.1 < b.1) (specRunsLoop f l t) := by
  induction t with
  | nil =>
    intro f l _ _
    simp [specRunsLoop]
  | cons r rest ih =>
    intro f l hfl hch
    rw [List.chain_cons] at hch
    rw [specRunsLoop]
    by_cases hr : r = l + 1
    · rw [if_pos hr]
      exact ih f r (by omega) hch.2
    · rw [if_neg hr]
      obtain ⟨y, rest', hsr⟩ := specRunsLoop_head_fst rest r r
      rw [hsr, List.chain'_cons]
      refine ⟨?_, ?_⟩
      · show f < r
        have := hch.1
        omega
      · rw [← hsr]
        exact ih r r (Nat.le_refl r) hch.2

/-- **C2** (confirmed): for every non-empty set of row numbers handed to
`deleteDataItems`, the medium `deleteRows` calls issued are exactly one
`(first_row, run_length)` call per maximal run of consecutive rows of the
sorted set, emitted from the highest-numbered run down to the lowest
(the reverse of the ascending run partition `specRuns`); in particular
the number of calls equals the number of maximal runs. -/
theorem claim2_delete_run_batching (rows : List Nat) (hne : rows ≠ [])
    (hnd : rows.Nodup) :
    deleteDataItems rows =
      ((specRuns (rows.insertionSort (· ≤ ·))).map
        (fun c => (c.1, c.2 - c.1 + 1))).reverse ∧
    (deleteDataItems rows).Chain' (fun a b => b.1 < a.1) ∧
    (deleteDataItems rows).length =
      (specRuns (rows.insertionSort (· ≤ ·))).length := by
  have hperm := List.perm_insertionSort (· ≤ ·) rows
  have hsne : rows.insertionSort (· ≤ ·) ≠ [] := by
    intro h
    have hlen := hperm.length_eq
    rw [h] at hlen
    simp at hlen
    exact hne (List.length_eq_zero.mp hlen.symm)
  have heq : deleteDataItems rows =
      ((specRuns (rows.insertionSort (· ≤ ·))).map
        (fun c => (c.1, c.2 - c.1 + 1))).reverse := by
    rw [deleteDataItems]
    rcases hrev : (rows.insertionSort (· ≤ ·)).reverse with _ | ⟨m, rest⟩
    · have : rows.insertionSort (· ≤ ·) = [] := by
        have := congrArg List.reverse hrev
        rw [List.reverse_reverse] at this
        rw [this]
        rfl
      exact absurd this hsne
    · have hs : rows.insertionSort (· ≤ ·) = rest.reverse ++ [m] := by
        have := congrArg List.reverse hrev
        rw [List.reverse_reverse] at this
        rw [this, List.reverse_cons]
      have hG := deleteChunksLoop_eq_specRuns rest.reverse m m
      rw [List.reverse_reverse] at hG
      show (deleteChunksLoop m m rest).map (fun c => (c.1, c.2 - c.1 + 1)) = _
      rw [hG, ← hs]
      have hself : mapLast (fun p => (p.1, m))
          (specRuns (rows.insertionSort (· ≤ ·))) =
          specRuns (rows.insertionSort (· ≤ ·)) := by
        rcases hs2 : rows.insertionSort (· ≤ ·) with _ | ⟨a, t⟩
        · exact absurd hs2 hsne
        · rw [specRuns]
          have hlast : t.getLastD a = m := by
            have h1 : (rows.insertionSort (· ≤ ·)).getLast? = some m := by
              rw [hs]
              exact List.getLast?_concat _
            rw [hs2] at h1
            cases t with
            | nil =>
              simp at h1
              rw [List.getLastD_nil, h1]
            | cons b t' =>
              rw [List.getLast?_cons_cons] at h1
              rw [List.getLastD_eq_getLast?, h1]
              rfl
          rw [← hlast]
          exact specRunsLoop_mapLast_self t a a
      rw [hself, List.map_reverse]
  refine ⟨heq, ?_, ?_⟩
  · rw [heq, List.chain'_reverse, List.chain'_map]
    have hsorted : List.Pairwise (· ≤ ·) (rows.insertionSort (· ≤ ·)) :=
      List.sorted_insertionSort (· ≤ ·) rows
    have hnd2 : List.Pairwise (· ≠ ·) (rows.insertionSort (· ≤ ·)) :=
      hperm.nodup_iff.mpr hnd
    have hlt : List.Pairwise (· < ·) (rows.insertionSort (· ≤ ·)) :=
      (hsorted.and hnd2).imp (fun h => lt_of_le_of_ne h.1 h.2)
    rcases hs2 : rows.insertionSort (· ≤ ·) with _ | ⟨a, t⟩
    · exact absurd hs2 hsne
    · rw [hs2] at hlt
      have hch : List.Chain (· < ·) a t := List.chain_iff_pairwise.mpr hlt
      rw [specRuns]
      have := specRunsLoop_chain_fst t a a (Nat.le_refl a) hch
      exact this.imp (fun {x y} h => h)
  · rw [heq]
    rw [List.length_reverse, List.length_map]

/-- Witness for `claim2_delete_run_batching` at the spec's example row
set `{5, 6, 7, 10}`: exactly two calls, `(10, 1)` then `(5, 3)`. -/
theorem claim2_delete_run_batching_witness :
    deleteDataItems [10, 5, 6, 7] = [(10, 1), (5, 3)] ∧
    (([10, 5, 6, 7] : List Nat) ≠ [] ∧ ([10, 5, 6, 7] : List Nat).Nodup) ∧
    (deleteDataItems [10, 5, 6, 7] =
      ((specRuns (([10, 5, 6, 7] : List Nat).insertionSort (· ≤ ·))).map
        (fun c => (c.1, c.2 - c.1 + 1))).reverse ∧
     (deleteDataItems [10, 5, 6, 7]).Chain' (fun a b => b.1 < a.1) ∧
     (deleteDataItems [10, 5, 6, 7]).length =
       (specRuns (([10, 5, 6, 7] : List Nat).insertionSort (· ≤ ·))).length) :=
  ⟨by decide, ⟨by decide, by decide⟩,
    claim2_delete_run_batching [10, 5, 6, 7] (by decide) (by decide)⟩

/-! ## Merge-loop characterization lemmas -/

theorem lookup_eq_none_iff {α : Type} (l : List (String × α)) (k : String) :
    l.lookup k = none ↔ k ∉ l.map Prod.fst := by
  induction l with
  | nil => simp
  | cons p t ih =>
    cases p with
    | mk a b =>
      rw [lookup_cons', List.map_cons]
      by_cases h : k = a
      · simp [h]
      · rw [if_neg h, ih, List.mem_cons]
        constructor
        · rintro hn (hh | hh)
          · exact h hh
          · exact hn hh
        · intro hn hh
          exact hn (Or.inr hh)

theorem lookup_some_mem {α : Type} (l : List (String × α)) (k : String) (v : α)
    (h : l.lookup k = some v) : (k, v) ∈ l := by
  induction l with
  | nil => simp at h
  | cons p t ih =>
    cases p with
    | mk a b =>
      rw [lookup_cons'] at h
      by_cases hk : k = a
      · rw [if_pos hk] at h
        rcases h
        exact List.mem_cons.mpr (Or.inl (by rw [hk]))
      · rw [if_neg hk] at h
        exact List.mem_cons.mpr (Or.inr (ih h))

theorem parseArrayGo_ok_append (hf : DBItem → String) (items : List DBItem) :
    ∀ (obj : List (String × DBItem)),
      (items.map hf).Nodup → (∀ it ∈ items, obj.lookup (hf it) = none) →
      parseArrayGo hf obj items = .ok (obj ++ items.map (fun it => (hf it, it))) := by
  induction items with
  | nil =>
    intro obj _ _
    simp [parseArrayGo]
  | cons it t ih =>
    intro obj hnd hdis
    rw [List.map_cons, List.nodup_cons] at hnd
    rw [parseArrayGo, if_neg (by rw [hdis it (List.mem_cons_self it t)]; simp)]
    rw [assocSet_of_lookup_none obj (hf it) it (hdis it (List.mem_cons_self it t))]
    rw [ih (obj ++ [(hf it, it)]) hnd.2 ?hdis2]
    case hdis2 =>
      intro x hx
      rw [lookup_append, hdis x (List.mem_cons_of_mem it hx)]
      have hne : hf x ≠ hf it := by
        intro he
        exact hnd.1 (he ▸ List.mem_map.mpr ⟨x, hx, rfl⟩)
      simp [lookup_cons', hne]
    rw [List.append_assoc]
    rfl

/-- What the first merge loop inserts: the incoming entries whose hash is
absent from the current set, in order. -/
def mergeLoop1Ins (curObj : List (String × DBItem)) :
    List (String × DBItem) → List (String × DBItem)
  | [] => []
  | p :: t =>
    match curObj.lookup p.1 with
    | some _ => mergeLoop1Ins curObj t
    | none => p :: mergeLoop1Ins curObj t

/-- What the first merge loop updates: for each incoming entry whose hash
is present and for which `isUp` fires, the updated current record under
that hash, in order. -/
def mergeLoop1Upd (curObj : List (String × DBItem)) (isUp : DBItem → DBItem → Bool)
    (upd : DBItem → DBItem → DBItem) :
    List (String × DBItem) → List (String × DBItem)
  | [] => []
  | p :: t =>
    match curObj.lookup p.1 with
    | some c =>
      if isUp c p.2 then (p.1, upd c p.2) :: mergeLoop1Upd curObj isUp upd t
      else mergeLoop1Upd curObj isUp upd t
    | none => mergeLoop1Upd curObj isUp upd t

theorem mergeLoop1_eq_spec (curObj : List (String × DBItem))
    (isUp : DBItem → DBItem → Bool) (upd : DBItem → DBItem → DBItem)
    (incObj : List (String × DBItem)) (hnd : (incObj.map Prod.fst).Nodup) :
    mergeLoop1 curObj isUp upd incObj =
      (mergeLoop1Upd curObj isUp upd incObj, mergeLoop1Ins curObj incObj,
       (mergeLoop1Upd curObj isUp upd incObj).length,
       (mergeLoop1Ins curObj incObj).length) := by
  have main : ∀ (inc : List (String × DBItem)) (tU tI : List (String × DBItem))
      (u i : Nat), (inc.map Prod.fst).Nodup →
      (∀ p ∈ inc, tU.lookup p.1 = none) → (∀ p ∈ inc, tI.lookup p.1 = none) →
      inc.foldl (fun acc p =>
        let (toUpdate, toInsert, updated, inserted) := acc
        match curObj.lookup p.1 with
        | some currentItem =>
          if isUp currentItem p.2 then
            (assocSet toUpdate p.1 (upd currentItem p.2), toInsert, updated + 1, inserted)
          else acc
        | none => (toUpdate, assocSet toInsert p.1 p.2, updated, inserted + 1))
        (tU, tI, u, i) =
      (tU ++ mergeLoop1Upd curObj isUp upd inc, tI ++ mergeLoop1Ins curObj inc,
       u + (mergeLoop1Upd curObj isUp upd inc).length,
       i + (mergeLoop1Ins curObj inc).length) := by
    intro inc
    induction inc with
    | nil =>
      intro tU tI u i _ _ _
      simp [mergeLoop1Upd, mergeLoop1Ins]
    | cons p t ih =>
      intro tU tI u i hnd2 hdU hdI
      rw [List.map_cons, List.nodup_cons] at hnd2
      rw [List.foldl_cons]
      have hfreshU : ∀ q ∈ t, (assocSet tU p.1 (upd ((curObj.lookup p.1).getD q.2) p.2)).lookup q.1 = none := by
        intro q hq
        have hne : q.1 ≠ p.1 := by
          intro he
          exact hnd2.1 (he ▸ List.mem_map.mpr ⟨q, hq, rfl⟩)
        rw [assocSet_lookup_ne _ _ _ _ hne]
        exact hdU q (List.mem_cons_of_mem p hq)
      rcases hc : curObj.lookup p.1 with _ | c
      · simp only [hc]
        rw [ih tU (assocSet tI p.1 p.2) u (i + 1) hnd2.2
          (fun q hq => hdU q (List.mem_cons_of_mem p hq)) ?hdI2]
        case hdI2 =>
          intro q hq
          have hne : q.1 ≠ p.1 := by
            intro he
            exact hnd2.1 (he ▸ List.mem_map.mpr ⟨q, hq, rfl⟩)
          rw [assocSet_lookup_ne _ _ _ _ hne]
          exact hdI q (List.mem_cons_of_mem p hq)
        rw [assocSet_of_lookup_none tI p.1 p.2 (hdI p (List.mem_cons_self p t))]
        rw [mergeLoop1Ins, mergeLoop1Upd]
        simp only [hc, List.append_assoc, List.singleton_append, List.length_cons,
          Prod.mk.injEq, true_and, and_true]
        omega
      · by_cases hup : isUp c p.2 = true
        · simp only [hc, hup, eq_self_iff_true, if_true]
          rw [ih (assocSet tU p.1 (upd c p.2)) tI (u + 1) i hnd2.2 ?hdU2
            (fun q hq => hdI q (List.mem_cons_of_mem p hq))]
          case hdU2 =>
            intro q hq
            have hne : q.1 ≠ p.1 := by
              intro he
              exact hnd2.1 (he ▸ List.mem_map.mpr ⟨q, hq, rfl⟩)
            rw [assocSet_lookup_ne _ _ _ _ hne]
            exact hdU q (List.mem_cons_of_mem p hq)
          rw [assocSet_of_lookup_none tU p.1 (upd c p.2) (hdU p (List.mem_cons_self p t))]
          rw [mergeLoop1Upd, mergeLoop1Ins]
          simp only [hc, hup, eq_self_iff_true, if_true, List.append_assoc,
            List.singleton_append, List.length_cons, Prod.mk.injEq, true_and, and_true]
          omega
        · rw [Bool.not_eq_true] at hup
          simp only [hc, hup, Bool.false_eq_true, if_false]
          rw [ih tU tI u i hnd2.2
            (fun q hq => hdU q (List.mem_cons_of_mem p hq))
            (fun q hq => hdI q (List.mem_cons_of_mem p hq))]
          rw [mergeLoop1Upd, mergeLoop1Ins]
          simp only [hc, hup, Bool.false_eq_true, if_false]
  rw [mergeLoop1]
  rw [main incObj [] [] 0 0 hnd (fun p _ => rfl) (fun p _ => rfl)]
  simp

theorem mergeLoop1Ins_mem (curObj : List (String × DBItem))
    (incObj : List (String × DBItem)) (p : String × DBItem)
    (h : p ∈ mergeLoop1Ins curObj incObj) :
    p ∈ incObj ∧ curObj.lookup p.1 = none := by
  induction incObj with
  | nil => simp [mergeLoop1Ins] at h
  | cons q t ih =>
    rw [mergeLoop1Ins] at h
    rcases hc : curObj.lookup q.1 with _ | c
    · rw [hc] at h
      rcases List.mem_cons.mp h with hh | hh
      · exact ⟨List.mem_cons.mpr (Or.inl hh), hh ▸ hc⟩
      · obtain ⟨h1, h2⟩ := ih hh
        exact ⟨List.mem_cons.mpr (Or.inr h1), h2⟩
    · rw [hc] at h
      obtain ⟨h1, h2⟩ := ih h
      exact ⟨List.mem_cons.mpr (Or.inr h1), h2⟩

theorem mergeDeleteLoop_mem (curObj incObj tU : List (String × DBItem))
    (isDel : DBItem → Bool) (p : String × DBItem)
    (h : p ∈ (mergeDeleteLoop curObj incObj tU isDel).1) :
    (∃ q ∈ curObj, p = (q.1, q.2)) ∧ incObj.lookup p.1 = none := by
  rw [mergeDeleteLoop] at h
  suffices hgen : ∀ (l : List (String × DBItem))
      (acc : List (String × DBItem) × Nat),
      (∀ q ∈ l, q ∈ curObj) →
      (∀ r ∈ acc.1, (∃ q ∈ curObj, r = (q.1, q.2)) ∧ incObj.lookup r.1 = none) →
      ∀ r ∈ (l.foldl (fun acc p =>
        if (tU.lookup p.1).isNone && (incObj.lookup p.1).isNone && isDel p.2 then
          (assocSet acc.1 p.1 p.2, acc.2 + 1)
        else acc) acc).1,
        (∃ q ∈ curObj, r = (q.1, q.2)) ∧ incObj.lookup r.1 = none by
    exact hgen curObj ([], 0) (fun q hq => hq) (by simp) p h
  intro l
  induction l with
  | nil =>
    intro acc _ hacc r hr
    exact hacc r hr
  | cons q t ih =>
    intro acc hsub hacc r hr
    rw [List.foldl_cons] at hr
    by_cases hcond : ((tU.lookup q.1).isNone && (incObj.lookup q.1).isNone &&
        isDel q.2) = true
    · rw [if_pos hcond] at hr
      refine ih (assocSet acc.1 q.1 q.2, acc.2 + 1)
        (fun x hx => hsub x (List.mem_cons_of_mem q hx)) ?_ r hr
      intro x hx
      rcases assocSet_mem acc.1 q.1 q.2 x hx with hm | hm
      · exact hacc x hm
      · rw [Bool.and_eq_true, Bool.and_eq_true] at hcond
        refine ⟨⟨q, hsub q (List.mem_cons_self q t), hm⟩, ?_⟩
        rw [hm]
        exact Option.isNone_iff_eq_none.mp hcond.1.2
    · rw [if_neg hcond] at hr
      exact ih acc (fun x hx => hsub x (List.mem_cons_of_mem q hx)) hacc r hr

theorem buildObj_mem (hf : DBItem → String) (items : List DBItem) (p : String × DBItem)
    (h : p ∈ buildObj hf items) : p.2 ∈ items := by
  rw [buildObj] at h
  suffices hgen : ∀ (l : List DBItem) (obj : List (String × DBItem)),
      (∀ r ∈ obj, r.2 ∈ items) → (∀ x ∈ l, x ∈ items) →
      ∀ r ∈ l.foldl (fun o it => assocSet o (hf it) it) obj, r.2 ∈ items by
    exact hgen items [] (by simp) (fun x hx => hx) p h
  intro l
  induction l with
  | nil =>
    intro obj hobj _ r hr
    exact hobj r hr
  | cons it t ih =>
    intro obj hobj hsub r hr
    rw [List.foldl_cons] at hr
    refine ih (assocSet obj (hf it) it) ?_
      (fun x hx => hsub x (List.mem_cons_of_mem it hx)) r hr
    intro x hx
    rcases assocSet_mem obj (hf it) it x hx with hm | hm
    · exact hobj x hm
    · rw [hm]
      exact hsub it (List.mem_cons_self it t)

theorem currentItemsList_row_isSome (st : Store) (filterCB : Option (DBItem → Bool))
    (it : DBItem) (h : it ∈ currentItemsList st filterCB) : it.row.isSome = true := by
  rw [currentItemsList] at h
  obtain ⟨p, hp, hsome⟩ := List.mem_filterMap.mp h
  have hit : p.1 = it := by
    by_cases h2 : p.2 = true
    · rw [if_pos h2] at hsome
      cases hsome
    · rw [if_neg h2] at hsome
      rcases filterCB with _ | f
      · simp at hsome
        exact hsome
      · simp only at hsome
        by_cases hf : f p.1 = true
        · rw [if_pos hf] at hsome
          exact Option.some.inj hsome
        · rw [if_neg hf] at hsome
          cases hsome
  have hmem : p.1 ∈ dbItems st := (List.mem_zip hp).1
  rw [dbItems] at hmem
  obtain ⟨q, _, hq⟩ := List.mem_map.mp hmem
  rw [← hit, ← hq]
  rfl

theorem except_bind_error {ε α β : Type} (e : ε) (f : α → Except ε β) :
    (Except.error e >>= f) = Except.error e := rfl

theorem except_bind_ok {ε α β : Type} (a : α) (f : α → Except ε β) :
    (Except.ok a >>= f) = f a := rfl

theorem parseArrayGo_ok_keys_nodup (hf : DBItem → String) (items : List DBItem) :
    ∀ (obj res : List (String × DBItem)),
      parseArrayGo hf obj items = .ok res → (obj.map Prod.fst).Nodup →
      (res.map Prod.fst).Nodup := by
  induction items with
  | nil =>
    intro obj res h hnd
    rw [parseArrayGo] at h
    rcases h
    exact hnd
  | cons it t ih =>
    intro obj res h hnd
    rw [parseArrayGo] at h
    by_cases hk : (obj.lookup (hf it)).isSome
    · rw [if_pos hk] at h
      cases h
    · rw [if_neg hk] at h
      refine ih (assocSet obj (hf it) it) res h ?_
      have hnone : obj.lookup (hf it) = none := by
        rcases ho : obj.lookup (hf it) with _ | v
        · rfl
        · rw [ho] at hk
          simp at hk
      rw [assocSet_of_lookup_none obj (hf it) it hnone, List.map_append]
      rw [List.nodup_append]
      refine ⟨hnd, by simp, ?_⟩
      intro x hx
      simp only [List.map_cons, List.map_nil, List.mem_singleton]
      intro he
      rw [lookup_eq_none_iff] at hnone
      exact hnone (he ▸ hx)

/-- **C3** (confirmed): in every merge computation, a hash key present in
both the grouped current records and the grouped incoming records never
appears in the insert set nor in the delete set (it can only appear in
the update set), and every record placed in the delete set carries a
persisted `row`. -/
theorem claim3_merge_identity (st : Store) (dataItems : List DBItem)
    (useKeys : List String) (isUpdateCB : Option (DBItem → DBItem → Bool))
    (updateCB : Option (DBItem → DBItem → DBItem)) (isDeleteCB : Option (DBItem → Bool))
    (filterCB : Option (DBItem → Bool)) (keyCB : Option (String → String))
    (ignoreKeys : List String)
    (curObj incObj tU tI tD : List (String × DBItem)) (u i d : Nat)
    (hok : mergeSets st dataItems useKeys isUpdateCB updateCB isDeleteCB filterCB keyCB
      ignoreKeys = .ok (curObj, incObj, (tU, tI, tD), u, i, d)) :
    (∀ h, (curObj.lookup h).isSome = true → (incObj.lookup h).isSome = true →
      tI.lookup h = none ∧ tD.lookup h = none) ∧
    (∀ p ∈ tD, p.2.row.isSome = true) := by
  rw [mergeSets] at hok
  rcases hg : getDataItemsObject st useKeys filterCB keyCB with e | cur
  · rw [hg, except_bind_error] at hok
    exact Except.noConfusion hok
  · rcases hp : parseDataItemsArrayToObject st.keys useKeys keyCB dataItems with e | inc
    · rw [hg, except_bind_ok, hp, except_bind_error] at hok
      exact Except.noConfusion hok
    · rcases hcore : mergeSetsCore (filterKeysFrom st.keys (useKeys ++ ignoreKeys))
        cur inc isUpdateCB updateCB isDeleteCB with ⟨⟨tU', tI', tD'⟩, u', i', d'⟩
      rw [hg, except_bind_ok, hp, except_bind_ok] at hok
      simp only [hcore] at hok
      have hinj := Except.ok.inj hok
      simp only [Prod.mk.injEq] at hinj
      obtain ⟨hcur, hinc, ⟨hTU, hTI, hTD⟩, -, -, -⟩ := hinj
      subst hcur hinc hTU hTI hTD
      -- the current grouping and its record source
      have hcur : cur = buildObj (hashWith useKeys keyCB)
          (currentItemsList st filterCB) := by
        rw [getDataItemsObject] at hg
        rcases hc : checkKeys st.keys useKeys with e2 | u2
        · rw [hc, except_bind_error] at hg
          exact Except.noConfusion hg
        · rcases u2
          rw [hc, except_bind_ok] at hg
          exact (Except.ok.inj hg).symm
      -- the incoming grouping has pairwise-distinct hash keys
      have hincNodup : (inc.map Prod.fst).Nodup := by
        rw [parseDataItemsArrayToObject] at hp
        rcases hc : checkKeys st.keys useKeys with e2 | u2
        · rw [hc, except_bind_error] at hp
          exact Except.noConfusion hp
        · rcases u2
          rw [hc, except_bind_ok] at hp
          exact parseArrayGo_ok_keys_nodup (hashWith useKeys keyCB) dataItems [] inc
            hp (by simp)
      -- project the reconciliation sets out of the core
      have hTUeq : tU' = (mergeLoop1 cur
          ((isUpdateCB.getD (defaultIsUpdate (filterKeysFrom st.keys
            (useKeys ++ ignoreKeys))))) ((updateCB.getD (defaultUpdate
            (filterKeysFrom st.keys (useKeys ++ ignoreKeys))))) inc).1 := by
        have := congrArg (fun x => x.1.1) hcore
        exact this.symm
      have hTIeq : tI' = (mergeLoop1 cur
          ((isUpdateCB.getD (defaultIsUpdate (filterKeysFrom st.keys
            (useKeys ++ ignoreKeys))))) ((updateCB.getD (defaultUpdate
            (filterKeysFrom st.keys (useKeys ++ ignoreKeys))))) inc).2.1 := by
        have := congrArg (fun x => x.1.2.1) hcore
        exact this.symm
      have hspec := mergeLoop1_eq_spec cur
        ((isUpdateCB.getD (defaultIsUpdate (filterKeysFrom st.keys
          (useKeys ++ ignoreKeys))))) ((updateCB.getD (defaultUpdate
          (filterKeysFrom st.keys (useKeys ++ ignoreKeys))))) inc hincNodup
      constructor
      · intro h hcurS hincS
        constructor
        · rcases hti : tI'.lookup h with _ | v
          · rfl
          · have hmem := lookup_some_mem tI' h v hti
            rw [hTIeq, hspec] at hmem
            obtain ⟨-, hnone⟩ := mergeLoop1Ins_mem cur inc (h, v) hmem
            rw [hnone] at hcurS
            simp at hcurS
        · rcases htd : tD'.lookup h with _ | v
          · rfl
          · have hmem := lookup_some_mem tD' h v htd
            rcases isDeleteCB with _ | dcb
            · have hTDeq : tD' = [] := by
                have := congrArg (fun x => x.1.2.2) hcore
                exact this.symm
              rw [hTDeq] at hmem
              simp at hmem
            · have hTDeq : tD' = (mergeDeleteLoop cur inc
                  (mergeLoop1 cur ((isUpdateCB.getD (defaultIsUpdate
                    (filterKeysFrom st.keys (useKeys ++ ignoreKeys)))))
                    ((updateCB.getD (defaultUpdate (filterKeysFrom st.keys
                    (useKeys ++ ignoreKeys))))) inc).1 dcb).1 := by
                have := congrArg (fun x => x.1.2.2) hcore
                exact this.symm
              rw [hTDeq] at hmem
              obtain ⟨-, hnone⟩ := mergeDeleteLoop_mem cur inc _ dcb (h, v) hmem
              rw [hnone] at hincS
              simp at hincS
      · intro p hp2
        rcases isDeleteCB with _ | dcb
        · have hTDeq : tD' = [] := by
            have := congrArg (fun x => x.1.2.2) hcore
            exact this.symm
          rw [hTDeq] at hp2
          simp at hp2
        · have hTDeq : tD' = (mergeDeleteLoop cur inc
              (mergeLoop1 cur ((isUpdateCB.getD (defaultIsUpdate
                (filterKeysFrom st.keys (useKeys ++ ignoreKeys)))))
                ((updateCB.getD (defaultUpdate (filterKeysFrom st.keys
                (useKeys ++ ignoreKeys))))) inc).1 dcb).1 := by
            have := congrArg (fun x => x.1.2.2) hcore
            exact this.symm
          rw [hTDeq] at hp2
          obtain ⟨⟨q, hq, hpq⟩, -⟩ := mergeDeleteLoop_mem cur inc _ dcb p hp2
          have hqi : q.2 ∈ currentItemsList st filterCB := by
            rw [hcur] at hq
            exact buildObj_mem (hashWith useKeys keyCB) (currentItemsList st filterCB)
              q hq
          have := currentItemsList_row_isSome st filterCB q.2 hqi
          rw [hpq]
          exact this

/-- Witness for `claim3_merge_identity`: Scenario-B-style merge of
`{sku: "A", qty: 7}` into a store holding `["A", 5]` at row 2. -/
theorem claim3_merge_identity_witness :
    (∀ h, (([("A", itemA5)] : List (String × DBItem)).lookup h).isSome = true →
      (([("A", itemA7)] : List (String × DBItem)).lookup h).isSome = true →
      ([] : List (String × DBItem)).lookup h = none ∧
      ([] : List (String × DBItem)).lookup h = none) ∧
    (∀ p ∈ ([] : List (String × DBItem)), p.2.row.isSome = true) :=
  claim3_merge_identity ⟨skuQtyKeys, 2, [[Value.str "A", Value.num 5]]⟩ [itemA7]
    ["sku"] none none none none none [] [("A", itemA5)] [("A", itemA7)]
    [("A", ⟨[("sku", Value.str "A"), ("qty", Value.num 7)], some 2⟩)] [] [] 1 0 0 rfl

/-! ## C4: merge idempotence -/

/-- An incoming record carrying an explicit absent (`null`) field. -/
def c4item : DBItem := ⟨[("sku", Value.str "A"), ("qty", Value.vnull)], none⟩

/-- The last record of a filtered list, when the list decomposes around a
matching record with no later match. -/
theorem getLast?_filter_concat {α : Type} (p : α → Bool) (l1 l2 : List α) (a : α)
    (hpa : p a = true) (h2 : ∀ x ∈ l2, p x = false) :
    ((l1 ++ a :: l2).filter p).getLast? = some a := by
  have hl2 : l2.filter p = [] := by
    rw [List.filter_eq_nil_iff]
    intro x hx
    rw [h2 x hx]
    exact Bool.false_ne_true
  rw [List.filter_append, List.filter_cons, if_pos hpa, hl2]
  exact List.getLast?_concat _

/-- If the last match of a filtered decomposition is `c` and the tail part
still matches somewhere, then `c` lives in the tail part. -/
theorem getLast?_filter_mem_suffix {α : Type} (p : α → Bool) (l1 l2 : List α) (a c : α)
    (h : ((l1 ++ a :: l2).filter p).getLast? = some c) (hne : l2.filter p ≠ []) :
    c ∈ l2 := by
  rw [List.filter_append, List.filter_cons, List.getLast?_append] at h
  rcases hfe : l2.filter p with _ | ⟨b, bt⟩
  · exact absurd hfe hne
  · have hx : (if p a = true then a :: l2.filter p else l2.filter p).getLast? =
        (b :: bt).getLast? := by
      by_cases hpa : p a = true
      · rw [if_pos hpa, hfe, List.getLast?_cons_cons]
      · rw [if_neg hpa, hfe]
    rw [hx] at h
    rcases hg : (b :: bt).getLast? with _ | x
    · exact absurd (List.getLast?_eq_none_iff.mp hg) (by simp)
    · rw [hg] at h
      have hcx : x = c := by simpa using h
      have hmem : c ∈ b :: bt := hcx ▸ List.mem_of_mem_getLast? hg
      rw [← hfe] at hmem
      exact (List.mem_filter.mp hmem).1

/-- The record list `getDataItemsObject` builds its grouping from (no
`filterCB`), expressed as a recursion over the region rows carrying the
region index: non-empty rows are materialized, empty rows are skipped. -/
def itemsOfRowsGo (keys : List (String × Nat)) (first : Nat) :
    Nat → List (List Value) → List DBItem
  | _, [] => []
  | i, r :: t =>
    if rowIsEmpty r then itemsOfRowsGo keys first (i + 1) t
    else rowToItem keys (first + i) r :: itemsOfRowsGo keys first (i + 1) t

theorem currentItemsList_eq_go (st : Store) :
    currentItemsList st none = itemsOfRowsGo st.keys st.dataRowFirst 0 st.rows := by
  rw [currentItemsList, dbItems, rowsEmptyStatuses]
  suffices hgen : ∀ (rows : List (List Value)) (i : Nat),
      (((List.enumFrom i rows).map
          (fun p => rowToItem st.keys (st.dataRowFirst + p.1) p.2)).zip
        (rows.map rowIsEmpty)).filterMap
          (fun p => if p.2 then none else some p.1) =
      itemsOfRowsGo st.keys st.dataRowFirst i rows by
    exact hgen st.rows 0
  intro rows
  induction rows with
  | nil => intro i; rfl
  | cons r t ih =>
    intro i
    rw [List.enumFrom_cons, List.map_cons, List.map_cons, List.zip_cons_cons,
      List.filterMap_cons, itemsOfRowsGo]
    cases hr : rowIsEmpty r with
    | false =>
      simp only [Bool.false_eq_true, if_false]
      rw [ih (i + 1)]
    | true =>
      rw [if_pos rfl, if_pos rfl]
      exact ih (i + 1)

theorem itemsOfRowsGo_append (keys : List (String × Nat)) (first : Nat)
    (A B : List (List Value)) : ∀ i : Nat,
    itemsOfRowsGo keys first i (A ++ B) =
      itemsOfRowsGo keys first i A ++ itemsOfRowsGo keys first (i + A.length) B := by
  induction A with
  | nil =>
    intro i
    rw [List.nil_append, itemsOfRowsGo, List.nil_append, List.length_nil, Nat.add_zero]
  | cons r t ih =>
    intro i
    rw [List.cons_append, itemsOfRowsGo, itemsOfRowsGo]
    have harith : i + 1 + t.length = i + (r :: t).length := by
      rw [List.length_cons]; omega
    cases hr : rowIsEmpty r with
    | false =>
      simp only [Bool.false_eq_true, if_false]
      rw [ih (i + 1), harith, List.cons_append]
    | true =>
      rw [if_pos rfl, if_pos rfl, ih (i + 1), harith]

theorem itemsOfRowsGo_mem (keys : List (String × Nat)) (first : Nat)
    (rows : List (List Value)) : ∀ (i : Nat) (it : DBItem),
    it ∈ itemsOfRowsGo keys first i rows →
    ∃ j, j < rows.length ∧ rowIsEmpty (rows.getD j []) = false ∧
      it = rowToItem keys (first + (i + j)) (rows.getD j []) := by
  induction rows with
  | nil => intro i it h; rw [itemsOfRowsGo] at h; simp at h
  | cons r t ih =>
    intro i it h
    rw [itemsOfRowsGo] at h
    cases hr : rowIsEmpty r with
    | true =>
      rw [hr, if_pos rfl] at h
      obtain ⟨j, hj, he, hit⟩ := ih (i + 1) it h
      refine ⟨j + 1, by rw [List.length_cons]; omega, by rw [List.getD_cons_succ]; exact he, ?_⟩
      rw [List.getD_cons_succ, hit]
      have : first + (i + 1 + j) = first + (i + (j + 1)) := by omega
      rw [this]
    | false =>
      simp only [hr, Bool.false_eq_true, if_false] at h
      rcases List.mem_cons.mp h with hh | hh
      · refine ⟨0, by rw [List.length_cons]; omega, by rw [List.getD_cons_zero]; exact hr, ?_⟩
        rw [List.getD_cons_zero, hh]
        have : first + i = first + (i + 0) := by omega
        rw [← this]
      · obtain ⟨j, hj, he, hit⟩ := ih (i + 1) it hh
        refine ⟨j + 1, by rw [List.length_cons]; omega,
          by rw [List.getD_cons_succ]; exact he, ?_⟩
        rw [List.getD_cons_succ, hit]
        have : first + (i + 1 + j) = first + (i + (j + 1)) := by omega
        rw [this]

theorem itemsOfRowsGo_mem_intro (keys : List (String × Nat)) (first : Nat)
    (rows : List (List Value)) : ∀ (i j : Nat),
    j < rows.length → rowIsEmpty (rows.getD j []) = false →
    rowToItem keys (first + (i + j)) (rows.getD j []) ∈ itemsOfRowsGo keys first i rows := by
  induction rows with
  | nil => intro i j hj _; simp at hj
  | cons r t ih =>
    intro i j hj hne
    rw [itemsOfRowsGo]
    cases j with
    | zero =>
      rw [List.getD_cons_zero] at hne ⊢
      rw [hne]
      simp only [Bool.false_eq_true, if_false, Nat.add_zero]
      exact List.mem_cons_self _ _
    | succ j' =>
      rw [List.getD_cons_succ] at hne ⊢
      have harith : first + (i + (j' + 1)) = first + (i + 1 + j') := by omega
      rw [harith]
      have hmem := ih (i + 1) j' (by rw [List.length_cons] at hj; omega) hne
      cases hr : rowIsEmpty r with
      | true =>
        rw [if_pos rfl]
        exact hmem
      | false =>
        simp only [Bool.false_eq_true, if_false]
        exact List.mem_cons_of_mem _ hmem

theorem itemsOfRowsGo_split (keys : List (String × Nat)) (first : Nat)
    (rows : List (List Value)) (i j : Nat)
    (hj : j < rows.length) (hne : rowIsEmpty (rows.getD j []) = false) :
    itemsOfRowsGo keys first i rows =
      itemsOfRowsGo keys first i (rows.take j) ++
      rowToItem keys (first + (i + j)) (rows.getD j []) ::
      itemsOfRowsGo keys first (i + j + 1) (rows.drop (j + 1)) := by
  have hgd : rows.getD j [] = rows[j] := by
    rw [List.getD_eq_getElem?_getD, List.getElem?_eq_getElem hj]
    rfl
  conv_lhs => rw [← List.take_append_drop j rows]
  rw [itemsOfRowsGo_append, List.drop_eq_getElem_cons hj, itemsOfRowsGo]
  rw [← hgd, hne]
  simp only [Bool.false_eq_true, if_false]
  have hlen : (rows.take j).length = j := by
    rw [List.length_take]
    omega
  rw [hlen]

theorem itemsOfRowsGo_eq_nil (keys : List (String × Nat)) (first : Nat)
    (rows : List (List Value)) (hall : ∀ r ∈ rows, rowIsEmpty r = true) :
    ∀ i : Nat, itemsOfRowsGo keys first i rows = [] := by
  induction rows with
  | nil => intro i; rfl
  | cons r t ih =>
    intro i
    rw [itemsOfRowsGo, if_pos (hall r (List.mem_cons_self r t))]
    exact ih (fun x hx => hall x (List.mem_cons_of_mem r hx)) (i + 1)

/-! Facts about the last-content-row computation. -/

theorem lastContentIdx_concat (rows : List (List Value)) (r : List Value) :
    lastContentIdx (rows ++ [r]) =
      if rowIsEmpty r then lastContentIdx rows else rows.length + 1 := by
  rw [lastContentIdx, lastContentIdx, List.reverse_append]
  simp only [List.reverse_cons, List.reverse_nil, List.nil_append, List.singleton_append]
  rw [List.dropWhile_cons]
  cases hr : rowIsEmpty r with
  | true => rw [if_pos rfl, if_pos rfl]
  | false =>
    rw [if_neg Bool.false_ne_true,
      if_neg Bool.false_ne_true]
    rw [List.length_cons, List.length_reverse]

theorem lastContentIdx_le_length (rows : List (List Value)) :
    lastContentIdx rows ≤ rows.length := by
  induction rows using List.reverseRecOn with
  | nil => exact Nat.le_refl 0
  | append_singleton rs r ih =>
    rw [lastContentIdx_concat, List.length_append, List.length_singleton]
    cases hr : rowIsEmpty r with
    | true => rw [if_pos rfl]; omega
    | false =>
      rw [if_neg Bool.false_ne_true]

theorem lastContentIdx_empty_from (rows : List (List Value)) :
    ∀ j, lastContentIdx rows ≤ j → j < rows.length →
    rowIsEmpty (rows.getD j []) = true := by
  induction rows using List.reverseRecOn with
  | nil => intro j _ hj; simp at hj
  | append_singleton rs r ih =>
    intro j hlc hj
    rw [lastContentIdx_concat] at hlc
    rw [List.length_append, List.length_singleton] at hj
    by_cases hjr : j < rs.length
    · rw [List.getD_append rs [r] [] j hjr]
      cases hr : rowIsEmpty r with
      | true =>
        rw [hr, if_pos rfl] at hlc
        exact ih j hlc hjr
      | false =>
        rw [hr, if_neg Bool.false_ne_true] at hlc
        omega
    · have hje : j = rs.length := by omega
      rw [hje, List.getD_append_right rs [r] [] rs.length (Nat.le_refl _), Nat.sub_self,
        List.getD_cons_zero]
      cases hr : rowIsEmpty r with
      | true => rfl
      | false =>
        rw [hr, if_neg Bool.false_ne_true] at hlc
        omega

theorem lastContentIdx_last_nonempty (rows : List (List Value)) :
    0 < lastContentIdx rows →
    rowIsEmpty (rows.getD (lastContentIdx rows - 1) []) = false := by
  induction rows using List.reverseRecOn with
  | nil => intro h; simp [lastContentIdx] at h
  | append_singleton rs r ih =>
    intro hpos
    rw [lastContentIdx_concat] at hpos ⊢
    cases hr : rowIsEmpty r with
    | true =>
      rw [hr, if_pos rfl] at hpos
      rw [if_pos rfl]
      have hlt : lastContentIdx rs - 1 < rs.length := by
        have := lastContentIdx_le_length rs
        omega
      rw [List.getD_append rs [r] [] _ hlt]
      exact ih hpos
    | false =>
      rw [hr, if_neg Bool.false_ne_true] at hpos
      rw [if_neg Bool.false_ne_true]
      rw [Nat.add_sub_cancel,
        List.getD_append_right rs [r] [] rs.length (Nat.le_refl _), Nat.sub_self,
        List.getD_cons_zero]
      exact hr

theorem lastContentIdx_congr (rows1 rows2 : List (List Value))
    (hlen : rows1.length = rows2.length)
    (hemp : ∀ j, j < rows1.length →
      rowIsEmpty (rows1.getD j []) = rowIsEmpty (rows2.getD j [])) :
    lastContentIdx rows1 = lastContentIdx rows2 := by
  have key : ∀ (a b : List (List Value)), a.length = b.length →
      (∀ j, j < a.length → rowIsEmpty (a.getD j []) = rowIsEmpty (b.getD j [])) →
      lastContentIdx a ≤ lastContentIdx b := by
    intro a b hl he
    by_cases hpos : 0 < lastContentIdx a
    · have h1 := lastContentIdx_last_nonempty a hpos
      have hla := lastContentIdx_le_length a
      have hlt : lastContentIdx a - 1 < a.length := by omega
      have h2 : rowIsEmpty (b.getD (lastContentIdx a - 1) []) = false := by
        rw [← he _ hlt]
        exact h1
      by_contra hcon
      push_neg at hcon
      have h3 := lastContentIdx_empty_from b (lastContentIdx a - 1) (by omega) (by omega)
      rw [h3] at h2
      exact Bool.noConfusion h2
    · omega
  exact Nat.le_antisymm (key rows1 rows2 hlen hemp)
    (key rows2 rows1 hlen.symm (fun j hj => (hemp j (by omega)).symm))

theorem rows_drop_all_empty (rows : List (List Value)) (k : Nat)
    (hk : lastContentIdx rows ≤ k) :
    ∀ r ∈ rows.drop k, rowIsEmpty r = true := by
  intro r hr
  obtain ⟨j, hj, he⟩ := List.mem_iff_getElem.mp hr
  have hjlen : k + j < rows.length := by
    rw [List.length_drop] at hj
    omega
  rw [List.getElem_drop rows] at he
  have hgd : rows.getD (k + j) [] = r := by
    rw [List.getD_eq_getElem?_getD, List.getElem?_eq_getElem hjlen, he]
    rfl
  rw [← hgd]
  exact lastContentIdx_empty_from rows (k + j) (by omega) hjlen

theorem rowIsEmpty_replicate (w : Nat) :
    rowIsEmpty (List.replicate w (Value.str "")) = true := by
  rw [rowIsEmpty, List.all_eq_true]
  intro v hv
  rw [List.eq_of_mem_replicate hv]
  rfl

/-! Block writes decomposed around an aligned middle segment. -/

theorem writeRows_zero_splice (vals : List (List Value)) :
    ∀ (B C : List (List Value)), B.length = vals.length →
    writeRows (B ++ C) 0 vals = vals.map (fun v => v.map toCell) ++ C := by
  induction vals with
  | nil =>
    intro B C hlen
    have hB : B = [] := List.length_eq_zero.mp hlen
    rw [hB, writeRows_nil_values, List.map_nil, List.nil_append]
  | cons v vt ih =>
    intro B C hlen
    rcases B with _ | ⟨b, bt⟩
    · rw [List.length_nil, List.length_cons] at hlen
      omega
    · rw [List.cons_append]
      show v.map toCell :: writeRows (bt ++ C) 0 vt = _
      rw [ih bt C (by rw [List.length_cons, List.length_cons] at hlen; omega),
        List.map_cons, List.cons_append]

theorem writeRows_splice (A : List (List Value)) :
    ∀ (B C vals : List (List Value)), B.length = vals.length →
    writeRows (A ++ (B ++ C)) A.length vals =
      A ++ (vals.map (fun v => v.map toCell) ++ C) := by
  induction A with
  | nil =>
    intro B C vals h
    rw [List.nil_append, List.nil_append, List.length_nil]
    exact writeRows_zero_splice vals B C h
  | cons a tA ih =>
    intro B C vals h
    rcases vals with _ | ⟨v, vt⟩
    · rw [writeRows_nil_values]
      have hB : B = [] := List.length_eq_zero.mp h
      rw [hB, List.map_nil, List.nil_append]
    · rw [List.cons_append, List.length_cons]
      show a :: writeRows (tA ++ (B ++ C)) tA.length (v :: vt) = _
      rw [ih B C (v :: vt) h, List.cons_append]

/-! The update phase, decomposed into one write per record. -/

/-- One per-record write of the update phase: serialize the record and
overwrite its own row (the effect one chunk has on one of its items). -/
def writeOneRow (st : Store) (it : DBItem) : Store :=
  setValues st (it.row.getD 0) (parseDataToArray st.keys Value.vnull [it])

theorem store_with_rows_keys (st : Store) (rs : List (List Value)) :
    ({ st with rows := rs } : Store).keys = st.keys := rfl

theorem store_with_rows_first (st : Store) (rs : List (List Value)) :
    ({ st with rows := rs } : Store).dataRowFirst = st.dataRowFirst := rfl

theorem store_with_rows_rows (st : Store) (rs : List (List Value)) :
    ({ st with rows := rs } : Store).rows = rs := rfl

theorem setValues_keys (st : Store) (row : Nat) (vals : List (List Value)) :
    (setValues st row vals).keys = st.keys := by
  rcases vals with _ | ⟨r0, vt⟩
  · rfl
  · rw [setValues]
    by_cases h : r0 = []
    · rw [if_pos h]
    · rw [if_neg h]

theorem setValues_first (st : Store) (row : Nat) (vals : List (List Value)) :
    (setValues st row vals).dataRowFirst = st.dataRowFirst := by
  rcases vals with _ | ⟨r0, vt⟩
  · rfl
  · rw [setValues]
    by_cases h : r0 = []
    · rw [if_pos h]
    · rw [if_neg h]

theorem setValues_rows_length (st : Store) (row : Nat) (vals : List (List Value)) :
    (setValues st row vals).rows.length = st.rows.length := by
  rcases vals with _ | ⟨r0, vt⟩
  · rfl
  · rw [setValues]
    by_cases h : r0 = []
    · rw [if_pos h]
    · rw [if_neg h]
      exact writeRows_length _ _ _

theorem setValues_eq_writeRows (st : Store) (row : Nat) (vals : List (List Value))
    (hne : vals ≠ []) (hmem : ∀ v ∈ vals, v ≠ []) :
    setValues st row vals =
      { st with rows := (writeRows st.rows (row - st.dataRowFirst) vals) } := by
  rcases vals with _ | ⟨r0, vt⟩
  · exact absurd rfl hne
  · rw [setValues, if_neg (hmem r0 (List.mem_cons_self _ _))]

theorem writeOneRow_keys (st : Store) (it : DBItem) :
    (writeOneRow st it).keys = st.keys := setValues_keys _ _ _

theorem writeOneRow_first (st : Store) (it : DBItem) :
    (writeOneRow st it).dataRowFirst = st.dataRowFirst := setValues_first _ _ _

theorem writeOneRow_rows_length (st : Store) (it : DBItem) :
    (writeOneRow st it).rows.length = st.rows.length := setValues_rows_length _ _ _

theorem foldl_writeOneRow_pres (items : List DBItem) : ∀ st : Store,
    (items.foldl writeOneRow st).keys = st.keys ∧
    (items.foldl writeOneRow st).dataRowFirst = st.dataRowFirst ∧
    (items.foldl writeOneRow st).rows.length = st.rows.length := by
  induction items with
  | nil => intro st; exact ⟨rfl, rfl, rfl⟩
  | cons it t ih =>
    intro st
    rw [List.foldl_cons]
    obtain ⟨h1, h2, h3⟩ := ih (writeOneRow st it)
    exact ⟨by rw [h1, writeOneRow_keys], by rw [h2, writeOneRow_first],
      by rw [h3, writeOneRow_rows_length]⟩

theorem writeRows_cons_split (rows : List (List Value)) :
    ∀ (idx : Nat) (v : List Value) (vs : List (List Value)),
    writeRows rows idx (v :: vs) = writeRows (writeRows rows idx [v]) (idx + 1) vs := by
  induction rows with
  | nil =>
    intro idx v vs
    cases vs <;> rfl
  | cons r rs ih =>
    intro idx v vs
    cases idx with
    | zero =>
      cases vs with
      | nil =>
        show v.map toCell :: writeRows rs 0 [] =
          writeRows (v.map toCell :: writeRows rs 0 []) 1 []
        rw [writeRows_nil_values, writeRows_nil_values]
      | cons v2 vt =>
        show v.map toCell :: writeRows rs 0 (v2 :: vt) =
          writeRows (v.map toCell :: writeRows rs 0 []) 1 (v2 :: vt)
        rw [writeRows_nil_values]
        rfl
    | succ k =>
      cases vs with
      | nil =>
        show r :: writeRows rs k [v] = writeRows (r :: writeRows rs k [v]) (k + 1 + 1) []
        rw [writeRows_nil_values]
      | cons v2 vt =>
        show r :: writeRows rs k (v :: v2 :: vt) =
          r :: writeRows (writeRows rs k [v]) (k + 1) (v2 :: vt)
        rw [ih k v (v2 :: vt)]

/-- A block write of consecutive rows equals the per-record writes, one
row at a time. -/
theorem setValues_eq_foldl_writeOneRow (items : List DBItem) : ∀ (st : Store) (f : Nat),
    0 < width st.keys →
    items.map (fun it => it.row.getD 0) = List.range' f items.length →
    st.dataRowFirst ≤ f →
    setValues st f (parseDataToArray st.keys Value.vnull items) =
      items.foldl writeOneRow st := by
  induction items with
  | nil =>
    intro st f _ _ _
    rw [parseDataToArray, List.map_nil, setValues, List.foldl_nil]
  | cons it t ih =>
    intro st f hw hrows hf
    rw [List.map_cons, List.length_cons, List.range'_succ] at hrows
    injection hrows with hit hrows2
    have hser : serializeItem st.keys (width st.keys) Value.vnull it ≠ [] := by
      intro hh
      have hl := serializeItem_length' st.keys (width st.keys) Value.vnull it
      rw [hh] at hl
      rw [List.length_nil] at hl
      omega
    rw [parseDataToArray, List.map_cons]
    simp only [setValues]
    rw [if_neg hser, List.foldl_cons]
    have hst1 : writeOneRow st it =
        { st with rows := (writeRows st.rows (f - st.dataRowFirst)
            [serializeItem st.keys (width st.keys) Value.vnull it]) } := by
      rw [writeOneRow, hit]
      simp only [parseDataToArray, List.map_cons, List.map_nil, setValues]
      rw [if_neg hser]
    rw [hst1]
    have hih := ih { st with rows := (writeRows st.rows (f - st.dataRowFirst)
        [serializeItem st.keys (width st.keys) Value.vnull it]) } (f + 1)
      (by rw [store_with_rows_keys]; exact hw) hrows2
      (by rw [store_with_rows_first]; omega)
    rw [store_with_rows_keys] at hih
    rw [← hih, parseDataToArray]
    rcases t with _ | ⟨x, xs⟩
    · simp only [List.map_nil]
      rw [setValues]
    · have hmemne : ∀ v ∈ (x :: xs).map (serializeItem st.keys (width st.keys)
          Value.vnull), v ≠ [] := by
        intro v hv
        obtain ⟨y, _, he⟩ := List.mem_map.mp hv
        rw [← he]
        intro hh
        have hl := serializeItem_length' st.keys (width st.keys) Value.vnull y
        rw [hh, List.length_nil] at hl
        omega
      rw [setValues_eq_writeRows _ _ _ (by simp) hmemne]
      simp only [store_with_rows_keys, store_with_rows_first, store_with_rows_rows]
      rw [writeRows_cons_split]
      have harith : f + 1 - st.dataRowFirst = f - st.dataRowFirst + 1 := by omega
      rw [harith]

/-- The chunked update loop, run to completion, equals the plain fold of
per-record writes over the row-ascending record list. -/
theorem updateChunksGo_foldl (rest : List DBItem) :
    ∀ (f : Nat) (acc : List DBItem) (st : Store),
    0 < width st.keys →
    acc ≠ [] →
    acc.map (fun it => it.row.getD 0) = List.range' f acc.length →
    st.dataRowFirst ≤ f →
    (∀ it ∈ rest, st.dataRowFirst ≤ it.row.getD 0) →
    (updateChunksGo f (f + acc.length - 1) acc rest).foldl
        (fun s c => setValues s c.1 (parseDataToArray s.keys Value.vnull c.2)) st =
      (acc ++ rest).foldl writeOneRow st := by
  induction rest with
  | nil =>
    intro f acc st hw hne hrows hf _
    rw [updateChunksGo, List.foldl_cons, List.foldl_nil, List.append_nil]
    exact setValues_eq_foldl_writeOneRow acc st f hw hrows hf
  | cons it rest' ih =>
    intro f acc st hw hne hrows hf hrest
    rw [updateChunksGo]
    by_cases hcont : it.row.getD 0 - (f + acc.length - 1) ≠ 1
    · rw [if_pos hcont, List.foldl_cons]
      have hblock := setValues_eq_foldl_writeOneRow acc st f hw hrows hf
      rw [hblock]
      obtain ⟨hk, hd, -⟩ := foldl_writeOneRow_pres acc st
      have hih := ih (it.row.getD 0) [it] (acc.foldl writeOneRow st)
        (by rw [hk]; exact hw) (by simp)
        (by rw [List.map_cons, List.map_nil, List.length_cons, List.length_nil,
              List.range'_one])
        (by rw [hd]; exact hrest it (List.mem_cons_self it rest'))
        (by intro x hx; rw [hd]; exact hrest x (List.mem_cons_of_mem it hx))
      rw [List.length_singleton, Nat.add_sub_cancel] at hih
      rw [hih, ← List.foldl_append, List.singleton_append]
    · rw [if_neg hcont]
      push_neg at hcont
      have hlen1 : 1 ≤ acc.length := by
        rcases acc with _ | ⟨a, t⟩
        · exact absurd rfl hne
        · rw [List.length_cons]; omega
      have hrow : it.row.getD 0 = f + acc.length := by omega
      have hih := ih f (acc ++ [it]) st hw (by simp)
        (by rw [List.map_append, hrows, List.map_cons, List.map_nil, List.length_append,
              List.length_singleton, List.range'_concat, Nat.one_mul, hrow])
        hf (fun x hx => hrest x (List.mem_cons_of_mem it hx))
      rw [List.length_append, List.length_singleton] at hih
      have harith : f + (acc.length + 1) - 1 = it.row.getD 0 := by omega
      rw [harith] at hih
      rw [hih, List.append_assoc, List.singleton_append]

/-- `_updateDataItemsByChunks` is the fold of per-record writes. -/
theorem updateDataItemsByChunks_eq_foldl (st : Store) (items : List DBItem)
    (hw : 0 < width st.keys)
    (hfirst : ∀ it ∈ items, st.dataRowFirst ≤ it.row.getD 0) :
    updateDataItemsByChunks st items = items.foldl writeOneRow st := by
  rcases items with _ | ⟨it, rest⟩
  · rfl
  · simp only [updateDataItemsByChunks]
    have h := updateChunksGo_foldl rest (it.row.getD 0) [it] st hw (by simp)
      (by rw [List.map_cons, List.map_nil, List.length_cons, List.length_nil,
            List.range'_one])
      (hfirst it (List.mem_cons_self it rest))
      (fun x hx => hfirst x (List.mem_cons_of_mem it hx))
    rw [List.length_singleton, Nat.add_sub_cancel] at h
    rw [h, List.singleton_append]

/-- The effect of one per-record write on one region row. -/
theorem writeOneRow_getD (st : Store) (it : DBItem) (j : Nat)
    (hw : 0 < width st.keys)
    (hge : st.dataRowFirst ≤ it.row.getD 0) :
    (writeOneRow st it).rows.getD j [] =
      if it.row.getD 0 = st.dataRowFirst + j ∧ j < st.rows.length then
        (serializeItem st.keys (width st.keys) Value.vnull it).map toCell
      else st.rows.getD j [] := by
  have hser : serializeItem st.keys (width st.keys) Value.vnull it ≠ [] := by
    intro hh
    have hl := serializeItem_length' st.keys (width st.keys) Value.vnull it
    rw [hh, List.length_nil] at hl
    omega
  rw [writeOneRow]
  simp only [parseDataToArray, List.map_cons, List.map_nil, setValues]
  rw [if_neg hser]
  show (writeRows st.rows (it.row.getD 0 - st.dataRowFirst)
      [serializeItem st.keys (width st.keys) Value.vnull it]).getD j [] = _
  rw [writeRows_getD]
  simp only [List.length_singleton]
  by_cases hc : it.row.getD 0 = st.dataRowFirst + j ∧ j < st.rows.length
  · rw [if_pos (by omega), if_pos hc]
    have hz : j - (it.row.getD 0 - st.dataRowFirst) = 0 := by omega
    rw [hz, List.getD_cons_zero]
  · rw [if_neg (by omega), if_neg hc]

/-- Rows no record of the fold addresses are untouched. -/
theorem foldl_writeOneRow_getD_untouched (items : List DBItem) : ∀ (st : Store) (j : Nat),
    0 < width st.keys →
    (∀ it ∈ items, st.dataRowFirst ≤ it.row.getD 0) →
    (∀ it ∈ items, it.row.getD 0 ≠ st.dataRowFirst + j) →
    (items.foldl writeOneRow st).rows.getD j [] = st.rows.getD j [] := by
  induction items with
  | nil => intro st j _ _ _; rfl
  | cons it t ih =>
    intro st j hw hge hne
    rw [List.foldl_cons]
    have hpres1 := writeOneRow_keys st it
    have hpres2 := writeOneRow_first st it
    rw [ih (writeOneRow st it) j (by rw [hpres1]; exact hw)
      (by intro x hx; rw [hpres2]; exact hge x (List.mem_cons_of_mem it hx))
      (by intro x hx; rw [hpres2]; exact hne x (List.mem_cons_of_mem it hx))]
    rw [writeOneRow_getD st it j hw (hge it (List.mem_cons_self it t)),
      if_neg (fun hcc => hne it (List.mem_cons_self it t) hcc.1)]

/-- The row a fold record addresses ends up holding that record's
serialized cells, when the addressed rows are pairwise distinct. -/
theorem foldl_writeOneRow_getD_written (items : List DBItem) :
    ∀ (st : Store) (j : Nat) (it : DBItem),
    0 < width st.keys →
    (∀ x ∈ items, st.dataRowFirst ≤ x.row.getD 0) →
    (items.map (fun x => x.row.getD 0)).Nodup →
    it ∈ items → it.row.getD 0 = st.dataRowFirst + j → j < st.rows.length →
    (items.foldl writeOneRow st).rows.getD j [] =
      (serializeItem st.keys (width st.keys) Value.vnull it).map toCell := by
  induction items with
  | nil => intro st j it _ _ _ hmem; simp at hmem
  | cons a t ih =>
    intro st j it hw hge hnd hmem hrow hlen
    rw [List.foldl_cons]
    rw [List.map_cons, List.nodup_cons] at hnd
    have hpk := writeOneRow_keys st a
    have hpf := writeOneRow_first st a
    have hpl := writeOneRow_rows_length st a
    rcases List.mem_cons.mp hmem with he | hmem'
    · subst he
      rw [foldl_writeOneRow_getD_untouched t (writeOneRow st it) j
        (by rw [hpk]; exact hw)
        (by intro x hx; rw [hpf]; exact hge x (List.mem_cons_of_mem it hx))
        (by intro x hx
            rw [hpf, ← hrow]
            intro hcc
            exact hnd.1 (hcc ▸ List.mem_map.mpr ⟨x, hx, rfl⟩))]
      rw [writeOneRow_getD st it j hw (hge it (List.mem_cons_self it t)),
        if_pos ⟨hrow, hlen⟩]
    · have hres := ih (writeOneRow st a) j it (by rw [hpk]; exact hw)
        (by intro x hx; rw [hpf]; exact hge x (List.mem_cons_of_mem a hx))
        hnd.2 hmem' (by rw [hpf]; exact hrow) (by rw [hpl]; exact hlen)
      rw [hres, hpk]

/-! Round trips between records, serialized rows and hash keys. -/

theorem hashWith_none (useKeys : List String) :
    hashWith useKeys none = hashFun useKeys := rfl

theorem checkKeys_ok (schema : List (String × Nat)) (ks : List String)
    (hne : ks ≠ []) (hmem : ∀ k ∈ ks, k ∈ schema.map Prod.fst) :
    checkKeys schema ks = .ok () := by
  rw [checkKeys, if_neg hne, if_pos ?hall]
  case hall =>
    rw [List.all_eq_true]
    intro k hk
    rcases hl : schema.lookup k with _ | v
    · rw [lookup_eq_none_iff] at hl
      exact absurd (hmem k hk) hl
    · rfl

/-- Reading a schema field back out of a freshly serialized-and-written
row: the record's value pushed through the medium's write conversion, the
persisted absent marker `""` when the field was absent. -/
theorem rowToItem_serialized_get (keys : List (String × Nat)) (n : Nat) (it : DBItem)
    (k : String) (o : Nat)
    (hndf : (keys.map Prod.fst).Nodup) (hnds : (keys.map Prod.snd).Nodup)
    (hm : (k, o) ∈ keys) :
    (rowToItem keys n ((serializeItem keys (width keys) Value.vnull it).map toCell)).get k =
      some (toCell ((it.get k).getD Value.vnull)) := by
  rw [rowToItem_get keys n _ k o hndf hm]
  have hd : Value.str "" = toCell Value.vnull := rfl
  rw [hd, getD_map_toCell,
    serializeItem_getD keys Value.vnull it k o Value.vnull hnds hm]
  cases it.get k <;> rfl

theorem hashFun_congr (useKeys : List String) (it1 it2 : DBItem)
    (h : ∀ k ∈ useKeys, it1.get k = it2.get k) :
    hashFun useKeys it1 = hashFun useKeys it2 := by
  rw [hashFun, hashFun]
  congr 1
  exact List.map_congr_left (fun k hk => by rw [fieldStr, fieldStr, h k hk])

/-- A serialized-and-written row hashes like the record it came from,
provided every hash key is a schema field present and non-`null` in the
record. -/
theorem hash_serialized_row (keys : List (String × Nat)) (useKeys : List String)
    (n : Nat) (it : DBItem)
    (hndf : (keys.map Prod.fst).Nodup) (hnds : (keys.map Prod.snd).Nodup)
    (huk : ∀ k ∈ useKeys, k ∈ keys.map Prod.fst)
    (hpres : ∀ k ∈ useKeys, (it.get k).isSome = true)
    (hnn : ∀ k ∈ useKeys, ∀ v, it.get k = some v → v ≠ Value.vnull) :
    hashFun useKeys (rowToItem keys n
      ((serializeItem keys (width keys) Value.vnull it).map toCell)) =
      hashFun useKeys it := by
  apply hashFun_congr
  intro k hk
  obtain ⟨p, hp, hpk⟩ := List.mem_map.mp (huk k hk)
  have hm : (k, p.2) ∈ keys := by rw [← hpk]; exact hp
  rw [rowToItem_serialized_get keys n it k p.2 hndf hnds hm]
  have hsome := hpres k hk
  rcases hv : it.get k with _ | v
  · rw [hv] at hsome
    simp at hsome
  · have hvnn := hnn k hk v hv
    show some (toCell v) = some v
    rw [toCell, if_neg hvnn]

/-- A serialized row with a witness schema field holding a value other
than `""` (and other than `null`) is not an empty row. -/
theorem serialized_row_nonempty (keys : List (String × Nat)) (it : DBItem)
    (k : String) (o : Nat) (v : Value)
    (hnds : (keys.map Prod.snd).Nodup)
    (hm : (k, o) ∈ keys) (hv : it.get k = some v)
    (hvne : v ≠ Value.str "") (hvnn : v ≠ Value.vnull) :
    rowIsEmpty ((serializeItem keys (width keys) Value.vnull it).map toCell) = false := by
  have hcell : ((serializeItem keys (width keys) Value.vnull it).map toCell).getD o
      (Value.str "") = v := by
    have hd : Value.str "" = toCell Value.vnull := rfl
    rw [hd, getD_map_toCell,
      serializeItem_getD keys Value.vnull it k o Value.vnull hnds hm, hv]
    show toCell v = v
    rw [toCell, if_neg hvnn]
  have hlen : ((serializeItem keys (width keys) Value.vnull it).map toCell).length =
      width keys := by
    rw [List.length_map, serializeItem_length']
  have ho : o < width keys := width_pos_of_mem keys k o hm
  have hmemv : v ∈ (serializeItem keys (width keys) Value.vnull it).map toCell := by
    rw [← hcell, List.getD_eq_getElem?_getD,
      List.getElem?_eq_getElem (by rw [hlen]; exact ho)]
    exact List.getElem_mem _
  cases hall : rowIsEmpty ((serializeItem keys (width keys) Value.vnull it).map toCell) with
  | false => rfl
  | true =>
    rw [rowIsEmpty, List.all_eq_true] at hall
    exact absurd (beq_iff_eq.mp (hall v hmemv)) hvne

/-- What the first merge loop updates, elementwise: an incoming entry
whose hash hit the current set and fired `isUp`, pushed through `upd`. -/
theorem mergeLoop1Upd_mem (curObj : List (String × DBItem))
    (isUp : DBItem → DBItem → Bool) (upd : DBItem → DBItem → DBItem)
    (incObj : List (String × DBItem)) (q : String × DBItem)
    (h : q ∈ mergeLoop1Upd curObj isUp upd incObj) :
    ∃ c p, p ∈ incObj ∧ q = (p.1, upd c p.2) ∧ curObj.lookup p.1 = some c ∧
      isUp c p.2 = true := by
  induction incObj with
  | nil => rw [mergeLoop1Upd] at h; simp at h
  | cons p t ih =>
    rw [mergeLoop1Upd] at h
    rcases hc : curObj.lookup p.1 with _ | c
    · rw [hc] at h
      obtain ⟨c', p', h1, h2, h3, h4⟩ := ih h
      exact ⟨c', p', List.mem_cons_of_mem p h1, h2, h3, h4⟩
    · rw [hc] at h
      have hred : q ∈ (if isUp c p.2 = true then
          (p.1, upd c p.2) :: mergeLoop1Upd curObj isUp upd t
          else mergeLoop1Upd curObj isUp upd t) := h
      by_cases hu : isUp c p.2 = true
      · rw [if_pos hu] at hred
        rcases List.mem_cons.mp hred with hh | hh
        · exact ⟨c, p, List.mem_cons_self p t, hh, hc, hu⟩
        · obtain ⟨c', p', h1, h2, h3, h4⟩ := ih hh
          exact ⟨c', p', List.mem_cons_of_mem p h1, h2, h3, h4⟩
      · rw [if_neg hu] at hred
        obtain ⟨c', p', h1, h2, h3, h4⟩ := ih hred
        exact ⟨c', p', List.mem_cons_of_mem p h1, h2, h3, h4⟩

theorem mergeLoop1Upd_keys_sublist (curObj : List (String × DBItem))
    (isUp : DBItem → DBItem → Bool) (upd : DBItem → DBItem → DBItem)
    (incObj : List (String × DBItem)) :
    ((mergeLoop1Upd curObj isUp upd incObj).map Prod.fst).Sublist
      (incObj.map Prod.fst) := by
  induction incObj with
  | nil => exact List.Sublist.refl _
  | cons p t ih =>
    rw [mergeLoop1Upd, List.map_cons]
    rcases hc : curObj.lookup p.1 with _ | c
    · exact ih.cons p.1
    · show (List.map Prod.fst (if isUp c p.2 = true then
          (p.1, upd c p.2) :: mergeLoop1Upd curObj isUp upd t
          else mergeLoop1Upd curObj isUp upd t)).Sublist (p.1 :: List.map Prod.fst t)
      by_cases hu : isUp c p.2 = true
      · rw [if_pos hu, List.map_cons]
        exact ih.cons₂ p.1
      · rw [if_neg hu]
        exact ih.cons p.1

theorem buildObj_lookup_some (hf : DBItem → String) (items : List DBItem) (h : String)
    (c : DBItem) (hc : (buildObj hf items).lookup h = some c) :
    c ∈ items ∧ hf c = h := by
  rw [buildObj_lookup] at hc
  have hmem := List.mem_of_mem_getLast? hc
  rw [List.mem_filter] at hmem
  exact ⟨hmem.1, beq_iff_eq.mp hmem.2⟩

/-- Records after the last hash match of a grouping never share its hash
(provided the matched record does not recur later). -/
theorem lookup_last_suffix_no_match (hf : DBItem → String) (l1 l2 : List DBItem)
    (c : DBItem) (h : String)
    (hlast : ((l1 ++ c :: l2).filter (fun x => hf x == h)).getLast? = some c)
    (hnotmem : c ∉ l2) :
    ∀ x ∈ l2, hf x ≠ h := by
  intro x hx he
  have hne : l2.filter (fun y => hf y == h) ≠ [] := by
    intro hnil
    rw [List.filter_eq_nil_iff] at hnil
    exact hnil x hx (beq_iff_eq.mpr he)
  exact hnotmem (getLast?_filter_mem_suffix _ l1 l2 c c hlast hne)

/-- When every incoming hash hits the current set without firing the
update test, the first merge loop produces nothing. -/
theorem mergeLoop1_all_noop (curObj : List (String × DBItem))
    (isUp : DBItem → DBItem → Bool) (upd : DBItem → DBItem → DBItem)
    (incObj : List (String × DBItem))
    (h : ∀ p ∈ incObj, ∃ c, curObj.lookup p.1 = some c ∧ isUp c p.2 = false) :
    mergeLoop1Upd curObj isUp upd incObj = [] ∧ mergeLoop1Ins curObj incObj = [] := by
  induction incObj with
  | nil => exact ⟨rfl, rfl⟩
  | cons p t ih =>
    obtain ⟨c, hc, hup⟩ := h p (List.mem_cons_self p t)
    obtain ⟨ih1, ih2⟩ := ih (fun q hq => h q (List.mem_cons_of_mem p hq))
    constructor
    · rw [mergeLoop1Upd, hc]
      show (if isUp c p.2 = true then (p.1, upd c p.2) :: mergeLoop1Upd curObj isUp upd t
        else mergeLoop1Upd curObj isUp upd t) = []
      rw [hup, if_neg Bool.false_ne_true]
      exact ih1
    · rw [mergeLoop1Ins, hc]
      show mergeLoop1Ins curObj t = []
      exact ih2

/-- The region after the update phase, row by row: an addressed row holds
its record's serialization, every other row is untouched. -/
theorem updatePhase_getD (st : Store) (items : List DBItem) (j : Nat)
    (hw : 0 < width st.keys)
    (hge : ∀ x ∈ items, st.dataRowFirst ≤ x.row.getD 0)
    (hnd : (items.map (fun x => x.row.getD 0)).Nodup)
    (hj : j < st.rows.length) :
    ((updateDataItemsByChunks st items).rows.getD j [] =
      st.rows.getD j [] ∧ ∀ x ∈ items, x.row.getD 0 ≠ st.dataRowFirst + j) ∨
    (∃ x ∈ items, x.row.getD 0 = st.dataRowFirst + j ∧
      (updateDataItemsByChunks st items).rows.getD j [] =
        (serializeItem st.keys (width st.keys) Value.vnull x).map toCell) := by
  rw [updateDataItemsByChunks_eq_foldl st items hw hge]
  by_cases hhit : ∃ x ∈ items, x.row.getD 0 = st.dataRowFirst + j
  · obtain ⟨x, hx, hxr⟩ := hhit
    exact Or.inr ⟨x, hx, hxr,
      foldl_writeOneRow_getD_written items st j x hw hge hnd hx hxr hj⟩
  · push_neg at hhit
    exact Or.inl ⟨foldl_writeOneRow_getD_untouched items st j hw hge hhit, hhit⟩

theorem append_take_drop_mid {α : Type} (A B C : List α) (m : Nat) :
    A ++ B ++ C = (A ++ B.take m) ++ (B.drop m ++ C) := by
  conv_lhs => rw [← List.take_append_drop m B]
  rw [← List.append_assoc A (B.take m) (B.drop m), List.append_assoc]

/-- The store after the insert phase: the content prefix stays in place,
the serialized new rows land right after it, and everything after them is
empty rows. -/
theorem insertDataItemsApply_shape (st : Store) (items : List DBItem)
    (hne : items ≠ []) (hw : 0 < width st.keys) :
    ∃ S : List (List Value),
      insertDataItemsApply st items =
        { st with rows := (st.rows.take (lastContentIdx st.rows) ++
          (((parseDataToArray st.keys Value.vnull items).map
            (fun v => v.map toCell)) ++ S)) } ∧
      (∀ r ∈ S, rowIsEmpty r = true) := by
  have hvne : parseDataToArray st.keys Value.vnull items ≠ [] := by
    rcases items with _ | ⟨x, xs⟩
    · exact absurd rfl hne
    · rw [parseDataToArray, List.map_cons]
      exact List.cons_ne_nil _ _
  have hvmem : ∀ v ∈ parseDataToArray st.keys Value.vnull items, v ≠ [] := by
    intro v hv
    obtain ⟨y, _, he⟩ := List.mem_map.mp hv
    rw [← he]
    intro hh
    have hl := serializeItem_length' st.keys (width st.keys) Value.vnull y
    rw [hh, List.length_nil] at hl
    omega
  have hnpos : 0 < (parseDataToArray st.keys Value.vnull items).length :=
    List.length_pos.mpr hvne
  simp only [insertDataItemsApply]
  rw [if_neg hvne]
  by_cases hlc : lastContentIdx st.rows = 0
  · rw [if_pos hlc, hlc, List.take_zero]
    have hallemp : ∀ r ∈ st.rows, rowIsEmpty r = true := by
      intro r hr
      exact rows_drop_all_empty st.rows 0 (by omega) r (by rw [List.drop_zero]; exact hr)
    rw [setValues_eq_writeRows _ _ _ hvne hvmem]
    simp only [store_with_rows_keys, store_with_rows_first, store_with_rows_rows]
    rw [Nat.sub_self]
    have hblen : (List.replicate (parseDataToArray st.keys Value.vnull items).length
        (List.replicate (width st.keys) (Value.str ""))).length =
        (parseDataToArray st.keys Value.vnull items).length :=
      List.length_replicate _ _
    have hele : (st.rows.take 1).length ≤
        (parseDataToArray st.keys Value.vnull items).length := by
      rw [List.length_take]
      omega
    have hsplit : st.rows.take 1 ++ (List.replicate
        (parseDataToArray st.keys Value.vnull items).length
        (List.replicate (width st.keys) (Value.str ""))) ++ st.rows.drop 1 =
        (st.rows.take 1 ++ (List.replicate
          (parseDataToArray st.keys Value.vnull items).length
          (List.replicate (width st.keys) (Value.str ""))).take
            ((parseDataToArray st.keys Value.vnull items).length -
              (st.rows.take 1).length)) ++
        ((List.replicate (parseDataToArray st.keys Value.vnull items).length
          (List.replicate (width st.keys) (Value.str ""))).drop
            ((parseDataToArray st.keys Value.vnull items).length -
              (st.rows.take 1).length) ++ st.rows.drop 1) :=
      append_take_drop_mid _ _ _ _
    rw [hsplit]
    have hBlen : (st.rows.take 1 ++ (List.replicate
        (parseDataToArray st.keys Value.vnull items).length
        (List.replicate (width st.keys) (Value.str ""))).take
          ((parseDataToArray st.keys Value.vnull items).length -
            (st.rows.take 1).length)).length =
        (parseDataToArray st.keys Value.vnull items).length := by
      simp only [List.length_append, List.length_take, List.length_replicate]
      omega
    have hz := writeRows_zero_splice (parseDataToArray st.keys Value.vnull items)
      (st.rows.take 1 ++ (List.replicate
        (parseDataToArray st.keys Value.vnull items).length
        (List.replicate (width st.keys) (Value.str ""))).take
          ((parseDataToArray st.keys Value.vnull items).length -
            (st.rows.take 1).length))
      ((List.replicate (parseDataToArray st.keys Value.vnull items).length
        (List.replicate (width st.keys) (Value.str ""))).drop
          ((parseDataToArray st.keys Value.vnull items).length -
            (st.rows.take 1).length) ++ st.rows.drop 1)
      hBlen
    refine ⟨(List.replicate (parseDataToArray st.keys Value.vnull items).length
        (List.replicate (width st.keys) (Value.str ""))).drop
          ((parseDataToArray st.keys Value.vnull items).length -
            (st.rows.take 1).length) ++ st.rows.drop 1, ?_, ?_⟩
    · rw [hz, List.nil_append]
    · intro r hr
      rcases List.mem_append.mp hr with hh | hh
      · rw [List.eq_of_mem_replicate (List.mem_of_mem_drop hh)]
        exact rowIsEmpty_replicate _
      · exact hallemp r (List.mem_of_mem_drop hh)
  · rw [if_neg hlc]
    rw [setValues_eq_writeRows _ _ _ hvne hvmem]
    simp only [store_with_rows_keys, store_with_rows_first, store_with_rows_rows]
    have hsub : st.dataRowFirst + lastContentIdx st.rows - st.dataRowFirst =
        lastContentIdx st.rows := by omega
    rw [hsub]
    have htl : (st.rows.take (lastContentIdx st.rows)).length =
        lastContentIdx st.rows := by
      rw [List.length_take]
      have := lastContentIdx_le_length st.rows
      omega
    refine ⟨st.rows.drop (lastContentIdx st.rows), ?_, ?_⟩
    · have hsplice := writeRows_splice (st.rows.take (lastContentIdx st.rows))
        (List.replicate (parseDataToArray st.keys Value.vnull items).length
          (List.replicate (width st.keys) (Value.str "")))
        (st.rows.drop (lastContentIdx st.rows))
        (parseDataToArray st.keys Value.vnull items) (List.length_replicate _ _)
      rw [htl] at hsplice
      rw [← List.append_assoc] at hsplice
      rw [hsplice]
    · exact rows_drop_all_empty st.rows _ (Nat.le_refl _)

theorem getD_take' {α : Type} (l : List α) (m j : Nat) (d : α) (h : j < m) :
    (l.take m).getD j d = l.getD j d := by
  rw [List.getD_eq_getElem?_getD, List.getD_eq_getElem?_getD, List.getElem?_take, if_pos h]

theorem getD_mem_or {α : Type} (l : List α) (n : Nat) (d : α) :
    l.getD n d = d ∨ l.getD n d ∈ l := by
  by_cases h : n < l.length
  · right
    rw [List.getD_eq_getElem?_getD, List.getElem?_eq_getElem h]
    exact List.getElem_mem h
  · left
    rw [List.getD_eq_getElem?_getD, List.getElem?_eq_none (by omega)]
    rfl

theorem rowToItem_row (keys : List (String × Nat)) (n : Nat) (r : List Value) :
    (rowToItem keys n r).row = some n := rfl

theorem hashFun_rowToItem_num (useKeys : List String) (keys : List (String × Nat))
    (n1 n2 : Nat) (r : List Value) :
    hashFun useKeys (rowToItem keys n1 r) = hashFun useKeys (rowToItem keys n2 r) :=
  hashFun_congr useKeys _ _ (fun _ _ => rfl)

theorem mergeLoop1Ins_mem_intro (curObj : List (String × DBItem)) :
    ∀ (incObj : List (String × DBItem)) (p : String × DBItem),
    p ∈ incObj → curObj.lookup p.1 = none → p ∈ mergeLoop1Ins curObj incObj := by
  intro incObj
  induction incObj with
  | nil => intro p hp _; simp at hp
  | cons q t ih =>
    intro p hp hnone
    rw [mergeLoop1Ins]
    rcases List.mem_cons.mp hp with hh | hh
    · rw [← hh, hnone]
      exact List.mem_cons_self _ _
    · rcases hc : curObj.lookup q.1 with _ | c
      · exact List.mem_cons_of_mem q (ih p hh hnone)
      · exact ih p hh hnone

theorem mergeLoop1Upd_mem_intro (curObj : List (String × DBItem))
    (isUp : DBItem → DBItem → Bool) (upd : DBItem → DBItem → DBItem) :
    ∀ (incObj : List (String × DBItem)) (p : String × DBItem) (c : DBItem),
    p ∈ incObj → curObj.lookup p.1 = some c → isUp c p.2 = true →
    (p.1, upd c p.2) ∈ mergeLoop1Upd curObj isUp upd incObj := by
  intro incObj
  induction incObj with
  | nil => intro p c hp _ _; simp at hp
  | cons q t ih =>
    intro p c hp hsome hup
    rw [mergeLoop1Upd]
    rcases List.mem_cons.mp hp with hh | hh
    · rw [← hh, hsome]
      show (p.1, upd c p.2) ∈ (if isUp c p.2 = true then
        (p.1, upd c p.2) :: mergeLoop1Upd curObj isUp upd t
        else mergeLoop1Upd curObj isUp upd t)
      rw [if_pos hup]
      exact List.mem_cons_self _ _
    · rcases hc : curObj.lookup q.1 with _ | c'
      · exact ih p c hh hsome hup
      · show (p.1, upd c p.2) ∈ (if isUp c' q.2 = true then
          (q.1, upd c' q.2) :: mergeLoop1Upd curObj isUp upd t
          else mergeLoop1Upd curObj isUp upd t)
        by_cases hu : isUp c' q.2 = true
        · rw [if_pos hu]
          exact List.mem_cons_of_mem _ (ih p c hh hsome hup)
        · rw [if_neg hu]
          exact ih p c hh hsome hup

theorem mergeLoop1Ins_keys_sublist (curObj : List (String × DBItem)) :
    ∀ incObj : List (String × DBItem),
    ((mergeLoop1Ins curObj incObj).map Prod.fst).Sublist (incObj.map Prod.fst) := by
  intro incObj
  induction incObj with
  | nil => exact List.Sublist.refl _
  | cons p t ih =>
    rw [mergeLoop1Ins, List.map_cons]
    rcases hc : curObj.lookup p.1 with _ | c
    · rw [List.map_cons]
      exact ih.cons₂ p.1
    · exact ih.cons p.1

/-! The complete default-callback merge, packaged. -/

/-- The persisted serialization of one record: the serialized cells after
the medium's write conversion. -/
def serRow (keys : List (String × Nat)) (it : DBItem) : List Value :=
  (serializeItem keys (width keys) Value.vnull it).map toCell

/-- The grouped current records of a merge with no callbacks. -/
def curGroup (st : Store) (useKeys : List String) : List (String × DBItem) :=
  buildObj (hashFun useKeys) (currentItemsList st none)

/-- The grouped incoming records: each keyed by its hash. -/
def incGroup (useKeys : List String) (X : List DBItem) : List (String × DBItem) :=
  X.map (fun it => (hashFun useKeys it, it))

/-- The update set of a default-callback merge. -/
def updSet (st : Store) (useKeys : List String) (X : List DBItem) :
    List (String × DBItem) :=
  mergeLoop1Upd (curGroup st useKeys)
    (defaultIsUpdate (filterKeysFrom st.keys (useKeys ++ [])))
    (defaultUpdate (filterKeysFrom st.keys (useKeys ++ []))) (incGroup useKeys X)

/-- The insert set of a default-callback merge. -/
def insSet (st : Store) (useKeys : List String) (X : List DBItem) :
    List (String × DBItem) :=
  mergeLoop1Ins (curGroup st useKeys) (incGroup useKeys X)

/-- The store a default-callback merge leaves behind: the update phase,
then the insert phase (no delete phase without an `isDeleteCB`). -/
def mergeApply (st : Store) (useKeys : List String) (X : List DBItem) : Store :=
  let st1 := if (updSet st useKeys X).length ≠ 0 then
      updateDataItemsByChunks st (((updSet st useKeys X).map Prod.snd).insertionSort
        (fun a b => a.row.getD 0 ≤ b.row.getD 0))
    else st
  if (insSet st useKeys X).length ≠ 0 then
    insertDataItemsApply st1 ((insSet st useKeys X).map Prod.snd)
  else st1

/-- Full evaluation of a default-callback merge: the reported counts are
the sizes of the update and insert sets, no deletions happen, and the
final store is the two phases applied in order. -/
theorem mergeDataItems_none_eval (st : Store) (X : List DBItem) (useKeys : List String)
    (hukne : useKeys ≠ [])
    (huk : ∀ k ∈ useKeys, k ∈ st.keys.map Prod.fst)
    (hXnd : (X.map (hashFun useKeys)).Nodup) :
    mergeDataItems st X useKeys none none none none none [] =
      .ok (((updSet st useKeys X).length, (insSet st useKeys X).length, 0),
        mergeApply st useKeys X) := by
  have hchk : checkKeys st.keys useKeys = Except.ok () := checkKeys_ok _ _ hukne huk
  have hget : getDataItemsObject st useKeys none none = .ok (curGroup st useKeys) := by
    rw [getDataItemsObject, hchk, except_bind_ok, curGroup, hashWith_none]
  have hXnd' : (X.map (hashWith useKeys none)).Nodup := by
    rw [hashWith_none]
    exact hXnd
  have hparse : parseDataItemsArrayToObject st.keys useKeys none X =
      .ok (incGroup useKeys X) := by
    rw [parseDataItemsArrayToObject, hchk, except_bind_ok,
      parseArrayGo_ok_append (hashWith useKeys none) X [] hXnd' (fun it _ => rfl),
      List.nil_append, incGroup, hashWith_none]
  have hincnd : ((incGroup useKeys X).map Prod.fst).Nodup := by
    rw [incGroup, List.map_map]
    exact hXnd
  have hcore : mergeSetsCore (filterKeysFrom st.keys (useKeys ++ []))
      (curGroup st useKeys) (incGroup useKeys X) none none none =
      ((updSet st useKeys X, insSet st useKeys X, []),
        (updSet st useKeys X).length, (insSet st useKeys X).length, 0) := by
    simp only [mergeSetsCore, Option.getD_none]
    rw [mergeLoop1_eq_spec _ _ _ _ hincnd]
    rfl
  have hms : mergeSets st X useKeys none none none none none [] =
      .ok (curGroup st useKeys, incGroup useKeys X,
        (updSet st useKeys X, insSet st useKeys X, []),
        (updSet st useKeys X).length, (insSet st useKeys X).length, 0) := by
    rw [mergeSets, hget, except_bind_ok, hparse, except_bind_ok]
    simp only [hcore]
  rw [mergeDataItems, hms, except_bind_ok]
  simp only [mergeApply]
  have hz : ¬((0 : Nat) ≠ 0) := fun hh => hh rfl
  rw [if_neg hz]

/-- When every incoming hash hits the current set without firing the
default update test, the merge is a no-op. -/
theorem mergeApply_of_noop (st : Store) (useKeys : List String) (X : List DBItem)
    (h : ∀ p ∈ incGroup useKeys X, ∃ c, (curGroup st useKeys).lookup p.1 = some c ∧
      defaultIsUpdate (filterKeysFrom st.keys (useKeys ++ [])) c p.2 = false) :
    updSet st useKeys X = [] ∧ insSet st useKeys X = [] ∧
      mergeApply st useKeys X = st := by
  obtain ⟨h1, h2⟩ := mergeLoop1_all_noop (curGroup st useKeys)
    (defaultIsUpdate (filterKeysFrom st.keys (useKeys ++ [])))
    (defaultUpdate (filterKeysFrom st.keys (useKeys ++ []))) (incGroup useKeys X) h
  have h1' : updSet st useKeys X = [] := h1
  have h2' : insSet st useKeys X = [] := h2
  refine ⟨h1', h2', ?_⟩
  have hz : ¬((0 : Nat) ≠ 0) := fun hh => hh rfl
  simp only [mergeApply, h1', h2', List.length_nil]
  rw [if_neg hz, if_neg hz]

/-! Structural preservation of the two phases. -/

theorem chunksFoldl_pres (chunks : List (Nat × List DBItem)) : ∀ st : Store,
    ((chunks.foldl (fun s c => setValues s c.1
        (parseDataToArray s.keys Value.vnull c.2)) st).keys = st.keys ∧
      (chunks.foldl (fun s c => setValues s c.1
        (parseDataToArray s.keys Value.vnull c.2)) st).dataRowFirst = st.dataRowFirst) := by
  induction chunks with
  | nil => intro st; exact ⟨rfl, rfl⟩
  | cons c t ih =>
    intro st
    rw [List.foldl_cons]
    obtain ⟨h1, h2⟩ := ih (setValues st c.1 (parseDataToArray st.keys Value.vnull c.2))
    exact ⟨by rw [h1, setValues_keys], by rw [h2, setValues_first]⟩

theorem updateDataItemsByChunks_keys (st : Store) (items : List DBItem) :
    (updateDataItemsByChunks st items).keys = st.keys := by
  rcases items with _ | ⟨it, rest⟩
  · rfl
  · simp only [updateDataItemsByChunks]
    exact (chunksFoldl_pres _ st).1

theorem updateDataItemsByChunks_first (st : Store) (items : List DBItem) :
    (updateDataItemsByChunks st items).dataRowFirst = st.dataRowFirst := by
  rcases items with _ | ⟨it, rest⟩
  · rfl
  · simp only [updateDataItemsByChunks]
    exact (chunksFoldl_pres _ st).2

theorem insertDataItemsApply_keys (st : Store) (items : List DBItem) :
    (insertDataItemsApply st items).keys = st.keys := by
  simp only [insertDataItemsApply]
  by_cases h : parseDataToArray st.keys Value.vnull items = []
  · rw [if_pos h]
  · rw [if_neg h]
    by_cases hlc : lastContentIdx st.rows = 0
    · rw [if_pos hlc, setValues_keys, store_with_rows_keys]
    · rw [if_neg hlc, setValues_keys, store_with_rows_keys]

theorem insertDataItemsApply_first (st : Store) (items : List DBItem) :
    (insertDataItemsApply st items).dataRowFirst = st.dataRowFirst := by
  simp only [insertDataItemsApply]
  by_cases h : parseDataToArray st.keys Value.vnull items = []
  · rw [if_pos h]
  · rw [if_neg h]
    by_cases hlc : lastContentIdx st.rows = 0
    · rw [if_pos hlc, setValues_first, store_with_rows_first]
    · rw [if_neg hlc, setValues_first, store_with_rows_first]

theorem mergeApply_keys (st : Store) (useKeys : List String) (X : List DBItem) :
    (mergeApply st useKeys X).keys = st.keys := by
  simp only [mergeApply]
  by_cases h2 : (insSet st useKeys X).length ≠ 0
  · rw [if_pos h2, insertDataItemsApply_keys]
    by_cases h1 : (updSet st useKeys X).length ≠ 0
    · rw [if_pos h1, updateDataItemsByChunks_keys]
    · rw [if_neg h1]
  · rw [if_neg h2]
    by_cases h1 : (updSet st useKeys X).length ≠ 0
    · rw [if_pos h1, updateDataItemsByChunks_keys]
    · rw [if_neg h1]

theorem mergeApply_first (st : Store) (useKeys : List String) (X : List DBItem) :
    (mergeApply st useKeys X).dataRowFirst = st.dataRowFirst := by
  simp only [mergeApply]
  by_cases h2 : (insSet st useKeys X).length ≠ 0
  · rw [if_pos h2, insertDataItemsApply_first]
    by_cases h1 : (updSet st useKeys X).length ≠ 0
    · rw [if_pos h1, updateDataItemsByChunks_first]
    · rw [if_neg h1]
  · rw [if_neg h2]
    by_cases h1 : (updSet st useKeys X).length ≠ 0
    · rw [if_pos h1, updateDataItemsByChunks_first]
    · rw [if_neg h1]

theorem getD_drop' {α : Type} (l : List α) (m j : Nat) (d : α) (h : m + j < l.length) :
    (l.drop m).getD j d = l.getD (m + j) d := by
  rw [List.getD_eq_getElem?_getD, List.getD_eq_getElem?_getD,
    List.getElem?_eq_getElem (by rw [List.length_drop]; omega),
    List.getElem?_eq_getElem h, List.getElem_drop]

theorem chunksFoldl_len (chunks : List (Nat × List DBItem)) : ∀ st : Store,
    (chunks.foldl (fun s c => setValues s c.1 (parseDataToArray s.keys Value.vnull c.2))
      st).rows.length = st.rows.length := by
  induction chunks with
  | nil => intro st; rfl
  | cons c t ih =>
    intro st
    rw [List.foldl_cons, ih, setValues_rows_length]

theorem updateDataItemsByChunks_rows_length (st : Store) (items : List DBItem) :
    (updateDataItemsByChunks st items).rows.length = st.rows.length := by
  rcases items with _ | ⟨it, rest⟩
  · rfl
  · simp only [updateDataItemsByChunks]
    exact chunksFoldl_len _ st

/-- The default update test never fires against the materialized version
of a serialized row whose compared fields agree with the incoming record:
every compared value round-trips through the medium. -/
theorem defaultIsUpdate_roundtrip (keys : List (String × Nat)) (useKeys : List String)
    (rowNum : Nat) (base n : DBItem)
    (hndf : (keys.map Prod.fst).Nodup) (hnds : (keys.map Prod.snd).Nodup)
    (hagree : ∀ k ∈ (filterKeysFrom keys (useKeys ++ [])).map Prod.fst,
      (n.get k).isSome = true → base.get k = n.get k)
    (hnn : ∀ k v, n.get k = some v → v ≠ Value.vnull) :
    defaultIsUpdate (filterKeysFrom keys (useKeys ++ []))
      (rowToItem keys rowNum
        ((serializeItem keys (width keys) Value.vnull base).map toCell)) n = false := by
  rw [defaultIsUpdate, List.any_eq_false]
  intro pp hpp
  intro hb
  rw [Bool.and_eq_true, Bool.not_eq_true'] at hb
  obtain ⟨hsome, hlneq⟩ := hb
  have hppk : pp ∈ keys := ((mem_filterKeysFrom keys _ pp).mp hpp).1
  have hppm : (pp.1, pp.2) ∈ keys := hppk
  have hc2get := rowToItem_serialized_get keys rowNum base pp.1 pp.2 hndf hnds hppm
  rcases hv : n.get pp.1 with _ | v
  · rw [hv] at hsome
    simp at hsome
  · have hbase := hagree pp.1 (List.mem_map.mpr ⟨pp, hpp, rfl⟩) (by rw [hv]; rfl)
    rw [hbase, hv] at hc2get
    have hvnn := hnn pp.1 v hv
    rw [hc2get, hv] at hlneq
    have htc : toCell v = v := by rw [toCell, if_neg hvnn]
    rw [show ((some v).getD Value.vnull) = v from rfl, htc, looseEqU_refl] at hlneq
    exact Bool.noConfusion hlneq

/-- The default update callback never touches a hash-key field. -/
theorem defaultUpdate_get_useKey (keys : List (String × Nat)) (useKeys : List String)
    (c m : DBItem) (k : String) (hndf : (keys.map Prod.fst).Nodup) (hk : k ∈ useKeys) :
    (defaultUpdate (filterKeysFrom keys (useKeys ++ [])) c m).get k = c.get k := by
  rw [defaultUpdate_get _ _ _ k (filterKeysFrom_names_nodup _ _ hndf), if_neg]
  rintro ⟨hmem, -⟩
  obtain ⟨pp, hpp, hppk⟩ := List.mem_map.mp hmem
  rw [mem_filterKeysFrom] at hpp
  exact hpp.2 (hppk ▸ List.mem_append_left [] hk)

/-- Hence a default update leaves the record's hash unchanged. -/
theorem hash_defaultUpdate_useKeys (keys : List (String × Nat)) (useKeys : List String)
    (c m : DBItem) (hndf : (keys.map Prod.fst).Nodup) :
    hashFun useKeys (defaultUpdate (filterKeysFrom keys (useKeys ++ [])) c m) =
      hashFun useKeys c :=
  hashFun_congr useKeys _ _ (fun k hk => defaultUpdate_get_useKey keys useKeys c m k hndf hk)

/-- Every insert-set entry is an incoming record keyed by its own hash
whose hash missed the current set. -/
theorem insSet_entry_shape (st : Store) (useKeys : List String) (X : List DBItem)
    (q : String × DBItem) (hq : q ∈ insSet st useKeys X) :
    q.2 ∈ X ∧ q.1 = hashFun useKeys q.2 ∧
      (curGroup st useKeys).lookup q.1 = none := by
  rw [insSet] at hq
  obtain ⟨hinc, hnone⟩ := mergeLoop1Ins_mem _ _ q hq
  rw [incGroup] at hinc
  obtain ⟨m, hmX, hme⟩ := List.mem_map.mp hinc
  subst hme
  exact ⟨hmX, rfl, hnone⟩

theorem nodup_getD_ne {α : Type} (l : List α) (hnd : l.Nodup) (i j : Nat) (d : α)
    (hi : i < l.length) (hj : j < l.length) (hne : i ≠ j) :
    l.getD i d ≠ l.getD j d := by
  rw [List.getD_eq_getElem?_getD, List.getD_eq_getElem?_getD,
    List.getElem?_eq_getElem hi, List.getElem?_eq_getElem hj]
  intro he
  exact hne ((List.Nodup.getElem_inj_iff hnd).mp he)

/-- After one default-callback merge satisfying the amended idempotence
conditions, every incoming hash finds its freshly persisted record and
the default update test no longer fires: the groundwork for idempotence. -/
theorem mergeApply_second_noop (st : Store) (useKeys : List String) (X : List DBItem)
    (hndf : (st.keys.map Prod.fst).Nodup)
    (hnds : (st.keys.map Prod.snd).Nodup)
    (hukne : useKeys ≠ [])
    (huk : ∀ k ∈ useKeys, k ∈ st.keys.map Prod.fst)
    (hcells : ∀ r ∈ st.rows, ∀ c ∈ r, c ≠ Value.vnull)
    (hXnd : (X.map (hashFun useKeys)).Nodup)
    (hXnn : ∀ it ∈ X, ∀ kv ∈ it.fields, kv.2 ≠ Value.vnull)
    (hXuk : ∀ it ∈ X, ∀ k ∈ useKeys, (it.get k).isSome = true)
    (hXw : ∀ it ∈ X, ∃ p ∈ st.keys, p.1 ∉ useKeys ∧ ∃ v, it.get p.1 = some v ∧
      v ≠ Value.str "" ∧ v ≠ Value.vnull) :
    ∀ p ∈ incGroup useKeys X, ∃ c2,
      (curGroup (mergeApply st useKeys X) useKeys).lookup p.1 = some c2 ∧
      defaultIsUpdate (filterKeysFrom (mergeApply st useKeys X).keys (useKeys ++ []))
        c2 p.2 = false := by
  have hw : 0 < width st.keys := by
    rcases useKeys with _ | ⟨k0, kt⟩
    · exact absurd rfl hukne
    · obtain ⟨pp, hpp, hppk⟩ := List.mem_map.mp (huk k0 (List.mem_cons_self _ _))
      have hm : (k0, pp.2) ∈ st.keys := by rw [← hppk]; exact hpp
      have := width_pos_of_mem st.keys k0 pp.2 hm
      omega
  have hcmpnd : ((filterKeysFrom st.keys (useKeys ++ [])).map Prod.fst).Nodup :=
    filterKeysFrom_names_nodup _ _ hndf
  have hincnd : ((incGroup useKeys X).map Prod.fst).Nodup := by
    rw [incGroup, List.map_map]
    exact hXnd
  -- non-`null` cells of the current region
  have hcellnn : ∀ j o, j < st.rows.length →
      (st.rows.getD j []).getD o (Value.str "") ≠ Value.vnull := by
    intro j o hj
    rcases getD_mem_or (st.rows.getD j []) o (Value.str "") with hd | hm
    · rw [hd]
      intro hh
      exact Value.noConfusion hh
    · have hrmem : st.rows.getD j [] ∈ st.rows := by
        rcases getD_mem_or st.rows j [] with hd2 | hm2
        · rw [hd2] at hm
          simp at hm
        · exact hm2
      exact hcells _ hrmem _ hm
  -- hash-key fields of a materialized current record: present and non-`null`
  have hitemuk : ∀ j, j < st.rows.length → ∀ k ∈ useKeys,
      ((rowToItem st.keys (st.dataRowFirst + j) (st.rows.getD j [])).get k).isSome = true ∧
      ∀ v, (rowToItem st.keys (st.dataRowFirst + j) (st.rows.getD j [])).get k = some v →
        v ≠ Value.vnull := by
    intro j hj k hk
    obtain ⟨pp, hpp, hppk⟩ := List.mem_map.mp (huk k hk)
    have hm : (k, pp.2) ∈ st.keys := by rw [← hppk]; exact hpp
    rw [rowToItem_get st.keys _ _ k pp.2 hndf hm]
    refine ⟨rfl, ?_⟩
    intro v hv
    injection hv with hv'
    rw [← hv']
    exact hcellnn j pp.2 hj
  -- one row per update-set entry: its current record, its incoming record
  have hUfact : ∀ q ∈ updSet st useKeys X, ∃ j, j < st.rows.length ∧
      rowIsEmpty (st.rows.getD j []) = false ∧
      q.2.row = some (st.dataRowFirst + j) ∧
      (curGroup st useKeys).lookup q.1 =
        some (rowToItem st.keys (st.dataRowFirst + j) (st.rows.getD j [])) ∧
      hashFun useKeys (rowToItem st.keys (st.dataRowFirst + j) (st.rows.getD j [])) = q.1 ∧
      ∃ m ∈ X, q.1 = hashFun useKeys m ∧
        q.2 = defaultUpdate (filterKeysFrom st.keys (useKeys ++ []))
          (rowToItem st.keys (st.dataRowFirst + j) (st.rows.getD j [])) m ∧
        defaultIsUpdate (filterKeysFrom st.keys (useKeys ++ []))
          (rowToItem st.keys (st.dataRowFirst + j) (st.rows.getD j [])) m = true := by
    intro q hq
    rw [updSet] at hq
    obtain ⟨c', pp, hppinc, hqe, hlk, hup⟩ := mergeLoop1Upd_mem _ _ _ _ q hq
    have hlk' := hlk
    rw [curGroup] at hlk'
    obtain ⟨hcCL, hhash⟩ := buildObj_lookup_some _ _ _ _ hlk'
    rw [currentItemsList_eq_go] at hcCL
    obtain ⟨j, hj, hemp, hce⟩ := itemsOfRowsGo_mem _ _ _ 0 c' hcCL
    rw [Nat.zero_add] at hce
    rw [incGroup] at hppinc
    obtain ⟨m, hmX, hme⟩ := List.mem_map.mp hppinc
    subst hme
    subst hqe
    refine ⟨j, hj, hemp, ?_, ?_, ?_, m, hmX, rfl, ?_, ?_⟩
    · show (defaultUpdate (filterKeysFrom st.keys (useKeys ++ [])) c' m).row = _
      rw [defaultUpdate_row, hce, rowToItem_row]
    · show (curGroup st useKeys).lookup (hashFun useKeys m) = _
      rw [← hce]
      exact hlk
    · show hashFun useKeys _ = hashFun useKeys m
      rw [← hce]
      exact hhash
    · show defaultUpdate (filterKeysFrom st.keys (useKeys ++ [])) c' m = _
      rw [hce]
    · show defaultIsUpdate (filterKeysFrom st.keys (useKeys ++ [])) _ m = true
      rw [← hce]
      exact hup
  -- rows addressed by the update set are pairwise distinct
  have hknd : ((updSet st useKeys X).map Prod.fst).Nodup :=
    List.Nodup.sublist (mergeLoop1Upd_keys_sublist _ _ _ _) hincnd
  have hrowsnd : (((updSet st useKeys X).map Prod.snd).map
      (fun x => x.row.getD 0)).Nodup := by
    rw [List.map_map]
    have hpw : List.Pairwise (fun a b : String × DBItem => a.1 ≠ b.1)
        (updSet st useKeys X) := List.pairwise_map.mp hknd
    have hpw2 : List.Pairwise (fun a b : String × DBItem =>
        a.2.row.getD 0 ≠ b.2.row.getD 0) (updSet st useKeys X) := by
      refine List.Pairwise.imp_of_mem ?_ hpw
      intro a b ha hb hne
      obtain ⟨ja, hja, -, hrowa, -, hhasha, -⟩ := hUfact a ha
      obtain ⟨jb, hjb, -, hrowb, -, hhashb, -⟩ := hUfact b hb
      rw [hrowa, hrowb]
      simp only [Option.getD_some]
      intro heqr
      have hje : ja = jb := by omega
      rw [hje] at hhasha
      exact hne (hhasha ▸ hhashb)
    exact List.pairwise_map.mpr hpw2
  have hUge : ∀ x ∈ (updSet st useKeys X).map Prod.snd,
      st.dataRowFirst ≤ x.row.getD 0 := by
    intro x hx
    obtain ⟨q, hq, hqx⟩ := List.mem_map.mp hx
    obtain ⟨j, -, -, hrow, -⟩ := hUfact q hq
    rw [← hqx, hrow]
    simp only [Option.getD_some]
    omega
  have hperm := List.perm_insertionSort
    (fun a b : DBItem => a.row.getD 0 ≤ b.row.getD 0) ((updSet st useKeys X).map Prod.snd)
  have hgeS : ∀ x ∈ ((updSet st useKeys X).map Prod.snd).insertionSort
      (fun a b => a.row.getD 0 ≤ b.row.getD 0), st.dataRowFirst ≤ x.row.getD 0 :=
    fun x hx => hUge x (hperm.mem_iff.mp hx)
  have hndS : ((((updSet st useKeys X).map Prod.snd).insertionSort
      (fun a b => a.row.getD 0 ≤ b.row.getD 0)).map (fun x => x.row.getD 0)).Nodup :=
    ((hperm.map (fun x => x.row.getD 0)).nodup_iff).mpr hrowsnd
  -- the update-phase store
  set ST1 : Store := if (updSet st useKeys X).length ≠ 0 then
      updateDataItemsByChunks st (((updSet st useKeys X).map Prod.snd).insertionSort
        (fun a b => a.row.getD 0 ≤ b.row.getD 0))
    else st with hST1def
  have hMA : mergeApply st useKeys X =
      if (insSet st useKeys X).length ≠ 0 then
        insertDataItemsApply ST1 ((insSet st useKeys X).map Prod.snd)
      else ST1 := by
    rw [hST1def]
    rfl
  have hST1keys : ST1.keys = st.keys := by
    rw [hST1def]
    by_cases h1 : (updSet st useKeys X).length ≠ 0
    · rw [if_pos h1, updateDataItemsByChunks_keys]
    · rw [if_neg h1]
  have hST1first : ST1.dataRowFirst = st.dataRowFirst := by
    rw [hST1def]
    by_cases h1 : (updSet st useKeys X).length ≠ 0
    · rw [if_pos h1, updateDataItemsByChunks_first]
    · rw [if_neg h1]
  have hST1len : ST1.rows.length = st.rows.length := by
    rw [hST1def]
    by_cases h1 : (updSet st useKeys X).length ≠ 0
    · rw [if_pos h1, updateDataItemsByChunks_rows_length]
    · rw [if_neg h1]
  -- per-row effect of the update phase
  have hST1row : ∀ j, j < st.rows.length →
      (ST1.rows.getD j [] = st.rows.getD j [] ∧
        ∀ q ∈ updSet st useKeys X, q.2.row.getD 0 ≠ st.dataRowFirst + j) ∨
      (∃ q ∈ updSet st useKeys X, q.2.row.getD 0 = st.dataRowFirst + j ∧
        ST1.rows.getD j [] = serRow st.keys q.2) := by
    intro j hj
    rw [hST1def]
    by_cases h1 : (updSet st useKeys X).length ≠ 0
    · rw [if_pos h1]
      rcases updatePhase_getD st (((updSet st useKeys X).map Prod.snd).insertionSort
          (fun a b => a.row.getD 0 ≤ b.row.getD 0)) j hw hgeS hndS hj with
        ⟨he, hnone⟩ | ⟨x, hx, hxr, he⟩
      · refine Or.inl ⟨he, ?_⟩
        intro q hq
        exact hnone q.2 (hperm.mem_iff.mpr (List.mem_map.mpr ⟨q, hq, rfl⟩))
      · obtain ⟨q, hq, hqx⟩ := List.mem_map.mp (hperm.mem_iff.mp hx)
        refine Or.inr ⟨q, hq, by rw [hqx]; exact hxr, ?_⟩
        rw [serRow, hqx]
        exact he
    · rw [if_neg h1]
      push_neg at h1
      have hUnil : updSet st useKeys X = [] := List.length_eq_zero.mp h1
      refine Or.inl ⟨rfl, ?_⟩
      rw [hUnil]
      intro q hq
      simp at hq
  -- an updated row keeps a non-`""` witness cell, an untouched row keeps
  -- its emptiness flag
  have hupdne : ∀ (c0 m : DBItem), m ∈ X →
      rowIsEmpty (serRow st.keys
        (defaultUpdate (filterKeysFrom st.keys (useKeys ++ [])) c0 m)) = false := by
    intro c0 m hmX
    obtain ⟨pw, hpwk, hpwuse, vw, hvw, hvwne, hvwnn⟩ := hXw m hmX
    have hpwm : (pw.1, pw.2) ∈ st.keys := hpwk
    have hgetw : (defaultUpdate (filterKeysFrom st.keys (useKeys ++ [])) c0 m).get pw.1 =
        some vw := by
      rw [defaultUpdate_get _ _ _ _ hcmpnd, if_pos ?hc]
      · exact hvw
      case hc =>
        refine ⟨?_, by rw [hvw]; rfl⟩
        refine List.mem_map.mpr ⟨(pw.1, pw.2), ?_, rfl⟩
        rw [mem_filterKeysFrom]
        refine ⟨hpwm, ?_⟩
        intro hmem
        rcases List.mem_append.mp hmem with hh | hh
        · exact hpwuse hh
        · simp at hh
    rw [serRow]
    exact serialized_row_nonempty st.keys _ pw.1 pw.2 vw hnds hpwm hgetw hvwne hvwnn
  have hST1emp : ∀ j, j < st.rows.length →
      rowIsEmpty (ST1.rows.getD j []) = rowIsEmpty (st.rows.getD j []) := by
    intro j hj
    rcases hST1row j hj with ⟨he, -⟩ | ⟨q, hq, hqr, he⟩
    · rw [he]
    · obtain ⟨j', hj', hemp', hrow, -, -, m, hmX, -, hqd, -⟩ := hUfact q hq
      have hje : j' = j := by
        rw [hrow] at hqr
        simp only [Option.getD_some] at hqr
        omega
      rw [hje] at hemp'
      rw [he, hemp', hqd, hje]
      exact hupdne _ m hmX
  have hlc1 : lastContentIdx ST1.rows = lastContentIdx st.rows :=
    lastContentIdx_congr _ _ hST1len (fun j hj => hST1emp j (by rw [← hST1len]; exact hj))
  -- the insert-phase store shape
  have hST2shape : ∃ S, (mergeApply st useKeys X).rows =
      ST1.rows.take (lastContentIdx st.rows) ++
        ((((insSet st useKeys X).map Prod.snd).map (serRow st.keys)) ++ S) ∧
      ∀ r ∈ S, rowIsEmpty r = true := by
    rw [hMA]
    by_cases hIlen : (insSet st useKeys X).length ≠ 0
    · rw [if_pos hIlen]
      obtain ⟨S, hsh, hS⟩ := insertDataItemsApply_shape ST1
        ((insSet st useKeys X).map Prod.snd)
        (by
          intro hh
          apply hIlen
          rw [List.map_eq_nil] at hh
          rw [hh]
          rfl)
        (by rw [hST1keys]; exact hw)
      rw [hsh, store_with_rows_rows, hST1keys, hlc1]
      refine ⟨S, ?_, hS⟩
      rw [parseDataToArray, List.map_map]
      rfl
    · rw [if_neg hIlen]
      push_neg at hIlen
      have hInil : insSet st useKeys X = [] := List.length_eq_zero.mp hIlen
      refine ⟨ST1.rows.drop (lastContentIdx st.rows), ?_, ?_⟩
      · rw [hInil, List.map_nil, List.map_nil, List.nil_append, List.take_append_drop]
      · rw [← hlc1]
        exact rows_drop_all_empty ST1.rows _ (Nat.le_refl _)
  obtain ⟨S, hrows2, hSall⟩ := hST2shape
  have hA2len : (ST1.rows.take (lastContentIdx st.rows)).length =
      lastContentIdx st.rows := by
    rw [List.length_take, hST1len]
    have := lastContentIdx_le_length st.rows
    omega
  have hV2len : (((insSet st useKeys X).map Prod.snd).map (serRow st.keys)).length =
      (insSet st useKeys X).length := by
    rw [List.length_map, List.length_map]
  -- the record source of the second grouping
  have hCL2 : currentItemsList (mergeApply st useKeys X) none =
      itemsOfRowsGo st.keys st.dataRowFirst 0
        (ST1.rows.take (lastContentIdx st.rows)) ++
      itemsOfRowsGo st.keys st.dataRowFirst (lastContentIdx st.rows)
        (((insSet st useKeys X).map Prod.snd).map (serRow st.keys)) := by
    rw [currentItemsList_eq_go, mergeApply_keys, mergeApply_first, hrows2,
      itemsOfRowsGo_append, itemsOfRowsGo_append,
      itemsOfRowsGo_eq_nil st.keys st.dataRowFirst S hSall, List.append_nil,
      Nat.zero_add, hA2len]
  -- hash and content of one inserted row
  have hV2get : ∀ (jv : Nat), jv < (insSet st useKeys X).length →
      ∃ m', m' ∈ X ∧
        (((insSet st useKeys X).map Prod.snd).map (serRow st.keys)).getD jv [] =
          serRow st.keys m' ∧
        (curGroup st useKeys).lookup (hashFun useKeys m') = none ∧
        ((insSet st useKeys X).map Prod.fst).getD jv "" = hashFun useKeys m' := by
    intro jv hjv
    obtain ⟨hmX', hkey', hnone'⟩ := insSet_entry_shape st useKeys X _
      (List.getElem_mem hjv)
    refine ⟨((insSet st useKeys X)[jv]).2, hmX', ?_, ?_, ?_⟩
    · rw [List.getD_eq_getElem?_getD,
        List.getElem?_eq_getElem (by rw [hV2len]; exact hjv)]
      rw [List.getElem_map, List.getElem_map]
      rfl
    · rw [← hkey']
      exact hnone'
    · rw [List.getD_eq_getElem?_getD,
        List.getElem?_eq_getElem (by rw [List.length_map]; exact hjv)]
      rw [List.getElem_map]
      rw [hkey']
      rfl
  -- hash of one inserted record as materialized
  have hinshash : ∀ (m' : DBItem), m' ∈ X → ∀ num : Nat,
      hashFun useKeys (rowToItem st.keys num (serRow st.keys m')) =
        hashFun useKeys m' := by
    intro m' hm' num
    rw [serRow]
    exact hash_serialized_row st.keys useKeys num m' hndf hnds huk
      (hXuk m' hm')
      (fun k _ v hv => hXnn m' hm' (k, v) (lookup_some_mem _ _ _ hv))
  -- hash of an updated record as materialized: the current record's hash
  have hupdhash : ∀ (j : Nat), j < st.rows.length → ∀ (m : DBItem) (num : Nat),
      hashFun useKeys (rowToItem st.keys num (serRow st.keys
        (defaultUpdate (filterKeysFrom st.keys (useKeys ++ []))
          (rowToItem st.keys (st.dataRowFirst + j) (st.rows.getD j [])) m))) =
      hashFun useKeys (rowToItem st.keys (st.dataRowFirst + j) (st.rows.getD j [])) := by
    intro j hj m num
    rw [serRow]
    rw [hash_serialized_row st.keys useKeys num _ hndf hnds huk ?pres ?nn]
    · exact hash_defaultUpdate_useKeys st.keys useKeys _ m hndf
    case pres =>
      intro k hk
      rw [defaultUpdate_get_useKey st.keys useKeys _ m k hndf hk]
      exact (hitemuk j hj k hk).1
    case nn =>
      intro k hk v hv
      rw [defaultUpdate_get_useKey st.keys useKeys _ m k hndf hk] at hv
      exact (hitemuk j hj k hk).2 v hv
  -- the hash any ST1 row materializes to is its source row's hash
  have hST1hash : ∀ j, j < st.rows.length → ∀ num : Nat,
      hashFun useKeys (rowToItem st.keys num (ST1.rows.getD j [])) =
        hashFun useKeys (rowToItem st.keys (st.dataRowFirst + j) (st.rows.getD j [])) := by
    intro j hj num
    rcases hST1row j hj with ⟨he, -⟩ | ⟨q, hq, hqr, he⟩
    · rw [he]
      exact hashFun_rowToItem_num _ _ _ _ _
    · obtain ⟨j', hj', -, hrow, -, -, m, hmX, -, hqd, -⟩ := hUfact q hq
      have hje : j' = j := by
        rw [hrow] at hqr
        simp only [Option.getD_some] at hqr
        omega
      rw [hje] at hqd
      rw [he, hqd]
      exact hupdhash j hj m num
  -- now one incoming record at a time
  intro p hp
  rw [incGroup] at hp
  obtain ⟨n, hnX, hpe⟩ := List.mem_map.mp hp
  subst hpe
  show ∃ c2, (curGroup (mergeApply st useKeys X) useKeys).lookup (hashFun useKeys n) =
      some c2 ∧
    defaultIsUpdate (filterKeysFrom (mergeApply st useKeys X).keys (useKeys ++ []))
      c2 n = false
  have hnget : ∀ k v, n.get k = some v → v ≠ Value.vnull :=
    fun k v hv => hXnn n hnX (k, v) (lookup_some_mem _ _ _ hv)
  rcases hcur : (curGroup st useKeys).lookup (hashFun useKeys n) with _ | c
  · -- the record was inserted
    have hmemI : (hashFun useKeys n, n) ∈ insSet st useKeys X := by
      rw [insSet]
      exact mergeLoop1Ins_mem_intro _ _ _
        (by rw [incGroup]; exact List.mem_map.mpr ⟨n, hnX, rfl⟩) hcur
    obtain ⟨idx, hidx, hIe⟩ := List.mem_iff_getElem.mp hmemI
    have hInd : ((insSet st useKeys X).map Prod.fst).Nodup :=
      List.Nodup.sublist (mergeLoop1Ins_keys_sublist _ _) hincnd
    have hkidx : ((insSet st useKeys X).map Prod.fst).getD idx "" = hashFun useKeys n := by
      rw [List.getD_eq_getElem?_getD,
        List.getElem?_eq_getElem (by rw [List.length_map]; exact hidx),
        List.getElem_map, hIe]
      rfl
    have hVidx : (((insSet st useKeys X).map Prod.snd).map (serRow st.keys)).getD idx [] =
        serRow st.keys n := by
      rw [List.getD_eq_getElem?_getD,
        List.getElem?_eq_getElem (by rw [hV2len]; exact hidx),
        List.getElem_map, List.getElem_map, hIe]
      rfl
    have hVidxne : rowIsEmpty
        ((((insSet st useKeys X).map Prod.snd).map (serRow st.keys)).getD idx []) =
        false := by
      rw [hVidx]
      obtain ⟨pw, hpwk, hpwuse, vw, hvw, hvwne, hvwnn⟩ := hXw n hnX
      rw [serRow]
      exact serialized_row_nonempty st.keys n pw.1 pw.2 vw hnds hpwk hvw hvwne hvwnn
    have hsplitV := itemsOfRowsGo_split st.keys st.dataRowFirst
      (((insSet st useKeys X).map Prod.snd).map (serRow st.keys))
      (lastContentIdx st.rows) idx (by rw [hV2len]; exact hidx) hVidxne
    refine ⟨rowToItem st.keys (st.dataRowFirst + (lastContentIdx st.rows + idx))
      ((((insSet st useKeys X).map Prod.snd).map (serRow st.keys)).getD idx []), ?_, ?_⟩
    · rw [curGroup, buildObj_lookup, hCL2, hsplitV, ← List.append_assoc]
      apply getLast?_filter_concat
      · rw [hVidx, hinshash n hnX]
        exact beq_iff_eq.mpr rfl
      · intro x hx
        obtain ⟨j', hj', -, hxe⟩ := itemsOfRowsGo_mem _ _ _ _ x hx
        have hbound : idx + 1 + j' < (insSet st useKeys X).length := by
          rw [List.length_drop, hV2len] at hj'
          omega
        have hdropg := getD_drop'
          (((insSet st useKeys X).map Prod.snd).map (serRow st.keys)) (idx + 1) j' []
          (by rw [hV2len]; omega)
        obtain ⟨m', hm'X, hVg, -, hkg⟩ := hV2get (idx + 1 + j') hbound
        rw [hxe, hdropg, hVg, hinshash m' hm'X]
        rw [beq_eq_false_iff_ne]
        intro heq
        have hkne := nodup_getD_ne _ hInd idx (idx + 1 + j') ""
          (by rw [List.length_map]; exact hidx)
          (by rw [List.length_map]; exact hbound) (by omega)
        rw [hkidx, hkg] at hkne
        exact hkne heq.symm
    · rw [mergeApply_keys, hVidx, serRow]
      exact defaultIsUpdate_roundtrip st.keys useKeys _ n n hndf hnds
        (fun k _ _ => rfl) hnget
  · -- the record's hash already had a current row
    have hcur' := hcur
    rw [curGroup] at hcur'
    obtain ⟨hcCL, hchash⟩ := buildObj_lookup_some _ _ _ _ hcur'
    rw [currentItemsList_eq_go] at hcCL
    obtain ⟨jc, hjc, hempjc, hce⟩ := itemsOfRowsGo_mem _ _ _ 0 c hcCL
    rw [Nat.zero_add] at hce
    have hjclc : jc < lastContentIdx st.rows := by
      by_contra hcon
      push_neg at hcon
      have := lastContentIdx_empty_from st.rows jc hcon hjc
      rw [this] at hempjc
      exact Bool.noConfusion hempjc
    -- rows after `jc` never carry this hash
    have hlastc : ((itemsOfRowsGo st.keys st.dataRowFirst 0 st.rows).filter
        (fun x => hashFun useKeys x == hashFun useKeys n)).getLast? = some c := by
      have h0 := hcur
      rw [curGroup, buildObj_lookup, currentItemsList_eq_go] at h0
      exact h0
    have hCLsplit := itemsOfRowsGo_split st.keys st.dataRowFirst st.rows 0 jc hjc hempjc
    rw [Nat.zero_add, ← hce] at hCLsplit
    rw [hCLsplit] at hlastc
    have hcnot : c ∉ itemsOfRowsGo st.keys st.dataRowFirst (jc + 1)
        (st.rows.drop (jc + 1)) := by
      intro hmem
      obtain ⟨j3, hj3, -, hce3⟩ := itemsOfRowsGo_mem _ _ _ _ c hmem
      have hrowc : c.row = some (st.dataRowFirst + jc) := by
        rw [hce, rowToItem_row]
      rw [hce3, rowToItem_row] at hrowc
      injection hrowc with hval
      omega
    have hnosuf := lookup_last_suffix_no_match (hashFun useKeys) _ _ c
      (hashFun useKeys n) hlastc hcnot
    have hsufhash : ∀ j2, jc < j2 → j2 < st.rows.length →
        rowIsEmpty (ST1.rows.getD j2 []) = false →
        ∀ num : Nat,
        hashFun useKeys (rowToItem st.keys num (ST1.rows.getD j2 [])) ≠
          hashFun useKeys n := by
      intro j2 hgt hj2 hne2 num
      rw [hST1hash j2 hj2 num]
      have hstne2 : rowIsEmpty (st.rows.getD j2 []) = false := by
        rw [← hST1emp j2 hj2]
        exact hne2
      have hidxa : jc + 1 + (j2 - (jc + 1)) = j2 := by omega
      have hg : (st.rows.drop (jc + 1)).getD (j2 - (jc + 1)) [] = st.rows.getD j2 [] := by
        rw [getD_drop' st.rows (jc + 1) (j2 - (jc + 1)) [] (by omega), hidxa]
      have hmem2 := itemsOfRowsGo_mem_intro st.keys st.dataRowFirst
        (st.rows.drop (jc + 1)) (jc + 1) (j2 - (jc + 1))
        (by rw [List.length_drop]; omega) (by rw [hg]; exact hstne2)
      rw [hidxa, hg] at hmem2
      exact hnosuf _ hmem2
    -- which current record the row carries after the update phase
    rcases hST1row jc hjc with ⟨heq, hnoq⟩ | ⟨q, hq, hqr, heq⟩
    · -- no update touched the row: its record is `c`, and the test is quiet
      have hupfalse : defaultIsUpdate (filterKeysFrom st.keys (useKeys ++ [])) c n =
          false := by
        cases hup : defaultIsUpdate (filterKeysFrom st.keys (useKeys ++ [])) c n with
        | false => rfl
        | true =>
          exfalso
          have hmem := mergeLoop1Upd_mem_intro (curGroup st useKeys)
            (defaultIsUpdate (filterKeysFrom st.keys (useKeys ++ [])))
            (defaultUpdate (filterKeysFrom st.keys (useKeys ++ [])))
            (incGroup useKeys X) (hashFun useKeys n, n) c
            (by rw [incGroup]; exact List.mem_map.mpr ⟨n, hnX, rfl⟩) hcur hup
          have hrow : (defaultUpdate (filterKeysFrom st.keys (useKeys ++ [])) c n).row =
              some (st.dataRowFirst + jc) := by
            rw [defaultUpdate_row, hce, rowToItem_row]
          refine hnoq ((hashFun useKeys n, n).1,
            defaultUpdate (filterKeysFrom st.keys (useKeys ++ [])) c n) hmem ?_
          show (defaultUpdate (filterKeysFrom st.keys (useKeys ++ [])) c n).row.getD 0 = _
          rw [hrow]
          rfl
      refine ⟨c, ?_, ?_⟩
      · rw [curGroup, buildObj_lookup, hCL2]
        have hjcA : jc < (ST1.rows.take (lastContentIdx st.rows)).length := by
          rw [hA2len]
          exact hjclc
        have hA2jc : (ST1.rows.take (lastContentIdx st.rows)).getD jc [] =
            ST1.rows.getD jc [] := getD_take' _ _ _ _ hjclc
        have hempA : rowIsEmpty
            ((ST1.rows.take (lastContentIdx st.rows)).getD jc []) = false := by
          rw [hA2jc, heq]
          exact hempjc
        have hsplitA := itemsOfRowsGo_split st.keys st.dataRowFirst
          (ST1.rows.take (lastContentIdx st.rows)) 0 jc hjcA hempA
        rw [Nat.zero_add, hA2jc, heq, ← hce] at hsplitA
        rw [hsplitA, List.append_assoc, List.cons_append]
        apply getLast?_filter_concat
        · exact beq_iff_eq.mpr hchash
        · intro x hx
          rcases List.mem_append.mp hx with hxa | hxv
          · obtain ⟨j', hj', hne', hxe⟩ := itemsOfRowsGo_mem _ _ _ _ x hxa
            have hj'A : jc + 1 + j' < lastContentIdx st.rows := by
              rw [List.length_drop, hA2len] at hj'
              omega
            have hdg : ((ST1.rows.take (lastContentIdx st.rows)).drop (jc + 1)).getD
                j' [] = ST1.rows.getD (jc + 1 + j') [] := by
              rw [getD_drop' _ (jc + 1) j' [] (by rw [hA2len]; omega)]
              exact getD_take' _ _ _ _ hj'A
            rw [hxe, hdg]
            rw [hdg] at hne'
            rw [beq_eq_false_iff_ne]
            exact hsufhash (jc + 1 + j') (by omega)
              (by
                have := lastContentIdx_le_length st.rows
                omega) hne' _
          · obtain ⟨jv, hjv, -, hxe⟩ := itemsOfRowsGo_mem _ _ _ _ x hxv
            rw [hV2len] at hjv
            obtain ⟨m', hm'X, hVg, hnone', -⟩ := hV2get jv hjv
            rw [hxe, hVg, hinshash m' hm'X, beq_eq_false_iff_ne]
            intro heqh
            rw [heqh] at hnone'
            rw [hnone'] at hcur
            exact Option.noConfusion hcur
      · rw [mergeApply_keys]
        exact hupfalse
    · -- the row was rewritten by this hash's own update entry
      obtain ⟨j', hj', -, hrow, hlkq, hhashq, m, hmX, hkeym, hqd, hium⟩ := hUfact q hq
      have hje : j' = jc := by
        rw [hrow] at hqr
        simp only [Option.getD_some] at hqr
        omega
      rw [hje] at hrow hlkq hhashq hqd hium
      -- the entry's hash is this record's hash, so its incoming record is `n`
      have hqkey : q.1 = hashFun useKeys n := by
        rw [← hhashq, ← hce]
        exact hchash
      have hmn : m = n := by
        have h1 : hashFun useKeys m = hashFun useKeys n := by
          rw [← hkeym, hqkey]
        exact List.inj_on_of_nodup_map hXnd hmX hnX h1
      rw [hmn] at hqd hium
      refine ⟨rowToItem st.keys (st.dataRowFirst + jc) (ST1.rows.getD jc []), ?_, ?_⟩
      · rw [curGroup, buildObj_lookup, hCL2]
        have hjcA : jc < (ST1.rows.take (lastContentIdx st.rows)).length := by
          rw [hA2len]
          exact hjclc
        have hA2jc : (ST1.rows.take (lastContentIdx st.rows)).getD jc [] =
            ST1.rows.getD jc [] := getD_take' _ _ _ _ hjclc
        have hempA : rowIsEmpty
            ((ST1.rows.take (lastContentIdx st.rows)).getD jc []) = false := by
          rw [hA2jc, heq, hqd]
          exact hupdne _ n hnX
        have hsplitA := itemsOfRowsGo_split st.keys st.dataRowFirst
          (ST1.rows.take (lastContentIdx st.rows)) 0 jc hjcA hempA
        rw [Nat.zero_add, hA2jc] at hsplitA
        rw [hsplitA, List.append_assoc, List.cons_append]
        apply getLast?_filter_concat
        · rw [heq, hqd, hupdhash jc hjc n _, ← hce]
          exact beq_iff_eq.mpr hchash
        · intro x hx
          rcases List.mem_append.mp hx with hxa | hxv
          · obtain ⟨j', hj'2, hne', hxe⟩ := itemsOfRowsGo_mem _ _ _ _ x hxa
            have hj'A : jc + 1 + j' < lastContentIdx st.rows := by
              rw [List.length_drop, hA2len] at hj'2
              omega
            have hdg : ((ST1.rows.take (lastContentIdx st.rows)).drop (jc + 1)).getD
                j' [] = ST1.rows.getD (jc + 1 + j') [] := by
              rw [getD_drop' _ (jc + 1) j' [] (by rw [hA2len]; omega)]
              exact getD_take' _ _ _ _ hj'A
            rw [hxe, hdg]
            rw [hdg] at hne'
            rw [beq_eq_false_iff_ne]
            exact hsufhash (jc + 1 + j') (by omega)
              (by
                have := lastContentIdx_le_length st.rows
                omega) hne' _
          · obtain ⟨jv, hjv, -, hxe⟩ := itemsOfRowsGo_mem _ _ _ _ x hxv
            rw [hV2len] at hjv
            obtain ⟨m', hm'X, hVg, hnone', -⟩ := hV2get jv hjv
            rw [hxe, hVg, hinshash m' hm'X, beq_eq_false_iff_ne]
            intro heqh
            rw [heqh] at hnone'
            rw [hnone'] at hcur
            exact Option.noConfusion hcur
      · rw [mergeApply_keys, heq, hqd, serRow]
        apply defaultIsUpdate_roundtrip st.keys useKeys _ _ n hndf hnds ?agree hnget
        case agree =>
          intro k hkc hks
          rw [defaultUpdate_get _ _ _ _ hcmpnd, if_pos ⟨hkc, hks⟩]

/-- **C4** (amended): re-merging the same record array with the same keys
is idempotent once the counterexample's failure modes are excluded — with
pairwise-distinct incoming hashes, no explicit `null` field values, every
hash key present in every incoming record, and each incoming record
carrying a non-key schema field whose value is neither absent nor `""`
(and the store's cells themselves never `null`), the first merge returns
some `{updated, inserted, deleted: 0}` and a second identical merge
returns `{updated: 0, inserted: 0, deleted: 0}` and leaves the region
untouched. -/
theorem claim4_merge_idempotence (st : Store) (X : List DBItem) (useKeys : List String)
    (hndf : (st.keys.map Prod.fst).Nodup)
    (hnds : (st.keys.map Prod.snd).Nodup)
    (hukne : useKeys ≠ [])
    (huk : ∀ k ∈ useKeys, k ∈ st.keys.map Prod.fst)
    (hcells : ∀ r ∈ st.rows, ∀ c ∈ r, c ≠ Value.vnull)
    (hXnd : (X.map (hashFun useKeys)).Nodup)
    (hXnn : ∀ it ∈ X, ∀ kv ∈ it.fields, kv.2 ≠ Value.vnull)
    (hXuk : ∀ it ∈ X, ∀ k ∈ useKeys, (it.get k).isSome = true)
    (hXw : ∀ it ∈ X, ∃ p ∈ st.keys, p.1 ∉ useKeys ∧ ∃ v, it.get p.1 = some v ∧
      v ≠ Value.str "" ∧ v ≠ Value.vnull) :
    ∃ u i st1,
      mergeDataItems st X useKeys none none none none none [] = .ok ((u, i, 0), st1) ∧
      mergeDataItems st1 X useKeys none none none none none [] =
        .ok ((0, 0, 0), st1) := by
  refine ⟨(updSet st useKeys X).length, (insSet st useKeys X).length,
    mergeApply st useKeys X, mergeDataItems_none_eval st X useKeys hukne huk hXnd, ?_⟩
  have hnoop := mergeApply_second_noop st useKeys X hndf hnds hukne huk hcells hXnd
    hXnn hXuk hXw
  have hkeys2 := mergeApply_keys st useKeys X
  have heval2 := mergeDataItems_none_eval (mergeApply st useKeys X) X useKeys hukne
    (by rw [hkeys2]; exact huk) hXnd
  obtain ⟨hU2, hI2, hMA2⟩ := mergeApply_of_noop (mergeApply st useKeys X) useKeys X hnoop
  rw [heval2, hU2, hI2, hMA2]
  rfl

/-- Witness for `claim4_merge_idempotence`: merging
`[{sku: "A", qty: 7}, {sku: "C", qty: 1}]` into a store holding `["A", 5]`
at row 2 (one update and one insert), then merging the same array again. -/
theorem claim4_merge_idempotence_witness :
    ∃ u i st1,
      mergeDataItems ⟨skuQtyKeys, 2, [[Value.str "A", Value.num 5]]⟩
        [itemA7, ⟨[("sku", Value.str "C"), ("qty", Value.num 1)], none⟩] ["sku"]
        none none none none none [] = .ok ((u, i, 0), st1) ∧
      mergeDataItems st1
        [itemA7, ⟨[("sku", Value.str "C"), ("qty", Value.num 1)], none⟩] ["sku"]
        none none none none none [] = .ok ((0, 0, 0), st1) :=
  claim4_merge_idempotence ⟨skuQtyKeys, 2, [[Value.str "A", Value.num 5]]⟩
    [itemA7, ⟨[("sku", Value.str "C"), ("qty", Value.num 1)], none⟩] ["sku"]
    (by decide) (by decide) (by decide) (by decide) (by decide) (by decide)
    (by decide) (by decide) (by decide)

/-- **C4** (counterexample): merging `X = [{sku: "A", qty: null}]` into a
store holding `["A", 5]` updates row 2 and persists the `null` as the
cell `""`; the second `merge(X, keys)` call then reads the cell back as
the string `""`, which is *not* loosely equal to `null`, so it reports
`{updated: 1, inserted: 0, deleted: 0}` again instead of all zeros —
refuting idempotence as claimed. -/
theorem claim4_counterexample :
    mergeDataItems ⟨skuQtyKeys, 2, [[Value.str "A", Value.num 5]]⟩ [c4item] ["sku"]
      none none none none none [] =
      .ok ((1, 0, 0), ⟨skuQtyKeys, 2, [[Value.str "A", Value.str ""]]⟩) ∧
    mergeDataItems ⟨skuQtyKeys, 2, [[Value.str "A", Value.str ""]]⟩ [c4item] ["sku"]
      none none none none none [] =
      .ok ((1, 0, 0), ⟨skuQtyKeys, 2, [[Value.str "A", Value.str ""]]⟩) ∧
    ((1, 0, 0) : Nat × Nat × Nat) ≠ (0, 0, 0) :=
  ⟨rfl, rfl, by decide⟩

end DBJS
